import Mathlib

/-!
# MetaVrSM::Config text codec (src/cc/meta/MetaVrSM.h)

Shallow embedding of `MetaVrSM::Config::Node::Insert/Extract` and
`MetaVrSM::Config::Insert/Extract`.

The two member templates are generic in the stream type `ST`.  The stream is
embedded at the level of the pieces into which the extractions take the text
apart (tokens): integer literals and other text.

* an input stream is either good, holding the pieces not yet consumed, or
  failed (`failbit` set; every later extraction is then a no-op that fails,
  the code never clears the state);
* an output stream is the sequence of values and delimiters written so far.

Where the text is written with a delimiter before every value, as `Insert`
writes it, the pieces are its whitespace delimited tokens.  In other texts a
whitespace delimited token may fall into several pieces: a numeric extraction
reads an integer literal as far as it goes and leaves what follows in the
stream, so that `16x` is the literal 16 followed by the piece `x`
(`Token.lexemes`).

`ServerLocation`, its stream operators and the integer typedefs `seq_t` and
`vrNodeId_t` live in `common/kfsdecls.h` and `common/kfstypes.h`; they are
taken as parameters (`Decls`).
-/

namespace KFS

/-! ## Streams -/

/-- A piece of the text, as the extractions take the text apart: `num z` is a
decimal integer literal denoting `z`, which a numeric extraction reads as far
as it goes, up to whitespace or to the first character that does not belong to
it; `word w` is a piece that is no integer literal: where a numeric extraction
meets it, text that does not begin with one. -/
inductive Token where
  | num (z : Int)
  | word (w : String)
  deriving DecidableEq

/-- Input stream: the pieces of the text still to be read, or the failed state. -/
inductive IStream where
  | good (toks : List Token)
  | failed
  deriving DecidableEq

/-- The stream test `! inStream`: true when `failbit` is set. -/
def IStream.fail : IStream → Bool
  | .good _ => false
  | .failed => true

/-- The call `inStream.setstate(ST::failbit)`. -/
def IStream.setstate (_s : IStream) : IStream := .failed

/-- Number of tokens still to be read. -/
def IStream.remaining : IStream → Nat
  | .good toks => toks.length
  | .failed => 0

/-- Conversion of the piece a numeric extraction meets to an unsigned `w` bit
integer, as `num_get` does it: the value stored in the variable and whether the
conversion succeeded.  A literal with a minus sign is negated in the unsigned
type; a magnitude that does not fit stores the largest value and fails; text
that does not begin with an integer literal stores zero and fails. -/
def convUnsigned (w : Nat) : Token → Nat × Bool
  | .num z => if z.natAbs < 2 ^ w then ((z % (2 ^ w : Int)).toNat, true) else (2 ^ w - 1, false)
  | .word _ => (0, false)

/-- Conversion of the piece a numeric extraction meets to a signed `w` bit
integer: a value below or above the range stores the smallest or largest value
and fails; text that does not begin with an integer literal stores zero and
fails. -/
def convSigned (w : Nat) : Token → Int × Bool
  | .num z =>
    if z < -(2 ^ (w - 1) : Int) then (-(2 ^ (w - 1) : Int), false)
    else if (2 ^ (w - 1) : Int) ≤ z then ((2 ^ (w - 1) : Int) - 1, false)
    else (z, true)
  | .word _ => (0, false)

/-- The extraction `inStream >> x` for an unsigned `w` bit `x` holding `old`:
the content of `x` afterwards and the stream afterwards. -/
def IStream.getUnsigned (w : Nat) (old : Nat) : IStream → Nat × IStream
  | .failed => (old, .failed)
  | .good [] => (old, .failed)
  | .good (t :: r) =>
    match convUnsigned w t with
    | (v, true) => (v, .good r)
    | (v, false) => (v, .failed)

/-- The extraction `inStream >> x` for a signed `w` bit `x` holding `old`. -/
def IStream.getSigned (w : Nat) (old : Int) : IStream → Int × IStream
  | .failed => (old, .failed)
  | .good [] => (old, .failed)
  | .good (t :: r) =>
    match convSigned w t with
    | (v, true) => (v, .good r)
    | (v, false) => (v, .failed)

/-- The integer literal at the head of a text, as `num_get` takes it in the
decimal base: an optional sign and then decimal digits, as many as there are and
at least one; the number denoted and the text left after it. -/
def numPrefix (cs : List Char) : Option (Int × List Char) :=
  let body := match cs with
    | '-' :: r => r
    | '+' :: r => r
    | _ => cs
  let ds := body.takeWhile Char.isDigit
  if ds.isEmpty then none
  else
    let v : Nat := ds.foldl (fun a c => 10 * a + (c.toNat - 48)) 0
    some (match cs with
      | '-' :: _ => -(v : Int)
      | _ => (v : Int), body.dropWhile Char.isDigit)

/-- A whitespace delimited token of a text taken as one field of an encoding: a
number when the whole of it is an integer literal, a word otherwise. -/
def Token.whole (w : String) : Token :=
  match numPrefix w.data with
  | some (z, []) => .num z
  | _ => .word w

/-- The pieces into which numeric extractions take a text without whitespace
apart: the integer literal it begins with, if there is one, then the pieces of
what follows it; a text that begins with no literal is one piece.  There are at
most as many pieces as the budget, set to the number of characters. -/
def lexemesAux : Nat → List Char → List Token
  | 0, _ => []
  | fuel + 1, cs =>
    if cs.isEmpty then []
    else
      match numPrefix cs with
      | some (z, rest) => .num z :: lexemesAux fuel rest
      | none => [.word (String.mk cs)]

/-- The pieces of a whitespace delimited token that numeric extractions meet:
`16x` is the literal 16 followed by `x`. -/
def Token.lexemes (w : String) : List Token :=
  lexemesAux w.length w.data

/-- What is written to an output stream: a value (one token of the text) or the
default delimiter `" "`. -/
inductive Piece where
  | tok (t : Token)
  | sp
  deriving DecidableEq

/-- Output stream: everything written so far, in order. -/
abbrev OStream := List Piece

/-- The whitespace separated tokens of a written text. -/
def OStream.tokens (s : OStream) : List Token :=
  s.filterMap fun p => match p with
    | .tok t => some t
    | .sp => none

/-- Declarations of `common/kfstypes.h` and `common/kfsdecls.h` used by the
codec, taken as parameters: the widths of the signed typedefs `seq_t` and
`vrNodeId_t`, `ServerLocation::IsValid`, the two stream operators of
`ServerLocation`, and `maxLocations`, the value of
`vector<ServerLocation>::max_size()`, which depends on the size of a
`ServerLocation`.  `get toks` is `none` when the extraction fails, else the
location read together with the number of tokens it consumed. -/
structure Decls (Loc : Type) where
  seqBits : Nat
  nodeIdBits : Nat
  IsValid : Loc → Bool
  put : Loc → List Token
  get : List Token → Option (Loc × Nat)
  maxLocations : Nat

/-- The extraction `inStream >> theLocation`. -/
def IStream.getLoc {Loc : Type} (D : Decls Loc) : IStream → Option Loc × IStream
  | .failed => (none, .failed)
  | .good toks =>
    match D.get toks with
    | none => (none, .failed)
    | some (l, k) => (some l, .good (toks.drop k))

/-- Width of `int`. -/
def kIntBits : Nat := 32

/-- Width of `size_t` and of `Flags` (`uint64_t`). -/
def kSizeBits : Nat := 64

/-- Width of `uint32_t`. -/
def kUInt32Bits : Nat := 32

/-! ## Config::Node -/

/-- The flag constant `kFlagsNone`. -/
def kFlagsNone : Nat := 0

/-- The flag constant `kFlagWitness`. -/
def kFlagWitness : Nat := 1

/-- The flag constant `kFlagActive`. -/
def kFlagActive : Nat := 2

/-- Whether a flag word includes the flag `f` (`flags & f` is not zero). -/
def hasFlag (flags f : Nat) : Bool := flags &&& f != 0

/-- The class `Config::Node`. -/
structure Node (Loc : Type) where
  mFlags : Nat
  mPrimaryOrder : Int
  mLocations : List Loc
  deriving DecidableEq

/-- The member `Node::Clear`. -/
def Node.Clear {Loc : Type} (_self : Node Loc) : Node Loc :=
  { mFlags := kFlagsNone, mPrimaryOrder := 0, mLocations := [] }

/-- The member `Node::Insert` with the default delimiter. -/
def Node.Insert {Loc : Type} (D : Decls Loc) (self : Node Loc) (inStream : OStream) : OStream :=
  let s := inStream ++ [.tok (.num self.mLocations.length), .sp,
    .tok (.num self.mFlags), .sp, .tok (.num self.mPrimaryOrder)]
  self.mLocations.foldl (fun acc l => acc ++ [Piece.sp] ++ (D.put l).map Piece.tok) s

/-- The location loop of `Node::Extract`,
`while (mLocations.size() < theSize) { ... }`, with `k` the number
`theSize - mLocations.size()` that the loop condition compares with zero. -/
def Node.extractLocations {Loc : Type} (D : Decls Loc) :
    Nat → List Loc → IStream → List Loc × IStream
  | 0, locs, s => (locs, s)
  | k + 1, locs, s =>
    match s.getLoc D with
    | (none, s1) => (locs, s1)
    | (some theLocation, s1) =>
      if ! D.IsValid theLocation then (locs, s1)
      else Node.extractLocations D k (locs ++ [theLocation]) s1

/-- The member `Node::Extract`: the node and the stream afterwards, or `none`
when the call is left by an exception.  A failed extraction of a field returns
at once, leaving in the node what has been stored so far.  The call
`mLocations.reserve(theSize)` throws `std::length_error` when `theSize` exceeds
`max_size()`, and the exception leaves `Extract`; otherwise it only sets a
capacity (a failure to allocate is not modelled). -/
def Node.Extract {Loc : Type} (D : Decls Loc) (self : Node Loc) (inStream : IStream) :
    Option (Node Loc × IStream) :=
  let n0 := self.Clear
  let r1 := inStream.getUnsigned kSizeBits 0
  if r1.2.fail then some (n0, r1.2) else
  let theSize := r1.1
  let r2 := r1.2.getUnsigned kSizeBits n0.mFlags
  if r2.2.fail then some ({ n0 with mFlags := r2.1 }, r2.2) else
  let r3 := r2.2.getSigned kIntBits n0.mPrimaryOrder
  if r3.2.fail then some ({ n0 with mFlags := r2.1, mPrimaryOrder := r3.1 }, r3.2) else
  if D.maxLocations < theSize then none else
  let r4 := Node.extractLocations D (theSize - n0.mLocations.length) n0.mLocations r3.2
  if r4.1.length != theSize then
    some (Node.Clear { mFlags := r2.1, mPrimaryOrder := r3.1, mLocations := r4.1 },
      r4.2.setstate)
  else some ({ mFlags := r2.1, mPrimaryOrder := r3.1, mLocations := r4.1 }, r4.2)

/-! ## Config -/

/-- The map type `Config::Nodes`: the entries in ascending key order. -/
abbrev Nodes (Loc : Type) := List (Int × Node Loc)

/-- The call `mNodes.insert(make_pair(inId, inNode))`: the map afterwards, the
entry the returned iterator points to, and whether the pair was inserted. -/
def Nodes.insert {Loc : Type} : Nodes Loc → Int → Node Loc → Nodes Loc × Node Loc × Bool
  | [], k, v => ([(k, v)], v, true)
  | (k1, v1) :: m, k, v =>
    if k < k1 then ((k, v) :: (k1, v1) :: m, v, true)
    else if k = k1 then ((k1, v1) :: m, v1, false)
    else
      let r := Nodes.insert m k v
      ((k1, v1) :: r.1, r.2.1, r.2.2)

/-- The assignment `mNodes[inId] = inNode`. -/
def Nodes.assign {Loc : Type} : Nodes Loc → Int → Node Loc → Nodes Loc
  | [], k, v => [(k, v)]
  | (k1, v1) :: m, k, v =>
    if k < k1 then (k, v) :: (k1, v1) :: m
    else if k = k1 then (k1, v) :: m
    else (k1, v1) :: Nodes.assign m k v

/-- Lookup of a key in the map. -/
def Nodes.find {Loc : Type} : Nodes Loc → Int → Option (Node Loc)
  | [], _ => none
  | (k1, v1) :: m, k => if k = k1 then some v1 else Nodes.find m k

/-- The class `Config`. -/
structure Config (Loc : Type) where
  mNodes : Nodes Loc
  mPrimaryTimeout : Int
  mBackupTimeout : Int
  mChangeVewMaxLogDistance : Int
  mMaxListenersPerNode : Nat
  deriving DecidableEq

/-- The member `Config::IsEmpty`. -/
def Config.IsEmpty {Loc : Type} (self : Config Loc) : Bool := self.mNodes.isEmpty

/-- The member `Config::Insert` with the default delimiters. -/
def Config.Insert {Loc : Type} (D : Decls Loc) (self : Config Loc) (inStream : OStream) :
    OStream :=
  let s := inStream ++ [.tok (.num self.mNodes.length), .sp,
    .tok (.num self.mPrimaryTimeout), .sp,
    .tok (.num self.mBackupTimeout), .sp,
    .tok (.num self.mChangeVewMaxLogDistance), .sp,
    .tok (.num self.mMaxListenersPerNode), .sp]
  self.mNodes.foldl
    (fun acc e => Node.Insert D e.2 (acc ++ [Piece.sp, .tok (.num e.1), .sp])) s

/-- The default constructed `Node()`. -/
def Node.init {Loc : Type} : Node Loc :=
  { mFlags := kFlagsNone, mPrimaryOrder := 0, mLocations := [] }

/-- What the node loop of `Config::Extract` does with a record it has read
(lines 253 to 259): insert it, and when the key was already present and the new
record has the lower primary order, overwrite the entry. -/
def Nodes.ingest {Loc : Type} (nodes : Nodes Loc) (theId : Int) (theNode : Node Loc) :
    Nodes Loc :=
  let theRes := Nodes.insert nodes theId theNode
  if ! theRes.2.2 && theNode.mPrimaryOrder < theRes.2.1.mPrimaryOrder then
    Nodes.assign theRes.1 theId theNode
  else theRes.1

/-- The node loop of `Config::Extract`,
`while (mNodes.size() < theSize) { ... }`: the map and the stream when the loop
is left; `none` when an exception thrown in `Node::Extract` leaves the loop, or
when the iteration budget `fuel` is used up first. -/
def Config.extractNodes {Loc : Type} (D : Decls Loc) (theSize : Nat) :
    Nat → Nodes Loc → IStream → Option (Nodes Loc × IStream)
  | 0, _, _ => none
  | fuel + 1, nodes, s =>
    if nodes.length < theSize then
      let rId := s.getSigned D.nodeIdBits (-1)
      if rId.2.fail || rId.1 < 0 then some ([], rId.2)
      else
        match Node.Extract D Node.init rId.2 with
        | none => none
        | some rNode =>
          if rNode.2.fail then some ([], rNode.2)
          else Config.extractNodes D theSize fuel (Nodes.ingest nodes rId.1 rNode.1) rNode.2
    else some (nodes, s)

/-- The member `Config::Extract`: the configuration and the stream afterwards.
The four parameters are read into locals and stored in the target only at the
end.  The result is `none` when the call is left by the exception that
`Node::Extract` lets through (`std::length_error` from `reserve`).  The node
loop reads at least one token in every iteration it completes, so it is run
with one iteration more than there are tokens left, a budget that is never used
up (`Extract_none`). -/
def Config.Extract {Loc : Type} (D : Decls Loc) (self : Config Loc) (inStream : IStream) :
    Option (Config Loc × IStream) :=
  let c0 := { self with mNodes := [] }
  let r1 := inStream.getUnsigned kSizeBits 0
  if r1.2.fail then some (c0, r1.2) else
  let theSize := r1.1
  let r2 := r1.2.getSigned kIntBits (-1)
  if r2.2.fail || r2.1 ≤ 0 then some (c0, r2.2.setstate) else
  let r3 := r2.2.getSigned kIntBits (-1)
  if r3.2.fail || r3.1 ≤ 0 then some (c0, r3.2.setstate) else
  let r4 := r3.2.getSigned D.seqBits (-1)
  if r4.2.fail || r4.1 < 0 then some (c0, r4.2.setstate) else
  let r5 := r4.2.getUnsigned kUInt32Bits 0
  if r5.2.fail || r5.1 ≤ 0 then some (c0, r5.2.setstate) else
  match Config.extractNodes D theSize (r5.2.remaining + 1) c0.mNodes r5.2 with
  | none => none
  | some (nodes, s6) =>
    if nodes.length != theSize then some ({ c0 with mNodes := [] }, s6.setstate)
    else if ! s6.fail then
      some ({ mNodes := nodes, mPrimaryTimeout := r2.1, mBackupTimeout := r3.1,
              mChangeVewMaxLogDistance := r4.1, mMaxListenersPerNode := r5.1 }, s6)
    else some ({ c0 with mNodes := nodes }, s6)

/-! ## A concrete instance of the parameters -/

/-- Modelled from the spec: the class `ServerLocation` of `common/kfsdecls.h`,
which is not among the sources; a location is a `(host, port)` pair. -/
structure ServerLocation where
  hostname : String
  port : Int
  deriving DecidableEq

/-- The value of a non empty string of decimal digits. -/
def decimal (ds : List Char) : Option Nat :=
  if ds.isEmpty || ! ds.all Char.isDigit then none
  else some (ds.foldl (fun a c => 10 * a + (c.toNat - 48)) 0)

/-- Modelled from the spec: the text of a location, `host:port`. -/
def showLocation (l : ServerLocation) : String :=
  l.hostname ++ ":" ++ toString l.port

/-- Modelled from the spec: the location a token `host:port` stands for, the
host being what precedes the first colon and the port a decimal `int` after
it. -/
def parseLocation (w : String) : Option ServerLocation :=
  match w.data.dropWhile (· != ':') with
  | ':' :: ds =>
    match decimal ds with
    | some p =>
      if p < 2 ^ (kIntBits - 1) then some ⟨String.mk (w.data.takeWhile (· != ':')), p⟩
      else none
    | none => none
  | _ => none

/-- Modelled from the spec: the declarations of `common/kfstypes.h` and
`common/kfsdecls.h` that are not among the sources, for use with concrete
inputs.  `seq_t` and `vrNodeId_t` are 64 bit; a location is valid when it has a
host name and a positive port; it is written as the single token `host:port` and
read back from such a token; a vector holds at most `2 ^ 58` locations. -/
def stdDecls : Decls ServerLocation where
  seqBits := 64
  nodeIdBits := 64
  maxLocations := 2 ^ 58
  IsValid := fun l => l.hostname != "" && decide (0 < l.port)
  put := fun l => [.word (showLocation l)]
  get := fun toks =>
    match toks with
    | .word w :: _ =>
      match parseLocation w with
      | some l => some (l, 1)
      | none => none
    | _ => none

/-! ## The text format, as the specification words it -/

/-- Consecutive locations at the head of a token list: `LocsAt D toks locs rest`
says that `toks` starts with the text of the locations `locs`, in order, and
continues with `rest`. -/
inductive LocsAt {Loc : Type} (D : Decls Loc) : List Token → List Loc → List Token → Prop where
  | nil (toks : List Token) : LocsAt D toks [] toks
  | cons {toks : List Token} {l : Loc} {k : Nat} {locs : List Loc} {rest : List Token} :
      D.get toks = some (l, k) → LocsAt D (toks.drop k) locs rest →
      LocsAt D toks (l :: locs) rest

/-- One node record `nodeId locationCount flags primaryOrder loc1 loc2 …` at the
head of a token list: the id is a non negative `vrNodeId_t`, count, flags and
order are numbers of their types, and exactly `locationCount` locations follow,
each of them valid; `locationCount` is the size of a vector of locations, at
most `max_size()`. -/
inductive RecordAt {Loc : Type} (D : Decls Loc) :
    List Token → Int × Node Loc → List Token → Prop where
  | mk {tId tCount tFlags tOrder : Token} {toks rest : List Token}
      {theId : Int} {count flags : Nat} {order : Int} {locs : List Loc} :
      convSigned D.nodeIdBits tId = (theId, true) → 0 ≤ theId →
      convUnsigned kSizeBits tCount = (count, true) →
      convUnsigned kSizeBits tFlags = (flags, true) →
      convSigned kIntBits tOrder = (order, true) →
      LocsAt D toks locs rest → locs.length = count → (∀ l ∈ locs, D.IsValid l = true) →
      count ≤ D.maxLocations →
      RecordAt D (tId :: tCount :: tFlags :: tOrder :: toks)
        (theId, { mFlags := flags, mPrimaryOrder := order, mLocations := locs }) rest

/-- Consecutive node records at the head of a token list. -/
inductive RecordsAt {Loc : Type} (D : Decls Loc) :
    List Token → List (Int × Node Loc) → List Token → Prop where
  | nil (toks : List Token) : RecordsAt D toks [] toks
  | cons {toks mid rest : List Token} {e : Int × Node Loc} {recs : List (Int × Node Loc)} :
      RecordAt D toks e mid → RecordsAt D mid recs rest → RecordsAt D toks (e :: recs) rest

/-- A node record at the head of a token list that declares more locations than
a vector can hold: the id is a non negative `vrNodeId_t`, count, flags and order
are numbers of their types, and the count exceeds `max_size()`. -/
def OversizedAt {Loc : Type} (D : Decls Loc) (toks : List Token) : Prop :=
  ∃ (tId tCount tFlags tOrder : Token) (rest : List Token) (theId : Int) (count flags : Nat)
    (order : Int),
    toks = tId :: tCount :: tFlags :: tOrder :: rest ∧
    convSigned D.nodeIdBits tId = (theId, true) ∧ 0 ≤ theId ∧
    convUnsigned kSizeBits tCount = (count, true) ∧
    convUnsigned kSizeBits tFlags = (flags, true) ∧
    convSigned kIntBits tOrder = (order, true) ∧ D.maxLocations < count

/-- Number of distinct node ids among a list of records. -/
def distinctIds {Loc : Type} (recs : List (Int × Node Loc)) : Nat :=
  (recs.map Prod.fst).toFinset.card

/-- The five leading fields at the head of a stream: the stream is good and
starts with `nodeCount primaryTimeout backupTimeout changeViewMaxLogDistance
maxListenersPerNode`, each a number of its type, with `primaryTimeout > 0`,
`backupTimeout > 0`, `changeViewMaxLogDistance ≥ 0` and `maxListenersPerNode ≠ 0`;
`toks` is what follows them. -/
def HeaderAt {Loc : Type} (D : Decls Loc) (s : IStream) (nodeCount : Nat)
    (primaryTimeout backupTimeout distance : Int) (listeners : Nat) (toks : List Token) : Prop :=
  ∃ (tCount tPrimary tBackup tDistance tListeners : Token),
    s = .good (tCount :: tPrimary :: tBackup :: tDistance :: tListeners :: toks) ∧
    convUnsigned kSizeBits tCount = (nodeCount, true) ∧
    convSigned kIntBits tPrimary = (primaryTimeout, true) ∧ 0 < primaryTimeout ∧
    convSigned kIntBits tBackup = (backupTimeout, true) ∧ 0 < backupTimeout ∧
    convSigned D.seqBits tDistance = (distance, true) ∧ 0 ≤ distance ∧
    convUnsigned kUInt32Bits tListeners = (listeners, true) ∧ listeners ≠ 0

/-- A well formed encoding: the five leading fields followed by node records
that bear `nodeCount` distinct ids. -/
def WellFormed {Loc : Type} (D : Decls Loc) (s : IStream) : Prop :=
  ∃ (nodeCount : Nat) (primaryTimeout backupTimeout distance : Int) (listeners : Nat)
    (toks : List Token) (recs : List (Int × Node Loc)) (rest : List Token),
    HeaderAt D s nodeCount primaryTimeout backupTimeout distance listeners toks ∧
    RecordsAt D toks recs rest ∧ distinctIds recs = nodeCount

/-- A malformed encoding: one that is not well formed, that is, one with a
missing or non numeric field, `primaryTimeout ≤ 0`, `backupTimeout ≤ 0`,
`changeViewMaxLogDistance < 0`, `maxListenersPerNode = 0`, a negative node id,
an invalid or missing location, a location count that no vector can hold, or
fewer distinct node records than the declared `nodeCount`. -/
def Malformed {Loc : Type} (D : Decls Loc) (s : IStream) : Prop := ¬ WellFormed D s

/-- The node loop's treatment of a sequence of records, one after the other. -/
def Nodes.ingestAll {Loc : Type} (nodes : Nodes Loc) (recs : List (Int × Node Loc)) :
    Nodes Loc :=
  recs.foldl (fun acc e => Nodes.ingest acc e.1 e.2) nodes

/-- The invariant of `std::map`: keys strictly ascending. -/
def Nodes.Ordered {Loc : Type} (m : Nodes Loc) : Prop :=
  (m.map Prod.fst).Pairwise (· < ·)

/-- A node whose fields hold values of their C++ types. -/
def Node.WellTyped {Loc : Type} (n : Node Loc) : Prop :=
  n.mFlags < 2 ^ kSizeBits ∧
  -(2 ^ (kIntBits - 1) : Int) ≤ n.mPrimaryOrder ∧ n.mPrimaryOrder < (2 ^ (kIntBits - 1) : Int) ∧
  n.mLocations.length < 2 ^ kSizeBits

/-- A configuration whose fields hold values of their C++ types: the map is
ordered and has a `size_t` size, keys are `vrNodeId_t`, no vector of locations
holds more than `max_size()` elements, timeouts are `int`, the distance `seq_t`,
the listener count `uint32_t`. -/
def Config.WellTyped {Loc : Type} (D : Decls Loc) (c : Config Loc) : Prop :=
  Nodes.Ordered c.mNodes ∧ c.mNodes.length < 2 ^ kSizeBits ∧
  (∀ e ∈ c.mNodes, -(2 ^ (D.nodeIdBits - 1) : Int) ≤ e.1 ∧
    e.1 < (2 ^ (D.nodeIdBits - 1) : Int) ∧ Node.WellTyped e.2 ∧
    e.2.mLocations.length ≤ D.maxLocations) ∧
  -(2 ^ (kIntBits - 1) : Int) ≤ c.mPrimaryTimeout ∧
  c.mPrimaryTimeout < (2 ^ (kIntBits - 1) : Int) ∧
  -(2 ^ (kIntBits - 1) : Int) ≤ c.mBackupTimeout ∧
  c.mBackupTimeout < (2 ^ (kIntBits - 1) : Int) ∧
  -(2 ^ (D.seqBits - 1) : Int) ≤ c.mChangeVewMaxLogDistance ∧
  c.mChangeVewMaxLogDistance < (2 ^ (D.seqBits - 1) : Int) ∧
  c.mMaxListenersPerNode < 2 ^ kUInt32Bits

/-- A location that round trips through the `ServerLocation` stream operators:
read from its own text, whatever follows, it is read back and exactly its text
is consumed. -/
def LocRoundTrips {Loc : Type} (D : Decls Loc) (l : Loc) : Prop :=
  ∀ rest : List Token, D.get (D.put l ++ rest) = some (l, (D.put l).length)

/-- A valid configuration, in the words of the round trip property:
`primaryTimeout ≥ 1`, `backupTimeout > primaryTimeout`,
`changeViewMaxLogDistance ≥ 0`, `maxListenersPerNode ≥ 1`, every node id
non negative, every location valid and round tripping. -/
def Config.Valid {Loc : Type} (D : Decls Loc) (c : Config Loc) : Prop :=
  1 ≤ c.mPrimaryTimeout ∧ c.mPrimaryTimeout < c.mBackupTimeout ∧
  0 ≤ c.mChangeVewMaxLogDistance ∧ 1 ≤ c.mMaxListenersPerNode ∧
  (∀ e ∈ c.mNodes, 0 ≤ e.1 ∧
    ∀ l ∈ e.2.mLocations, D.IsValid l = true ∧ LocRoundTrips D l)

/-- The text of one node record, as the serialized form words it:
`nodeId locationCount flags primaryOrder loc1 loc2 …`. -/
def specRecord {Loc : Type} (D : Decls Loc) (e : Int × Node Loc) : List Token :=
  [.num e.1, .num e.2.mLocations.length, .num e.2.mFlags, .num e.2.mPrimaryOrder] ++
    e.2.mLocations.flatMap D.put

/-- The serialized form, as the specification words it:
`nodeCount primaryTimeout backupTimeout changeViewMaxLogDistance maxListenersPerNode`
followed by the node records. -/
def specEncoding {Loc : Type} (D : Decls Loc) (c : Config Loc) : List Token :=
  [.num c.mNodes.length, .num c.mPrimaryTimeout, .num c.mBackupTimeout,
    .num c.mChangeVewMaxLogDistance, .num c.mMaxListenersPerNode] ++
    c.mNodes.flatMap (specRecord D)

/-! ## Config: construction and Clear -/

/-- The member `Config::Clear`.  The distance `seq_t(128) << 10` is computed in
`seq_t`, a type that holds log sequence numbers, where the shift does not
overflow. -/
def Config.Clear {Loc : Type} (_self : Config Loc) : Config Loc :=
  { mNodes := [],
    mPrimaryTimeout := 4,
    mBackupTimeout := 8,
    mChangeVewMaxLogDistance := ((128 <<< 10 : Nat) : Int),
    mMaxListenersPerNode := 16 }

/-- The constructor `Config()`: the members are value initialised, then
`Config::Clear()` is called. -/
def Config.init {Loc : Type} : Config Loc :=
  Config.Clear
    { mNodes := [], mPrimaryTimeout := 0, mBackupTimeout := 0,
      mChangeVewMaxLogDistance := 0, mMaxListenersPerNode := 0 }

/-! ## MetaVrSM -/

/-- The member `MetaVrSM::HasValidNodeId`, `return (0 <= GetNodeId());`.  The
member `GetNodeId()` is declared in the header and defined outside it; it is
taken as a parameter, a function of the state machine `self`. -/
def MetaVrSM.HasValidNodeId {SM : Type} (GetNodeId : SM → Int) (self : SM) : Bool :=
  decide (0 ≤ GetNodeId self)

/-- Modelled from the spec: `|Active|`, the number of nodes of the configuration
whose flags include Active, counted node by node. -/
def MetaVrSM.activeCount {Loc : Type} (config : Config Loc) : Nat :=
  config.mNodes.foldl (fun n e => if hasFlag e.2.mFlags kFlagActive then n + 1 else n) 0

/-- Modelled from the spec: the member `MetaVrSM::GetQuorum`, declared in the
header and defined outside it; `Quorum = floor(|Active| / 2) + 1` for the
configuration the state machine holds. -/
def MetaVrSM.GetQuorum {Loc : Type} (config : Config Loc) : Nat :=
  MetaVrSM.activeCount config / 2 + 1

/-! ## KfsOp (src/cc/libclient/KfsOps.h) -/

/-- The enumeration `KfsOp_t`. -/
inductive KfsOp_t where
  | CMD_UNKNOWN
  | CMD_GETALLOC
  | CMD_GETLAYOUT
  | CMD_ALLOCATE
  | CMD_TRUNCATE
  | CMD_LOOKUP
  | CMD_MKDIR
  | CMD_RMDIR
  | CMD_READDIR
  | CMD_READDIRPLUS
  | CMD_GETDIRSUMMARY
  | CMD_CREATE
  | CMD_REMOVE
  | CMD_RENAME
  | CMD_SETMTIME
  | CMD_LEASE_ACQUIRE
  | CMD_LEASE_RENEW
  | CMD_LEASE_RELINQUISH
  | CMD_COALESCE_BLOCKS
  | CMD_CHUNK_SPACE_RESERVE
  | CMD_CHUNK_SPACE_RELEASE
  | CMD_RECORD_APPEND
  | CMD_GET_RECORD_APPEND_STATUS
  | CMD_CHANGE_FILE_REPLICATION
  | CMD_CLOSE
  | CMD_READ
  | CMD_WRITE_ID_ALLOC
  | CMD_WRITE_PREPARE
  | CMD_WRITE_SYNC
  | CMD_SIZE
  | CMD_GET_CHUNK_METADATA
  | CMD_DUMP_CHUNKMAP
  | CMD_WRITE
  | CMD_GETPATHNAME
  | CMD_CHMOD
  | CMD_CHOWN
  | CMD_AUTHENTICATE
  | CMD_DELEGATE
  | CMD_DELEGATE_CANCEL
  | CMD_CHUNK_PING
  | CMD_CHUNK_STATS
  | CMD_META_PING
  | CMD_META_STATS
  | CMD_META_TOGGLE_WORM
  | CMD_META_RETIRE_CHUNKSERVER
  | CMD_META_FSCK
  | CMD_META_CHECK_LEASES
  | CMD_META_RECOMPUTE_DIRSIZE
  | CMD_META_DUMP_CHUNKREPLICATIONCANDIDATES
  | CMD_META_OPEN_FILES
  | CMD_META_GET_CHUNK_SERVERS_COUNTERS
  | CMD_META_GET_CHUNK_SERVER_DIRS_COUNTERS
  | CMD_META_SET_CHUNK_SERVERS_PROPERTIES
  | CMD_META_GET_REQUEST_COUNTERS
  | CMD_META_DISCONNECT
  | CMD_META_FORCE_REPLICATION
  | CMD_META_DUMP_CHUNKTOSERVERMAP
  | CMD_META_UPSERVERS
  | CMD_META_READ_META_DATA
  | CMD_META_VR_RECONFIGURATION
  | CMD_META_VR_GET_STATUS
  | CMD_LINK
  | CMD_NCMDS
  deriving DecidableEq

/-- The free store, as far as `char` arrays go.  A pointer is a number, 0 being
the null pointer.  `next` counts the arrays allocated so far, the array
allocated next gets the address `next + 1`; `arrays` holds the live arrays, each
with its address and its cells, a cell being `none` while its value is
indeterminate; `deleted` lists the non null pointers `delete []` was applied to,
in order. -/
structure Heap where
  next : Nat
  arrays : List (Nat × List (Option Nat))
  deleted : List Nat
  deriving DecidableEq

/-- The expression `new char[n]`: the pointer returned and the free store
afterwards. -/
def Heap.newArray (h : Heap) (n : Nat) : Nat × Heap :=
  (h.next + 1,
    { h with next := h.next + 1, arrays := (h.next + 1, List.replicate n none) :: h.arrays })

/-- The statement `p[i] = v` on an array of the free store.  A store outside
the live arrays has undefined behaviour; here it leaves the free store as it
is. -/
def Heap.store (h : Heap) (p i v : Nat) : Heap :=
  { h with arrays := h.arrays.map fun a => if a.1 = p then (a.1, a.2.set i (some v)) else a }

/-- The statement `delete [] p`: nothing for the null pointer, else the array is
gone and the pointer is recorded. -/
def Heap.deleteArray (h : Heap) (p : Nat) : Heap :=
  if p = 0 then h
  else { h with arrays := h.arrays.filter (fun a => a.1 != p), deleted := h.deleted ++ [p] }

/-- The struct `KfsOp`.  The pointer `extraHeaders` is `none` when null, else
the string pointed to. -/
structure KfsOp where
  op : KfsOp_t
  seq : Int
  status : Int
  lastError : Int
  checksum : Nat
  maxWaitMillisec : Int
  contentLength : Nat
  contentBufLen : Nat
  contentBuf : Nat
  statusMsg : String
  extraHeaders : Option String
  shortRpcFormatFlag : Bool
  contentBufOwnerFlag : Bool
  deriving DecidableEq

/-- The constructor `KfsOp(o, s)`. -/
def KfsOp.init (o : KfsOp_t) (s : Int) : KfsOp :=
  { op := o, seq := s, status := 0, lastError := 0, checksum := 0, maxWaitMillisec := -1,
    contentLength := 0, contentBufLen := 0, contentBuf := 0, statusMsg := "",
    extraHeaders := none, shortRpcFormatFlag := false, contentBufOwnerFlag := true }

/-- The member `KfsOp::ReleaseContentBuf`. -/
def KfsOp.ReleaseContentBuf (self : KfsOp) : KfsOp :=
  { self with contentBuf := 0, contentBufLen := 0 }

/-- The member `KfsOp::DeallocContentBuf`. -/
def KfsOp.DeallocContentBuf (self : KfsOp) (h : Heap) : KfsOp × Heap :=
  let h1 := if self.contentBufOwnerFlag then h.deleteArray self.contentBuf else h
  (self.ReleaseContentBuf, h1)

/-- The member `KfsOp::AllocContentBuf`.  The array size `len + 1` is computed
in `size_t`. -/
def KfsOp.AllocContentBuf (self : KfsOp) (h : Heap) (len : Nat) : KfsOp × Heap :=
  let r := h.newArray ((len + 1) % 2 ^ kSizeBits)
  let h1 := r.2.store r.1 len 0
  ({ self with contentBuf := r.1, contentBufLen := len, contentBufOwnerFlag := true }, h1)

/-- The member `KfsOp::EnsureCapacity`. -/
def KfsOp.EnsureCapacity (self : KfsOp) (h : Heap) (len : Nat) : KfsOp × Heap :=
  if self.contentBufLen ≥ len && self.contentBufOwnerFlag then (self, h)
  else
    let r := self.DeallocContentBuf h
    r.1.AllocContentBuf r.2 len

/-- The member `KfsOp::AttachContentBuf(char* buf, size_t len, bool
ownsBufferFlag)`; the overload taking a `const char*` casts and calls it. -/
def KfsOp.AttachContentBuf (self : KfsOp) (h : Heap) (buf len : Nat) (ownsBufferFlag : Bool) :
    KfsOp × Heap :=
  let r := self.DeallocContentBuf h
  ({ r.1 with contentBuf := buf, contentBufLen := len, contentBufOwnerFlag := ownsBufferFlag },
    r.2)

/-- The call `AttachContentBuf(buf, len)`, the third argument left to its
default `true`. -/
def KfsOp.AttachContentBufDefault (self : KfsOp) (h : Heap) (buf len : Nat) : KfsOp × Heap :=
  self.AttachContentBuf h buf len true

/-- The constructor `DumpChunkServerMapOp(s)`; the struct adds no member to
`KfsOp`. -/
def DumpChunkServerMapOp.init (s : Int) : KfsOp :=
  KfsOp.init .CMD_META_DUMP_CHUNKTOSERVERMAP s

/-- The constructor `DumpChunkMapOp(s)`; the struct adds no member to `KfsOp`. -/
def DumpChunkMapOp.init (s : Int) : KfsOp :=
  KfsOp.init .CMD_META_DUMP_CHUNKTOSERVERMAP s

/-! ## ChunkAccessOp -/

/-- The output stream type `ReqOstream`: the text written so far. -/
abbrev ReqOstream := String

/-- Declarations of the stream class `ReqOstreamT`, which is not among the
sources, taken as a parameter: the text that `os << x` writes for an `int64_t`
value `x`. -/
structure ReqDecls where
  showInt : Int → String

/-- The struct `ChunkAccessOp`.  The key `chunkServerAccessKey` is held as its
bytes; the pointer `decryptKey` is `none` when null. -/
structure ChunkAccessOp extends KfsOp where
  chunkId : Int
  chunkVersion : Int
  access : String
  createChunkAccessFlag : Bool
  createChunkServerAccessFlag : Bool
  hasSubjectIdFlag : Bool
  subjectId : Int
  accessResponseValidForSec : Int
  accessResponseIssued : Int
  chunkAccessResponse : String
  chunkServerAccessId : String
  chunkServerAccessKey : List Nat
  decryptKey : Option String
  deriving DecidableEq

/-- The constructor `ChunkAccessOp(o, s, c)`. -/
def ChunkAccessOp.init (o : KfsOp_t) (s : Int) (c : Int) : ChunkAccessOp :=
  { toKfsOp := KfsOp.init o s,
    chunkId := c, chunkVersion := 0, access := "",
    createChunkAccessFlag := false, createChunkServerAccessFlag := false,
    hasSubjectIdFlag := false, subjectId := -1,
    accessResponseValidForSec := 0, accessResponseIssued := 0,
    chunkAccessResponse := "", chunkServerAccessId := "",
    chunkServerAccessKey := [], decryptKey := none }

/-- The member `ChunkAccessOp::WriteReq`. -/
def ChunkAccessOp.WriteReq (R : ReqDecls) (self : ChunkAccessOp) (os : ReqOstream) :
    ReqOstream :=
  if self.access.isEmpty then os
  else
    let os1 :=
      if self.hasSubjectIdFlag then
        os ++ (if self.shortRpcFormatFlag then "I:" else "Subject-id: ") ++
          R.showInt self.subjectId ++ "\r\n"
      else os
    os1 ++ (if self.shortRpcFormatFlag then "C:" else "C-access: ") ++ self.access ++ "\r\n" ++
      (if self.createChunkServerAccessFlag then
        (if self.shortRpcFormatFlag then "SR:1\r\n" else "CS-access-req: 1\r\n")
      else if self.createChunkAccessFlag then
        (if self.shortRpcFormatFlag then "CR:1\r\n" else "C-access-req: 1\r\n")
      else "")

/-- The state of a `ChunkAccessOp` with `shortRpcFormatFlag` set to `b`. -/
def ChunkAccessOp.withShort (self : ChunkAccessOp) (b : Bool) : ChunkAccessOp :=
  { self with shortRpcFormatFlag := b }

/-- The subject id line, as the property words it: `I:<subjectId>` in short
format, `Subject-id: <subjectId>` in long format. -/
def subjectIdLine (R : ReqDecls) (short : Bool) (subjectId : Int) : String :=
  if short then "I:" ++ R.showInt subjectId ++ "\r\n"
  else "Subject-id: " ++ R.showInt subjectId ++ "\r\n"

/-- The access line, as the property words it: `C:<access>` in short format,
`C-access: <access>` in long format. -/
def accessLine (short : Bool) (access : String) : String :=
  if short then "C:" ++ access ++ "\r\n" else "C-access: " ++ access ++ "\r\n"

/-- The request line, as the property words it: the chunk server access request
if `createChunkServerAccessFlag`, else the chunk access request if
`createChunkAccessFlag`, else nothing. -/
def requestLine (short createChunkServerAccessFlag createChunkAccessFlag : Bool) : String :=
  if createChunkServerAccessFlag then
    (if short then "SR:1\r\n" else "CS-access-req: 1\r\n")
  else if createChunkAccessFlag then
    (if short then "CR:1\r\n" else "C-access-req: 1\r\n")
  else ""

/-- Modelled from the spec: the pieces a text falls into when cut at every
`CR LF`; the last piece is what follows the last `CR LF`. -/
def splitCRLF : List Char → List (List Char)
  | [] => [[]]
  | [c] => [[c]]
  | c :: d :: rest =>
    if c = '\r' ∧ d = '\n' then [] :: splitCRLF rest
    else
      match splitCRLF (d :: rest) with
      | [] => [[c]]
      | l :: ls => (c :: l) :: ls

/-- The lines of a request text: what stands in front of each `CR LF`, from the
start of the text or from the `CR LF` before, in order. -/
def crlfLines (text : String) : List (List Char) :=
  (splitCRLF text.data).dropLast

/-- Modelled from the spec: a header line `Name: Value` or `Name:Value` read as
the pair of its name, what precedes the first colon, and its value, what follows
the colon without the blanks in front; a line without a colon is no header. -/
def parseHeaderLine (line : List Char) : Option (String × String) :=
  match line.dropWhile (· != ':') with
  | [] => none
  | _ :: v => some (String.mk (line.takeWhile (· != ':')), String.mk (v.dropWhile (· == ' ')))

/-- Modelled from the spec: the request header parser, which is not among the
sources.  Header lines are terminated by `CR LF`; the parse of a text is the
sequence of the (name, value) pairs of its terminated lines, in order. -/
def parseHeaders (text : String) : List (String × String) :=
  (splitCRLF text.data).dropLast.filterMap parseHeaderLine

/-- Modelled from the spec: header name normalization, the short names `I`, `C`,
`CR`, `SR` standing for `Subject-id`, `C-access`, `C-access-req`,
`CS-access-req`. -/
def normalizeName (name : String) : String :=
  if name = "I" then "Subject-id"
  else if name = "C" then "C-access"
  else if name = "CR" then "C-access-req"
  else if name = "SR" then "CS-access-req"
  else name

/-- Modelled from the spec: a parse with its header names normalized. -/
def normalizeHeaders (hs : List (String × String)) : List (String × String) :=
  hs.map fun p => (normalizeName p.1, p.2)

/-- A concrete `ReqDecls` for concrete inputs: integers written in decimal. -/
def stdReq : ReqDecls where
  showInt := fun z => toString z

/-- A chunk access op whose access token holds a line break followed by
`C:y`, with no flag set. -/
def opAccessWithLineBreak : ChunkAccessOp :=
  { ChunkAccessOp.init .CMD_READ 1 7 with access := "x\r\nC:y" }

/-- A chunk access op in short format with both request flags set, whose access
token holds a line break followed by `CR:1`. -/
def opAccessWithRequestLine : ChunkAccessOp :=
  { ChunkAccessOp.init .CMD_READ 1 7 with
    access := "x\r\nCR:1", shortRpcFormatFlag := true,
    createChunkAccessFlag := true, createChunkServerAccessFlag := true }

/-- A chunk access op in long format with both request flags set, whose access
token holds a line break followed by `C-access-req: 1`. -/
def opAccessWithRequestLineLong : ChunkAccessOp :=
  { ChunkAccessOp.init .CMD_READ 1 7 with
    access := "x\r\nC-access-req: 1",
    createChunkAccessFlag := true, createChunkServerAccessFlag := true }

/-- A chunk access op with an access token, a subject id and both request flags
set. -/
def opAllFlags : ChunkAccessOp :=
  { ChunkAccessOp.init .CMD_READ 1 7 with
    access := "token", hasSubjectIdFlag := true, subjectId := 42,
    createChunkAccessFlag := true, createChunkServerAccessFlag := true }

/-! ## The commit rule of the VR state machine -/

/-- Modelled from the spec: the class `MetaVrLogSeq`, which is only declared in
`MetaVrSM.h`; a log sequence is a triple of non negative integers
`(epoch, view, sequence)`. -/
structure MetaVrLogSeq where
  epoch : Nat
  view : Nat
  seq : Nat
  deriving DecidableEq

/-- Modelled from the spec: the total order of log sequences, lexicographic on
the triple. -/
def MetaVrLogSeq.le (a b : MetaVrLogSeq) : Prop :=
  a.epoch < b.epoch ∨
    (a.epoch = b.epoch ∧ (a.view < b.view ∨ (a.view = b.view ∧ a.seq ≤ b.seq)))

instance (a b : MetaVrLogSeq) : Decidable (a.le b) := by
  unfold MetaVrLogSeq.le
  exact inferInstance

/-- The two calls the monotone commit property speaks of, with the parameters
`MetaVrSM.h` declares for `HandleLogBlock` and `LogBlockWriteDone`. -/
inductive VrCall where
  | HandleLogBlock (inBlockStartSeq inBlockEndSeq inCommittedSeq : MetaVrLogSeq)
      (inTransmitterId : Int)
  | LogBlockWriteDone (inBlockStartSeq inBlockEndSeq inCommittedSeq
      inLastViewEndSeq : MetaVrLogSeq) (inWriteOkFlag : Bool)

/-- Modelled from the spec: the state of the replica as far as the commit rule
goes, the committed log sequence; `rest` is everything else the state machine
holds (view, ballot, acknowledgements recorded), of a type left open. -/
structure VrState (α : Type) where
  committedSeq : MetaVrLogSeq
  rest : α

/-- Modelled from the spec: what the spec leaves to the implementation of
`MetaVrSM` (`MetaVrSM.cc` is not among the sources), as parameters: whether a
block is accepted (a message of an older view is rejected), whether with an
acknowledgement `Quorum` distinct Active nodes have returned `writeOk = true`
for the block within the current view, and how the rest of the state changes. -/
structure VrRules (α : Type) where
  accepts : VrState α → VrCall → Bool
  quorumReached : VrState α → VrCall → Bool
  next : VrState α → VrCall → α

/-- Modelled from the spec: `committedSeq` only advances: a new value is taken
when it is not below the current one. -/
def MetaVrLogSeq.advance (current new : MetaVrLogSeq) : MetaVrLogSeq :=
  if current.le new then new else current

/-- Modelled from the spec: the member `MetaVrSM::HandleLogBlock`, declared in
the header and defined outside it.  On a backup the committed sequence advances
on the next block: an accepted block advances it to the committed sequence the
block carries. -/
def MetaVrSM.HandleLogBlock {α : Type} (P : VrRules α) (s : VrState α)
    (inBlockStartSeq inBlockEndSeq inCommittedSeq : MetaVrLogSeq) (inTransmitterId : Int) :
    VrState α :=
  let call := VrCall.HandleLogBlock inBlockStartSeq inBlockEndSeq inCommittedSeq inTransmitterId
  { committedSeq :=
      if P.accepts s call then s.committedSeq.advance inCommittedSeq else s.committedSeq,
    rest := P.next s call }

/-- Modelled from the spec: the member `MetaVrSM::LogBlockWriteDone`, declared
in the header and defined outside it.  A block is committed when `Quorum`
distinct Active nodes have returned `writeOk = true` for it within the current
view; the committed sequence then advances to the end of the block. -/
def MetaVrSM.LogBlockWriteDone {α : Type} (P : VrRules α) (s : VrState α)
    (inBlockStartSeq inBlockEndSeq inCommittedSeq inLastViewEndSeq : MetaVrLogSeq)
    (inWriteOkFlag : Bool) : VrState α :=
  let call := VrCall.LogBlockWriteDone inBlockStartSeq inBlockEndSeq inCommittedSeq
    inLastViewEndSeq inWriteOkFlag
  { committedSeq :=
      if inWriteOkFlag && P.quorumReached s call then s.committedSeq.advance inBlockEndSeq
      else s.committedSeq,
    rest := P.next s call }

/-- One call applied to the state. -/
def VrState.step {α : Type} (P : VrRules α) (s : VrState α) : VrCall → VrState α
  | .HandleLogBlock b e c t => MetaVrSM.HandleLogBlock P s b e c t
  | .LogBlockWriteDone b e c l ok => MetaVrSM.LogBlockWriteDone P s b e c l ok

/-- A sequence of calls applied to the state, in order. -/
def VrState.run {α : Type} (P : VrRules α) (s : VrState α) (calls : List VrCall) : VrState α :=
  calls.foldl (VrState.step P) s

/-! ## Config: AddNode and RemoveNode -/

/-- The call `mNodes.erase(inId)`: the map afterwards and the number of entries
erased. -/
def Nodes.erase {Loc : Type} : Nodes Loc → Int → Nodes Loc × Nat
  | [], _ => ([], 0)
  | (k1, v1) :: m, k =>
    if k = k1 then (m, 1)
    else
      let r := Nodes.erase m k
      ((k1, v1) :: r.1, r.2)

/-- The member `Config::AddNode`: the configuration afterwards and the value
returned. -/
def Config.AddNode {Loc : Type} (self : Config Loc) (inId : Int) (inNode : Node Loc) :
    Config Loc × Bool :=
  let r := Nodes.insert self.mNodes inId inNode
  ({ self with mNodes := r.1 }, r.2.2)

/-- The member `Config::RemoveNode`: the configuration afterwards and the value
returned. -/
def Config.RemoveNode {Loc : Type} (self : Config Loc) (inId : Int) : Config Loc × Bool :=
  let r := Nodes.erase self.mNodes inId
  ({ self with mNodes := r.1 }, decide (0 < r.2))

/-- A sequence of `AddNode` calls, one for each pair of the list, in the order
of the list. -/
def Config.addNodes {Loc : Type} (self : Config Loc) (l : List (Int × Node Loc)) : Config Loc :=
  l.foldl (fun c e => (c.AddNode e.1 e.2).1) self

/-! ## KfsOp: the content of the buffer -/

/-- The cells of the live array at the address `p`, if there is one. -/
def Heap.cells (h : Heap) (p : Nat) : Option (List (Option Nat)) :=
  (h.arrays.find? (fun a => a.1 == p)).map (fun a => a.2)

/-- The first `k` bytes of the content buffer of an op, a byte being `none`
while its value is indeterminate; `none` when `contentBuf` points to no live
array. -/
def KfsOp.content (self : KfsOp) (h : Heap) (k : Nat) : Option (List (Option Nat)) :=
  (h.cells self.contentBuf).map (List.take k)

/-! ## AllocateOp -/

/-- Constructors of classes that are not among the sources, taken as
parameters: the value of a default constructed `ServerLocation` and of a default
constructed `CryptoKeys::Key`. -/
structure CtorDecls (Loc Key : Type) where
  locInit : Loc
  keyInit : Key

/-- The struct `AllocateOp`. -/
structure AllocateOp (Loc Key : Type) extends KfsOp where
  fid : Int
  fileOffset : Int
  pathname : String
  chunkId : Int
  chunkVersion : Int
  masterServer : Loc
  chunkServers : List Loc
  append : Bool
  spaceReservationSize : Int
  maxAppendersPerChunk : Int
  invalidateAllFlag : Bool
  allowCSClearTextFlag : Bool
  allCSShortRpcFlag : Bool
  chunkLeaseDuration : Int
  chunkServerAccessValidForTime : Int
  chunkServerAccessIssuedTime : Int
  chunkAccess : String
  chunkServerAccessToken : String
  chunkServerAccessKey : Key
  deriving DecidableEq

/-- The constructor `AllocateOp(s, f, p)`.  The member `masterServer` is not in
the initializer list and is default constructed. -/
def AllocateOp.init {Loc Key : Type} (P : CtorDecls Loc Key) (s : Int) (f : Int) (p : String) :
    AllocateOp Loc Key :=
  { toKfsOp := KfsOp.init .CMD_ALLOCATE s,
    fid := f, fileOffset := 0, pathname := p, chunkId := -1, chunkVersion := -1,
    masterServer := P.locInit, chunkServers := [], append := false,
    spaceReservationSize := ((1 <<< 20 : Nat) : Int), maxAppendersPerChunk := 64,
    invalidateAllFlag := false, allowCSClearTextFlag := false, allCSShortRpcFlag := false,
    chunkLeaseDuration := -1, chunkServerAccessValidForTime := 0,
    chunkServerAccessIssuedTime := 0, chunkAccess := "", chunkServerAccessToken := "",
    chunkServerAccessKey := P.keyInit }

/-- The member `AllocateOp::Reset`.  It assigns to every member that the
constructor names in its initializer list; there is no assignment to
`masterServer`. -/
def AllocateOp.Reset {Loc Key : Type} (P : CtorDecls Loc Key) (self : AllocateOp Loc Key)
    (f : Int) (p : String) : AllocateOp Loc Key :=
  { self with
    fid := f, fileOffset := 0, pathname := p, chunkId := -1, chunkVersion := -1,
    chunkServers := [], append := false,
    spaceReservationSize := ((1 <<< 20 : Nat) : Int), maxAppendersPerChunk := 64,
    invalidateAllFlag := false, allowCSClearTextFlag := false, allCSShortRpcFlag := false,
    chunkLeaseDuration := -1, chunkServerAccessValidForTime := 0,
    chunkServerAccessIssuedTime := 0, chunkAccess := "", chunkServerAccessToken := "",
    chunkServerAccessKey := P.keyInit }

/-! ## ChunkServerAccess -/

/-- The struct `ChunkServerAccess::Entry`; a `Token` is held as the text it
points to. -/
structure Entry where
  chunkServerAccessId : String
  chunkServerKey : String
  chunkAccess : String
  deriving DecidableEq

/-- The class `ChunkServerAccess`.  The map `mAccess` is held as its entries in
ascending key order, a key being `((host, port), chunkId)`. -/
structure ChunkServerAccess where
  mAccess : List (((String × Int) × Int) × Entry)
  mAccessBuf : Nat
  mOwnsBufferFlag : Bool
  deriving DecidableEq

/-- The member `CryptoKeys::Key::Parse`, which is not among the sources, taken
as a parameter: from the key held before and the text to parse, the key held
afterwards and the value returned. -/
structure KeyDecls (Key : Type) where
  Parse : Key → String → Key × Bool

/-- The loop `for (size_t k = 0; it != mAccess.end() && k < i; k++) { ++it; }`:
an iterator is the list of the entries from its position on, `mAccess.end()`
being the empty list; the second argument is `i - k`. -/
def ChunkServerAccess.advance {E : Type} : List E → Nat → List E
  | it, 0 => it
  | [], _ + 1 => []
  | _ :: it, k + 1 => ChunkServerAccess.advance it k

/-- The member `ChunkServerAccess::Get(i, location, chunkId, outKey)`: the
entry the returned pointer points to (`none` for the null pointer), and the
contents of `location` and of `outKey` afterwards. -/
def ChunkServerAccess.Get {Key : Type} (K : KeyDecls Key) (self : ChunkServerAccess) (i : Nat)
    (location : ServerLocation) (_chunkId : Int) (outKey : Key) :
    Option Entry × ServerLocation × Key :=
  match ChunkServerAccess.advance self.mAccess i with
  | [] => (none, location, outKey)
  | it :: _ =>
    let location1 : ServerLocation := { hostname := it.1.1.1, port := it.1.1.2 }
    let entry := it.2
    let r := K.Parse outKey entry.chunkServerKey
    if ! r.2 then (none, location1, r.1)
    else (some entry, location1, r.1)

/-! ## ChunkLeaseInfo -/

/-- The struct `ChunkLeaseInfo`. -/
structure ChunkLeaseInfo (Loc : Type) where
  leaseId : Int
  chunkServers : List Loc
  deriving DecidableEq

/-- The constructor `ChunkLeaseInfo()`. -/
def ChunkLeaseInfo.init {Loc : Type} : ChunkLeaseInfo Loc :=
  { leaseId := -1, chunkServers := [] }

/-- The loop `for (int i = 0; i < numServers && (is >> loc); ++i)` of
`ChunkLeaseInfo::Parse`, with `k` the number `numServers - i` that the loop
condition compares with zero (zero when `numServers` is negative). -/
def ChunkLeaseInfo.parseServers {Loc : Type} (D : Decls Loc) :
    Nat → List Loc → IStream → List Loc × IStream
  | 0, chunkServers, s => (chunkServers, s)
  | k + 1, chunkServers, s =>
    match s.getLoc D with
    | (none, s1) => (chunkServers, s1)
    | (some loc, s1) => ChunkLeaseInfo.parseServers D k (chunkServers ++ [loc]) s1

/-- Width of `int64_t`. -/
def kInt64Bits : Nat := 64

/-- The member `ChunkLeaseInfo::Parse`: the struct and the stream afterwards. -/
def ChunkLeaseInfo.Parse {Loc : Type} (D : Decls Loc) (self : ChunkLeaseInfo Loc)
    (is : IStream) : ChunkLeaseInfo Loc × IStream :=
  let chunkServers0 : List Loc := []
  let numServers : Int := 0
  let r1 := is.getSigned kInt64Bits self.leaseId
  let r2 := r1.2.getSigned kIntBits numServers
  if r2.2.fail then ({ leaseId := r1.1, chunkServers := chunkServers0 }, r2.2) else
  let r3 := ChunkLeaseInfo.parseServers D r2.1.toNat chunkServers0 r2.2
  ({ leaseId := r1.1, chunkServers := r3.1 }, r3.2)

/-! ## Concrete inputs -/

/-- A configuration of two active nodes, ids 0 and 1. -/
def sampleConfig : Config ServerLocation :=
  { mNodes := [(0, { mFlags := kFlagActive, mPrimaryOrder := 0,
                     mLocations := [⟨"meta0", 20000⟩] }),
               (1, { mFlags := kFlagActive, mPrimaryOrder := 1,
                     mLocations := [⟨"meta1", 20000⟩, ⟨"meta1b", 20001⟩] })],
    mPrimaryTimeout := 4, mBackupTimeout := 8,
    mChangeVewMaxLogDistance := 131072, mMaxListenersPerNode := 16 }

/-- A target configuration holding one node and parameters of its own. -/
def sampleTarget : Config ServerLocation :=
  { mNodes := [(7, { mFlags := kFlagActive, mPrimaryOrder := 3,
                     mLocations := [⟨"old", 30000⟩] })],
    mPrimaryTimeout := 5, mBackupTimeout := 11,
    mChangeVewMaxLogDistance := 1024, mMaxListenersPerNode := 2 }

/-- An encoding declaring one node with one location, the location missing. -/
def inputMissingLocation : List Token :=
  [.num 1, .num 4, .num 8, .num 0, .num 16, .num 5, .num 1, .num 2, .num 0]

/-- An encoding whose four parameters are fine and whose only location has a
port that is no number. -/
def inputBadPort : List Token :=
  [.num 1, .num 9, .num 12, .num 7, .num 3, .num 5, .num 1, .num 2, .num 0,
   .word "meta5:x"]

/-- An encoding declaring two nodes, with three records for id 5 (primary orders
7, 3 and 3) followed by one record for id 6. -/
def inputDuplicateIds : List Token :=
  [.num 2, .num 4, .num 8, .num 0, .num 16,
   .num 5, .num 1, .num 2, .num 7, .word "a:20000",
   .num 5, .num 1, .num 2, .num 3, .word "b:20000",
   .num 5, .num 1, .num 2, .num 3, .word "c:20000",
   .num 6, .num 1, .num 2, .num 0, .word "d:20000"]

/-- An encoding of one active node with `primaryTimeout` 8 and `backupTimeout` 4. -/
def inputBackupBelowPrimary : List Token :=
  [.num 1, .num 8, .num 4, .num 0, .num 16,
   .num 0, .num 1, .num 2, .num 0, .word "meta0:20000"]

/-- An encoding declaring no node, with `primaryTimeout` 8 and `backupTimeout` 4. -/
def inputNoNodeBackupBelowPrimary : List Token :=
  [.num 0, .num 8, .num 4, .num 0, .num 16]

/-- An encoding of one active node whose record declares no location. -/
def inputNoLocation : List Token :=
  [.num 1, .num 4, .num 8, .num 0, .num 16, .num 0, .num 0, .num 2, .num 0]

/-- An encoding declaring no node. -/
def inputNoNode : List Token :=
  [.num 0, .num 4, .num 8, .num 0, .num 16]

/-- An encoding of one node whose flags are `kFlagWitness` only. -/
def inputWitnessOnly : List Token :=
  [.num 1, .num 4, .num 8, .num 0, .num 16,
   .num 0, .num 1, .num 1, .num 0, .word "meta0:20000"]

/-- The whitespace delimited tokens of the text `0 4 8 0 16x`: no node is
declared, and the last of the five leading fields is followed at once by the
letter `x`. -/
def inputGluedField : List String :=
  ["0", "4", "8", "0", "16x"]

/-- One node is declared, and its record declares `2 ^ 62` locations: the text
`1 4 8 0 16 0 4611686018427387904 2 0`. -/
def inputOversizedCount : List Token :=
  [.num 1, .num 4, .num 8, .num 0, .num 16, .num 0, .num 4611686018427387904, .num 2, .num 0]

/-- Two nodes are declared, and three records follow, the third bearing the id
of the first with a lower primary order: the text
`2 4 8 0 16 5 1 2 7 a:20000 6 1 2 0 d:20000 5 1 2 3 b:20000`. -/
def inputLateDuplicate : List Token :=
  [.num 2, .num 4, .num 8, .num 0, .num 16,
   .num 5, .num 1, .num 2, .num 7, .word "a:20000",
   .num 6, .num 1, .num 2, .num 0, .word "d:20000",
   .num 5, .num 1, .num 2, .num 3, .word "b:20000"]

/-- A node record that announces one location and has the flags 2, followed by
a word where the primary order is due: `1 2 x`. -/
def inputNodeBadOrder : List Token :=
  [.num 1, .num 2, .word "x"]

/-- A free store in which nothing was allocated yet. -/
def emptyHeap : Heap :=
  { next := 0, arrays := [], deleted := [] }

/-- A freshly constructed op. -/
def freshOp : KfsOp :=
  KfsOp.init .CMD_READ 1

/-- A free store with one live array, at the address 5, holding the bytes
`104 105 0`. -/
def heapWithBuffer : Heap :=
  { next := 5, arrays := [(5, [some 104, some 105, some 0])], deleted := [] }

/-- An op that borrows the array at the address 5 as a content buffer of 2
bytes. -/
def opBorrowed : KfsOp :=
  { KfsOp.init .CMD_READ 1 with contentBuf := 5, contentBufLen := 2,
                                 contentBufOwnerFlag := false }

/-- An op that owns the array at the address 5 as a content buffer of 2 bytes. -/
def opOwned : KfsOp :=
  { KfsOp.init .CMD_READ 1 with contentBuf := 5, contentBufLen := 2,
                                 contentBufOwnerFlag := true }

/-- Modelled from the spec: the constructors of `ServerLocation` and
`CryptoKeys::Key`, which are not among the sources, for use with concrete
inputs: a default constructed location has no host name and the port -1, a
default constructed key has no bytes. -/
def stdCtor : CtorDecls ServerLocation (List Nat) where
  locInit := ⟨"", -1⟩
  keyInit := []

/-- An `AllocateOp` after a response was stored in it: the members hold a chunk,
its servers and the master `meta0:20000`. -/
def opAllocated : AllocateOp ServerLocation (List Nat) :=
  { AllocateOp.init stdCtor 1 10 "/a" with
    fileOffset := 67108864, chunkId := 5, chunkVersion := 2,
    masterServer := ⟨"meta0", 20000⟩, chunkServers := [⟨"cs1", 30000⟩],
    chunkLeaseDuration := 300, chunkAccess := "a", chunkServerAccessToken := "t",
    chunkServerAccessKey := [1, 2, 3] }

/-- Modelled from the spec: the member `CryptoKeys::Key::Parse`, which is not
among the sources, for use with concrete inputs: a key is its text, the empty
text does not parse and leaves the key as it was. -/
def stdKey : KeyDecls String where
  Parse := fun old text => if text.isEmpty then (old, false) else (text, true)

/-- An access table with two entries; the key stored with the first one is
empty. -/
def sampleAccess : ChunkServerAccess :=
  { mAccess := [((("cs1", 30000), 7), ⟨"id1", "", "a1"⟩),
                ((("cs2", 30000), 7), ⟨"id2", "k2", "a2"⟩)],
    mAccessBuf := 0, mOwnsBufferFlag := false }

/-- A lease text: the lease id 77 and two servers. -/
def inputLease : List Token :=
  [.num 77, .num 2, .word "cs1:30000", .word "cs2:30001", .word "next"]

/-- Two pairs bearing the same id, with different nodes. -/
def pairsSameId : List (Int × Node ServerLocation) :=
  [(1, { mFlags := 2, mPrimaryOrder := 0, mLocations := [⟨"meta1", 20001⟩] }),
   (1, { mFlags := 2, mPrimaryOrder := 1, mLocations := [⟨"meta2", 20002⟩] })]

/-- The same two pairs, the other one first. -/
def pairsSameIdSwapped : List (Int × Node ServerLocation) :=
  [(1, { mFlags := 2, mPrimaryOrder := 1, mLocations := [⟨"meta2", 20002⟩] }),
   (1, { mFlags := 2, mPrimaryOrder := 0, mLocations := [⟨"meta1", 20001⟩] })]

/-- Two nodes in the two orders in which they can be added. -/
def pairsDescending : List (Int × Node ServerLocation) :=
  [(2, { mFlags := 2, mPrimaryOrder := 1, mLocations := [⟨"meta2", 20002⟩] }),
   (1, { mFlags := 2, mPrimaryOrder := 0, mLocations := [⟨"meta1", 20001⟩] })]

/-- The same two nodes, the other one first. -/
def pairsAscending : List (Int × Node ServerLocation) :=
  [(1, { mFlags := 2, mPrimaryOrder := 0, mLocations := [⟨"meta1", 20001⟩] }),
   (2, { mFlags := 2, mPrimaryOrder := 1, mLocations := [⟨"meta2", 20002⟩] })]

/-! ## Streams: basic facts -/

@[simp] theorem fail_good (toks : List Token) : (IStream.good toks).fail = false := rfl

@[simp] theorem fail_failed : IStream.failed.fail = true := rfl

@[simp] theorem setstate_eq (s : IStream) : s.setstate = .failed := rfl

@[simp] theorem remaining_good (toks : List Token) :
    (IStream.good toks).remaining = toks.length := rfl

@[simp] theorem remaining_failed : IStream.failed.remaining = 0 := rfl

theorem getUnsigned_of_conv {w : Nat} {t : Token} {v : Nat} (old : Nat) (r : List Token)
    (h : convUnsigned w t = (v, true)) :
    IStream.getUnsigned w old (.good (t :: r)) = (v, .good r) := by
  simp [IStream.getUnsigned, h]

theorem getSigned_of_conv {w : Nat} {t : Token} {v : Int} (old : Int) (r : List Token)
    (h : convSigned w t = (v, true)) :
    IStream.getSigned w old (.good (t :: r)) = (v, .good r) := by
  simp [IStream.getSigned, h]

theorem getUnsigned_good {w old : Nat} {s : IStream}
    (h : (s.getUnsigned w old).2.fail = false) :
    ∃ t r v, s = .good (t :: r) ∧ convUnsigned w t = (v, true) ∧
      s.getUnsigned w old = (v, .good r) := by
  cases s with
  | failed => simp [IStream.getUnsigned, IStream.fail] at h
  | good toks =>
    cases toks with
    | nil => simp [IStream.getUnsigned, IStream.fail] at h
    | cons t r =>
      rcases hc : convUnsigned w t with ⟨v, b⟩
      cases b with
      | true => exact ⟨t, r, v, rfl, hc, by simp [IStream.getUnsigned, hc]⟩
      | false => simp [IStream.getUnsigned, hc, IStream.fail] at h

theorem getSigned_good {w : Nat} {old : Int} {s : IStream}
    (h : (s.getSigned w old).2.fail = false) :
    ∃ t r v, s = .good (t :: r) ∧ convSigned w t = (v, true) ∧
      s.getSigned w old = (v, .good r) := by
  cases s with
  | failed => simp [IStream.getSigned, IStream.fail] at h
  | good toks =>
    cases toks with
    | nil => simp [IStream.getSigned, IStream.fail] at h
    | cons t r =>
      rcases hc : convSigned w t with ⟨v, b⟩
      cases b with
      | true => exact ⟨t, r, v, rfl, hc, by simp [IStream.getSigned, hc]⟩
      | false => simp [IStream.getSigned, hc, IStream.fail] at h

theorem fail_eq_false_iff {s : IStream} : s.fail = false ↔ ∃ toks, s = .good toks := by
  cases s <;> simp [IStream.fail]

theorem fail_eq_true_iff {s : IStream} : s.fail = true ↔ s = .failed := by
  cases s <;> simp [IStream.fail]

theorem convUnsigned_num {w : Nat} {n : Nat} (h : n < 2 ^ w) :
    convUnsigned w (.num n) = (n, true) := by
  have h2 : ((n : Int) % (2 ^ w : Int)).toNat = n := by
    have : ((n : Int) % (2 ^ w : Int)) = ((n % 2 ^ w : Nat) : Int) := by
      push_cast; rfl
    rw [this, Int.toNat_natCast, Nat.mod_eq_of_lt h]
  simp [convUnsigned, h, h2]

theorem convSigned_num {w : Nat} {z : Int} (h1 : -(2 ^ (w - 1) : Int) ≤ z)
    (h2 : z < (2 ^ (w - 1) : Int)) : convSigned w (.num z) = (z, true) := by
  simp [convSigned, not_lt.mpr h1, not_le.mpr h2]

/-! ## Node::Extract -/

theorem extractLocations_of {Loc : Type} (D : Decls Loc) {toks rest : List Token}
    {new : List Loc} (h : LocsAt D toks new rest) :
    ∀ locs : List Loc, (∀ l ∈ new, D.IsValid l = true) →
      Node.extractLocations D new.length locs (.good toks) = (locs ++ new, .good rest) := by
  induction h with
  | nil toks => intro locs _; simp [Node.extractLocations]
  | @cons toks l k new rest hget _ ih =>
    intro locs hv
    have hl := hv l (List.mem_cons_self _ _)
    have ht := ih (locs ++ [l]) (fun x hx => hv x (List.mem_cons_of_mem _ hx))
    simp [Node.extractLocations, IStream.getLoc, hget, hl, ht]

theorem extractLocations_full {Loc : Type} (D : Decls Loc) :
    ∀ (k : Nat) (locs : List Loc) (toks : List Token),
      (Node.extractLocations D k locs (.good toks)).1.length = locs.length + k →
      ∃ new rest, new.length = k ∧ LocsAt D toks new rest ∧
        (∀ l ∈ new, D.IsValid l = true) ∧
        Node.extractLocations D k locs (.good toks) = (locs ++ new, .good rest) := by
  intro k
  induction k with
  | zero =>
    intro locs toks _
    exact ⟨[], toks, rfl, LocsAt.nil toks, by simp, by simp [Node.extractLocations]⟩
  | succ k ih =>
    intro locs toks h
    rcases hget : D.get toks with _ | ⟨l, j⟩
    · simp [Node.extractLocations, IStream.getLoc, hget] at h
    · by_cases hv : D.IsValid l = true
      · have hstep : Node.extractLocations D (k + 1) locs (.good toks) =
            Node.extractLocations D k (locs ++ [l]) (.good (toks.drop j)) := by
          simp [Node.extractLocations, IStream.getLoc, hget, hv]
        rw [hstep] at h
        have h2 : (Node.extractLocations D k (locs ++ [l]) (.good (toks.drop j))).1.length =
            (locs ++ [l]).length + k := by
          rw [h]; simp; omega
        obtain ⟨new, rest, hlen, hat, hval, heq⟩ := ih (locs ++ [l]) (toks.drop j) h2
        refine ⟨l :: new, rest, by simp [hlen], LocsAt.cons hget hat, ?_, ?_⟩
        · intro x hx
          rcases List.mem_cons.mp hx with rfl | hx
          · exact hv
          · exact hval x hx
        · rw [hstep, heq]; simp
      · simp [Node.extractLocations, IStream.getLoc, hget, hv] at h

theorem extractLocations_remaining {Loc : Type} (D : Decls Loc) :
    ∀ (k : Nat) (locs : List Loc) (s : IStream),
      (Node.extractLocations D k locs s).2.remaining ≤ s.remaining := by
  intro k
  induction k with
  | zero => intro locs s; simp [Node.extractLocations]
  | succ k ih =>
    intro locs s
    cases s with
    | failed => simp [Node.extractLocations, IStream.getLoc, IStream.remaining]
    | good toks =>
      rcases hget : D.get toks with _ | ⟨l, j⟩
      · simp [Node.extractLocations, IStream.getLoc, hget, IStream.remaining]
      · by_cases hv : D.IsValid l = true
        · have := ih (locs ++ [l]) (.good (toks.drop j))
          simp [Node.extractLocations, IStream.getLoc, hget, hv]
          simp [IStream.remaining] at this ⊢
          omega
        · simp [Node.extractLocations, IStream.getLoc, hget, hv, IStream.remaining]

/-- A node record without its id at the head of a token list, as `Node::Extract`
accepts it. -/
theorem Node_Extract_of {Loc : Type} (D : Decls Loc) (self : Node Loc)
    {tCount tFlags tOrder : Token} {toks rest : List Token}
    {count flags : Nat} {order : Int} {locs : List Loc}
    (hc : convUnsigned kSizeBits tCount = (count, true))
    (hf : convUnsigned kSizeBits tFlags = (flags, true))
    (ho : convSigned kIntBits tOrder = (order, true))
    (hat : LocsAt D toks locs rest) (hlen : locs.length = count)
    (hv : ∀ l ∈ locs, D.IsValid l = true) (hmax : count ≤ D.maxLocations) :
    Node.Extract D self (.good (tCount :: tFlags :: tOrder :: toks)) =
      some ({ mFlags := flags, mPrimaryOrder := order, mLocations := locs }, .good rest) := by
  have hl := extractLocations_of D hat [] hv
  subst hlen
  simp [Node.Extract, getUnsigned_of_conv _ _ hc, getUnsigned_of_conv _ _ hf,
    getSigned_of_conv _ _ ho, Node.Clear, hl, not_lt.mpr hmax]

/-- A node record that declares more locations than a vector can hold:
`reserve` throws. -/
theorem Node_Extract_throws {Loc : Type} (D : Decls Loc) (self : Node Loc)
    {tCount tFlags tOrder : Token} {toks : List Token}
    {count flags : Nat} {order : Int}
    (hc : convUnsigned kSizeBits tCount = (count, true))
    (hf : convUnsigned kSizeBits tFlags = (flags, true))
    (ho : convSigned kIntBits tOrder = (order, true))
    (hmax : D.maxLocations < count) :
    Node.Extract D self (.good (tCount :: tFlags :: tOrder :: toks)) = none := by
  simp [Node.Extract, getUnsigned_of_conv _ _ hc, getUnsigned_of_conv _ _ hf,
    getSigned_of_conv _ _ ho, Node.Clear, hmax]

/-- The three leading fields of a node record were read when `Node::Extract`
gets as far as `reserve`. -/
theorem Node_Extract_header {Loc : Type} (D : Decls Loc) (self : Node Loc) (s : IStream) :
    (∃ nd, Node.Extract D self s = some (nd, .failed)) ∨
    ∃ (tCount tFlags tOrder : Token) (toks : List Token) (count flags : Nat) (order : Int),
      s = .good (tCount :: tFlags :: tOrder :: toks) ∧
      convUnsigned kSizeBits tCount = (count, true) ∧
      convUnsigned kSizeBits tFlags = (flags, true) ∧
      convSigned kIntBits tOrder = (order, true) := by
  by_cases h1 : (s.getUnsigned kSizeBits 0).2.fail = false
  swap
  · have h1b : (s.getUnsigned kSizeBits 0).2.fail = true := by simpa using h1
    refine Or.inl ?_
    simp [Node.Extract, h1b, fail_eq_true_iff.mp h1b]
  obtain ⟨tC, r1, count, hs, hc, e1⟩ := getUnsigned_good h1
  subst hs
  by_cases h2 : ((IStream.good r1).getUnsigned kSizeBits 0).2.fail = false
  swap
  · have h2b : ((IStream.good r1).getUnsigned kSizeBits 0).2.fail = true := by simpa using h2
    refine Or.inl ?_
    simp [Node.Extract, e1, Node.Clear, kFlagsNone, h2b, fail_eq_true_iff.mp h2b]
  obtain ⟨tF, r2, flags, hs2, hf, e2⟩ := getUnsigned_good h2
  have hr1e : r1 = tF :: r2 := by simpa using hs2
  subst hr1e
  by_cases h3 : ((IStream.good r2).getSigned kIntBits 0).2.fail = false
  swap
  · have h3b : ((IStream.good r2).getSigned kIntBits 0).2.fail = true := by simpa using h3
    refine Or.inl ?_
    simp [Node.Extract, e1, e2, Node.Clear, kFlagsNone, h3b, fail_eq_true_iff.mp h3b]
  obtain ⟨tO, r3, order, hs3, ho, e3⟩ := getSigned_good h3
  have hr2e : r2 = tO :: r3 := by simpa using hs3
  subst hr2e
  exact Or.inr ⟨tC, tF, tO, r3, count, flags, order, rfl, hc, hf, ho⟩

/-- The only exception: `Node::Extract` is left by one exactly when the record
declares more locations than a vector can hold. -/
theorem Node_Extract_none {Loc : Type} (D : Decls Loc) (self : Node Loc) (s : IStream)
    (h : Node.Extract D self s = none) :
    ∃ (tCount tFlags tOrder : Token) (toks : List Token) (count flags : Nat) (order : Int),
      s = .good (tCount :: tFlags :: tOrder :: toks) ∧
      convUnsigned kSizeBits tCount = (count, true) ∧
      convUnsigned kSizeBits tFlags = (flags, true) ∧
      convSigned kIntBits tOrder = (order, true) ∧ D.maxLocations < count := by
  rcases Node_Extract_header D self s with ⟨nd, hnd⟩ | ⟨tC, tF, tO, toks, count, flags, order,
    hs, hc, hf, ho⟩
  · rw [hnd] at h; cases h
  · refine ⟨tC, tF, tO, toks, count, flags, order, hs, hc, hf, ho, ?_⟩
    by_contra hmax
    subst hs
    simp only [Node.Extract, getUnsigned_of_conv _ _ hc, getUnsigned_of_conv _ _ hf,
      getSigned_of_conv _ _ ho, Node.Clear, fail_good, Bool.false_eq_true, if_false,
      if_neg hmax] at h
    split_ifs at h

theorem Node_Extract_good {Loc : Type} (D : Decls Loc) (self : Node Loc) (s : IStream)
    (nd : Node Loc) (s2 : IStream) (h : Node.Extract D self s = some (nd, s2))
    (hg : s2.fail = false) :
    ∃ (tCount tFlags tOrder : Token) (toks rest : List Token)
      (count flags : Nat) (order : Int) (locs : List Loc),
      s = .good (tCount :: tFlags :: tOrder :: toks) ∧
      convUnsigned kSizeBits tCount = (count, true) ∧
      convUnsigned kSizeBits tFlags = (flags, true) ∧
      convSigned kIntBits tOrder = (order, true) ∧
      LocsAt D toks locs rest ∧ locs.length = count ∧
      (∀ l ∈ locs, D.IsValid l = true) ∧ count ≤ D.maxLocations ∧
      nd = { mFlags := flags, mPrimaryOrder := order, mLocations := locs } ∧
      s2 = .good rest := by
  rcases Node_Extract_header D self s with ⟨nd2, hnd⟩ | ⟨tC, tF, tO, r3, count, flags, order,
    hs, hc, hf, ho⟩
  · rw [hnd] at h
    simp only [Option.some.injEq, Prod.mk.injEq] at h
    rw [← h.2] at hg
    simp at hg
  subst hs
  by_cases hmax : D.maxLocations < count
  · rw [Node_Extract_throws D self hc hf ho hmax] at h; cases h
  by_cases h4 : (Node.extractLocations D count [] (.good r3)).1.length = count
  swap
  · simp [Node.Extract, getUnsigned_of_conv _ _ hc, getUnsigned_of_conv _ _ hf,
      getSigned_of_conv _ _ ho, Node.Clear, kFlagsNone, h4, hmax] at h
    rw [← h.2] at hg
    simp at hg
  obtain ⟨new, rest, hlen, hat, hval, heq⟩ := extractLocations_full D _ [] r3 (by simpa using h4)
  have hr := Node_Extract_of D self hc hf ho hat hlen hval (not_lt.mp hmax)
  rw [hr] at h
  simp only [Option.some.injEq, Prod.mk.injEq] at h
  exact ⟨tC, tF, tO, r3, rest, _, _, _, new, rfl, hc, hf, ho, hat, hlen, hval, not_lt.mp hmax,
    h.1.symm, h.2.symm⟩

theorem Node_Extract_remaining {Loc : Type} (D : Decls Loc) (self : Node Loc) (s : IStream)
    (nd : Node Loc) (s2 : IStream) (h : Node.Extract D self s = some (nd, s2)) :
    s2.remaining ≤ s.remaining := by
  by_cases hg : s2.fail = false
  · obtain ⟨tC, tF, tO, toks, rest, c, f, o, locs, hs, hc, hf, ho, hat, hlen, hv, _, _, hs2⟩ :=
      Node_Extract_good D self s nd s2 h hg
    have hl := extractLocations_of D hat [] hv
    have hr := extractLocations_remaining D locs.length [] (.good toks)
    rw [hl] at hr
    rw [hs2, hs]
    simp [IStream.remaining] at hr ⊢
    omega
  · have hf : s2 = .failed := by
      cases s2 with
      | failed => rfl
      | good t => simp [IStream.fail] at hg
    rw [hf]; simp [IStream.remaining]

/-! ## The node map -/

theorem Ordered_cons {Loc : Type} {k1 : Int} {v1 : Node Loc} {m : Nodes Loc} :
    Nodes.Ordered ((k1, v1) :: m) ↔ (∀ e ∈ m, k1 < e.1) ∧ Nodes.Ordered m := by
  simp [Nodes.Ordered, List.pairwise_cons]

theorem Ordered_nil {Loc : Type} : Nodes.Ordered ([] : Nodes Loc) := by
  simp [Nodes.Ordered]

theorem find_eq_none_of_lt {Loc : Type} {k : Int} :
    ∀ {m : Nodes Loc}, (∀ e ∈ m, k < e.1) → Nodes.find m k = none := by
  intro m
  induction m with
  | nil => intro _; rfl
  | cons e m ih =>
    intro h
    obtain ⟨k1, v1⟩ := e
    have h1 : k < k1 := h (k1, v1) (List.mem_cons_self _ _)
    have h2 := ih (fun e he => h e (List.mem_cons_of_mem _ he))
    simp [Nodes.find, ne_of_lt h1, h2]

theorem find_some_mem {Loc : Type} {k : Int} {v : Node Loc} :
    ∀ {m : Nodes Loc}, Nodes.find m k = some v → (k, v) ∈ m := by
  intro m
  induction m with
  | nil => intro h; simp [Nodes.find] at h
  | cons e m ih =>
    intro h
    obtain ⟨k1, v1⟩ := e
    by_cases hk : k = k1
    · subst hk
      simp [Nodes.find] at h
      simp [h]
    · simp [Nodes.find, hk] at h
      exact List.mem_cons_of_mem _ (ih h)

theorem mem_find_some {Loc : Type} {k : Int} {v : Node Loc} :
    ∀ {m : Nodes Loc}, Nodes.Ordered m → (k, v) ∈ m → Nodes.find m k = some v := by
  intro m
  induction m with
  | nil => intro _ h; simp at h
  | cons e m ih =>
    intro ho h
    obtain ⟨k1, v1⟩ := e
    obtain ⟨hlt, hom⟩ := Ordered_cons.mp ho
    rcases List.mem_cons.mp h with heq | hmem
    · injection heq with h1 h2
      subst h1; subst h2
      simp [Nodes.find]
    · have hk : k1 < k := hlt (k, v) hmem
      simp [Nodes.find, ne_of_gt hk, ih hom hmem]

theorem find_isSome_iff {Loc : Type} {k : Int} :
    ∀ {m : Nodes Loc}, (Nodes.find m k).isSome = true ↔ k ∈ m.map Prod.fst := by
  intro m
  induction m with
  | nil => simp [Nodes.find]
  | cons e m ih =>
    obtain ⟨k1, v1⟩ := e
    by_cases hk : k = k1
    · simp [Nodes.find, hk]
    · simp only [Nodes.find, hk, if_false, ih, List.map_cons, List.mem_cons, false_or]

/-- What `mNodes.insert` does on an ordered map that lacks the key. -/
theorem insert_absent {Loc : Type} {k : Int} (v : Node Loc) :
    ∀ {m : Nodes Loc}, Nodes.Ordered m → Nodes.find m k = none →
      (Nodes.insert m k v).2 = (v, true) ∧ Nodes.Ordered (Nodes.insert m k v).1 ∧
      (Nodes.insert m k v).1.length = m.length + 1 ∧
      (∀ e, e ∈ (Nodes.insert m k v).1 ↔ e = (k, v) ∨ e ∈ m) := by
  intro m
  induction m with
  | nil =>
    intro _ _
    simp [Nodes.insert, Nodes.Ordered]
  | cons e m ih =>
    intro ho hf
    obtain ⟨k1, v1⟩ := e
    obtain ⟨hlt, hom⟩ := Ordered_cons.mp ho
    have hne : k ≠ k1 := by
      intro h
      simp [Nodes.find, h] at hf
    have hf2 : Nodes.find m k = none := by simpa [Nodes.find, hne] using hf
    by_cases hk : k < k1
    · refine ⟨by simp [Nodes.insert, hk], ?_, by simp [Nodes.insert, hk], ?_⟩
      · simp only [Nodes.insert, hk, if_true]
        refine Ordered_cons.mpr ⟨?_, ho⟩
        intro e he
        rcases List.mem_cons.mp he with rfl | he
        · exact hk
        · exact lt_trans hk (hlt e he)
      · intro e
        simp [Nodes.insert, hk]
    · obtain ⟨h1, h2, h3, h4⟩ := ih hom hf2
      have hgt : k1 < k := lt_of_le_of_ne (not_lt.mp hk) (Ne.symm hne)
      refine ⟨by simp [Nodes.insert, hk, hne, h1], ?_, by simp [Nodes.insert, hk, hne, h3], ?_⟩
      · simp only [Nodes.insert, hk, hne, if_false]
        refine Ordered_cons.mpr ⟨?_, h2⟩
        intro e he
        rcases (h4 e).mp he with rfl | he
        · exact hgt
        · exact hlt e he
      · intro e
        simp only [Nodes.insert, hk, hne, if_false, List.mem_cons, h4]
        tauto

/-- What `mNodes.insert` does on a map that holds the key. -/
theorem insert_present {Loc : Type} {k : Int} (v : Node Loc) {v0 : Node Loc} :
    ∀ {m : Nodes Loc}, Nodes.Ordered m → Nodes.find m k = some v0 →
      Nodes.insert m k v = (m, v0, false) := by
  intro m
  induction m with
  | nil => intro _ h; simp [Nodes.find] at h
  | cons e m ih =>
    intro ho hf
    obtain ⟨k1, v1⟩ := e
    obtain ⟨hlt, hom⟩ := Ordered_cons.mp ho
    by_cases hk : k = k1
    · subst hk
      simp [Nodes.find] at hf
      simp [Nodes.insert, hf]
    · have hf2 : Nodes.find m k = some v0 := by simpa [Nodes.find, hk] using hf
      have hgt : k1 < k := hlt (k, v0) (find_some_mem hf2)
      simp [Nodes.insert, not_lt.mpr (le_of_lt hgt), hk, ih hom hf2]

/-- What `mNodes[k] = v` does on an ordered map that holds the key. -/
theorem assign_present {Loc : Type} {k : Int} (v : Node Loc) {v0 : Node Loc} :
    ∀ {m : Nodes Loc}, Nodes.Ordered m → Nodes.find m k = some v0 →
      (Nodes.assign m k v).map Prod.fst = m.map Prod.fst ∧
      (∀ k2, Nodes.find (Nodes.assign m k v) k2 = if k2 = k then some v else Nodes.find m k2) := by
  intro m
  induction m with
  | nil => intro _ h; simp [Nodes.find] at h
  | cons e m ih =>
    intro ho hf
    obtain ⟨k1, v1⟩ := e
    obtain ⟨hlt, hom⟩ := Ordered_cons.mp ho
    by_cases hk : k = k1
    · subst hk
      refine ⟨by simp [Nodes.assign], ?_⟩
      intro k2
      by_cases h2 : k2 = k <;> simp [Nodes.assign, Nodes.find, h2]
    · have hf2 : Nodes.find m k = some v0 := by simpa [Nodes.find, hk] using hf
      have hgt : k1 < k := hlt (k, v0) (find_some_mem hf2)
      obtain ⟨h1, h2⟩ := ih hom hf2
      refine ⟨by simp [Nodes.assign, not_lt.mpr (le_of_lt hgt), hk, h1], ?_⟩
      intro k2
      simp only [Nodes.assign, not_lt.mpr (le_of_lt hgt), hk, if_false, Nodes.find, h2]
      by_cases h3 : k2 = k1
      · have : k2 ≠ k := by rw [h3]; exact Ne.symm hk
        simp [h3, this, Ne.symm hk]
      · simp [h3]

/-- What the node loop does with one record, on an ordered map: the map stays
ordered, the entry for the record's id becomes the record when the id is new or
the record has the lower primary order, other entries stay. -/
theorem ingest_spec {Loc : Type} (k : Int) (v : Node Loc) {m : Nodes Loc}
    (ho : Nodes.Ordered m) :
    Nodes.Ordered (Nodes.ingest m k v) ∧
    (∀ k2, Nodes.find (Nodes.ingest m k v) k2 =
      if k2 = k then
        some (match Nodes.find m k with
          | none => v
          | some v0 => if v.mPrimaryOrder < v0.mPrimaryOrder then v else v0)
      else Nodes.find m k2) ∧
    (Nodes.ingest m k v).length =
      if (Nodes.find m k).isSome then m.length else m.length + 1 := by
  rcases hf : Nodes.find m k with _ | v0
  · obtain ⟨h1, h2, h3, h4⟩ := insert_absent v ho hf
    have hi : Nodes.ingest m k v = (Nodes.insert m k v).1 := by
      simp [Nodes.ingest, h1]
    rw [hi]
    refine ⟨h2, ?_, by simpa using h3⟩
    intro k2
    by_cases hk : k2 = k
    · subst hk
      simpa using mem_find_some h2 ((h4 _).mpr (Or.inl rfl))
    · simp only [hk, if_false]
      rcases hf2 : Nodes.find m k2 with _ | x
      · rcases hf3 : Nodes.find (Nodes.insert m k v).1 k2 with _ | y
        · rfl
        · exfalso
          rcases (h4 _).mp (find_some_mem hf3) with h | h
          · injection h with h5 _
            exact hk h5
          · rw [mem_find_some ho h] at hf2
            cases hf2
      · exact mem_find_some h2 ((h4 _).mpr (Or.inr (find_some_mem hf2)))
  · have hins := insert_present v ho hf
    by_cases hlt : v.mPrimaryOrder < v0.mPrimaryOrder
    · have hi : Nodes.ingest m k v = Nodes.assign m k v := by
        simp [Nodes.ingest, hins, hlt]
      obtain ⟨h1, h2⟩ := assign_present v ho hf
      rw [hi]
      refine ⟨by simpa [Nodes.Ordered, h1] using ho, ?_, ?_⟩
      · intro k2
        rw [h2 k2]
        simp [hlt]
      · have := congrArg List.length h1
        simpa using this
    · have hi : Nodes.ingest m k v = m := by
        simp [Nodes.ingest, hins, hlt]
      rw [hi]
      refine ⟨ho, ?_, by simp⟩
      intro k2
      by_cases hk : k2 = k
      · subst hk; simp [hlt, hf]
      · simp [hk]

theorem ingestAll_nil {Loc : Type} (m : Nodes Loc) : Nodes.ingestAll m [] = m := rfl

theorem ingestAll_cons {Loc : Type} (m : Nodes Loc) (e : Int × Node Loc)
    (recs : List (Int × Node Loc)) :
    Nodes.ingestAll m (e :: recs) = Nodes.ingestAll (Nodes.ingest m e.1 e.2) recs := rfl

theorem ingestAll_append {Loc : Type} (m : Nodes Loc) (r1 r2 : List (Int × Node Loc)) :
    Nodes.ingestAll m (r1 ++ r2) = Nodes.ingestAll (Nodes.ingestAll m r1) r2 := by
  simp [Nodes.ingestAll, List.foldl_append]

theorem ingestAll_Ordered {Loc : Type} (recs : List (Int × Node Loc)) :
    ∀ {m : Nodes Loc}, Nodes.Ordered m → Nodes.Ordered (Nodes.ingestAll m recs) := by
  induction recs with
  | nil => intro m h; exact h
  | cons e recs ih =>
    intro m h
    rw [ingestAll_cons]
    exact ih (ingest_spec e.1 e.2 h).1

/-! ## The node loop of Config::Extract -/

theorem LocsAt_length {Loc : Type} (D : Decls Loc) {toks rest : List Token} {locs : List Loc}
    (h : LocsAt D toks locs rest) : rest.length ≤ toks.length := by
  induction h with
  | nil toks => exact le_refl _
  | @cons toks l k locs rest _ _ ih =>
    have := List.length_drop k toks
    omega

theorem RecordAt_length {Loc : Type} (D : Decls Loc) {toks rest : List Token}
    {e : Int × Node Loc} (h : RecordAt D toks e rest) : rest.length < toks.length := by
  cases h with
  | mk _ _ _ _ _ hat _ _ _ =>
    have := LocsAt_length D hat
    simp only [List.length_cons]
    omega

/-- One iteration of the node loop on a stream that starts with a record. -/
theorem extractNodes_step {Loc : Type} (D : Decls Loc) (n fuel : Nat) (m : Nodes Loc)
    {toks mid : List Token} {e : Int × Node Loc} (h : RecordAt D toks e mid)
    (hlt : m.length < n) :
    Config.extractNodes D n (fuel + 1) m (.good toks) =
      Config.extractNodes D n fuel (Nodes.ingest m e.1 e.2) (.good mid) := by
  cases h with
  | @mk tId tC tF tO toks2 _ theId count flags order locs hid hnn hc hf ho hat hlen hv hmax =>
    have e1 := getSigned_of_conv (-1) (tC :: tF :: tO :: toks2) hid
    have e2 := Node_Extract_of D Node.init hc hf ho hat hlen hv hmax
    simp [Config.extractNodes, hlt, e1, e2, not_lt.mpr hnn]

/-- One iteration of the node loop on a stream that starts with a record
declaring more locations than a vector can hold: the exception leaves the loop. -/
theorem extractNodes_throws {Loc : Type} (D : Decls Loc) (n fuel : Nat) (m : Nodes Loc)
    {toks : List Token} (h : OversizedAt D toks) (hlt : m.length < n) :
    Config.extractNodes D n (fuel + 1) m (.good toks) = none := by
  obtain ⟨tId, tC, tF, tO, rest, theId, count, flags, order, hs, hid, hnn, hc, hf, ho, hmax⟩ := h
  subst hs
  have e1 := getSigned_of_conv (-1) (tC :: tF :: tO :: rest) hid
  have e2 := @Node_Extract_throws Loc D Node.init tC tF tO rest count flags order hc hf ho hmax
  simp [Config.extractNodes, hlt, e1, e2, not_lt.mpr hnn]

/-- The node loop never uses up a budget larger than the number of tokens: when
it does not return, it was left by the exception, at a record that declares more
locations than a vector can hold, after reading a sequence of records. -/
theorem extractNodes_none {Loc : Type} (D : Decls Loc) (n : Nat) :
    ∀ (fuel : Nat) (m : Nodes Loc) (s : IStream), s.remaining < fuel →
      Config.extractNodes D n fuel m s = none →
      ∃ toks recs mid, s = .good toks ∧ RecordsAt D toks recs mid ∧ OversizedAt D mid := by
  intro fuel
  induction fuel with
  | zero => intro m s h; omega
  | succ fuel ih =>
    intro m s h hn
    by_cases hlt : m.length < n
    swap
    · simp [Config.extractNodes, hlt] at hn
    by_cases hid : (s.getSigned D.nodeIdBits (-1)).2.fail = false
    swap
    · have hid2 : (s.getSigned D.nodeIdBits (-1)).2.fail = true := by simpa using hid
      simp [Config.extractNodes, hlt, hid2] at hn
    obtain ⟨t, r, theId, hs, hconv, e1⟩ := getSigned_good hid
    subst hs
    by_cases hneg : theId < 0
    · simp [Config.extractNodes, hlt, e1, hneg] at hn
    rcases hne : Node.Extract D Node.init (.good r) with _ | ⟨nd, s2⟩
    · obtain ⟨tC, tF, tO, toks2, count, flags, order, hr, hc, hf, ho, hmax⟩ :=
        Node_Extract_none D Node.init (.good r) hne
      have hr2 : r = tC :: tF :: tO :: toks2 := by simpa using hr
      subst hr2
      exact ⟨_, [], _, rfl, RecordsAt.nil _,
        ⟨t, tC, tF, tO, toks2, theId, count, flags, order, rfl, hconv, not_lt.mp hneg, hc, hf,
          ho, hmax⟩⟩
    · by_cases hnode : s2.fail = false
      swap
      · have hnode2 : s2.fail = true := by simpa using hnode
        simp [Config.extractNodes, hlt, e1, hneg, hne, hnode2] at hn
      obtain ⟨tC, tF, tO, toks2, mid, c, f, o, locs, hr, hc, hf, ho, hat, hlen, hv, hmax, hnd,
        hs2⟩ := Node_Extract_good D Node.init (.good r) nd s2 hne hnode
      have hr2 : r = tC :: tF :: tO :: toks2 := by simpa using hr
      subst hr2
      subst hs2
      have hrec : RecordAt D (t :: tC :: tF :: tO :: toks2)
          (theId, { mFlags := f, mPrimaryOrder := o, mLocations := locs }) mid :=
        RecordAt.mk hconv (not_lt.mp hneg) hc hf ho hat hlen hv hmax
      have hlen2 := RecordAt_length D hrec
      have hstep : Config.extractNodes D n (fuel + 1) m (.good (t :: tC :: tF :: tO :: toks2)) =
          Config.extractNodes D n fuel (Nodes.ingest m theId nd) (.good mid) := by
        simp [Config.extractNodes, hlt, e1, hneg, hne]
      rw [hstep] at hn
      obtain ⟨toks3, recs, mid2, h1, h2, h3⟩ := ih _ (.good mid)
        (by simp [IStream.remaining] at h hlen2 ⊢; omega) hn
      have h1b : mid = toks3 := by simpa using h1
      subst h1b
      exact ⟨_, _ :: recs, mid2, rfl, RecordsAt.cons hrec h2, h3⟩

/-- How the node loop ends on a good stream: either it was left by its
condition, after reading a sequence of records, or by `break`, with the map
cleared. -/
theorem extractNodes_cases {Loc : Type} (D : Decls Loc) (n : Nat) :
    ∀ (fuel : Nat) (m : Nodes Loc) (toks : List Token) (m2 : Nodes Loc) (s2 : IStream),
      Config.extractNodes D n fuel m (.good toks) = some (m2, s2) →
      (∃ recs rest, s2 = .good rest ∧ RecordsAt D toks recs rest ∧
        m2 = Nodes.ingestAll m recs ∧ n ≤ m2.length) ∨ (m2 = [] ∧ 0 < n) := by
  intro fuel
  induction fuel with
  | zero => intro m toks m2 s2 h; simp [Config.extractNodes] at h
  | succ fuel ih =>
    intro m toks m2 s2 h
    by_cases hlt : m.length < n
    swap
    · simp [Config.extractNodes, hlt] at h
      obtain ⟨h1, h2⟩ := h
      subst h1; subst h2
      exact Or.inl ⟨[], toks, rfl, RecordsAt.nil toks, rfl, not_lt.mp hlt⟩
    have hpos : 0 < n := by omega
    by_cases hid : ((IStream.good toks).getSigned D.nodeIdBits (-1)).2.fail = false
    swap
    · have hid2 : ((IStream.good toks).getSigned D.nodeIdBits (-1)).2.fail = true := by
        simpa using hid
      simp [Config.extractNodes, hlt, hid2] at h
      exact Or.inr ⟨h.1, hpos⟩
    obtain ⟨t, r, theId, hs, hconv, e1⟩ := getSigned_good hid
    have hs2 : toks = t :: r := by simpa using hs
    subst hs2
    by_cases hneg : theId < 0
    · simp [Config.extractNodes, hlt, e1, hneg] at h
      exact Or.inr ⟨h.1, hpos⟩
    rcases hne : Node.Extract D Node.init (.good r) with _ | ⟨nd, s3⟩
    · simp [Config.extractNodes, hlt, e1, hneg, hne] at h
    by_cases hnode : s3.fail = false
    swap
    · have hnode2 : s3.fail = true := by simpa using hnode
      simp [Config.extractNodes, hlt, e1, hneg, hne, hnode2] at h
      exact Or.inr ⟨h.1, hpos⟩
    obtain ⟨tC, tF, tO, toks2, mid, c, f, o, locs, hr, hc, hf, ho, hat, hlen, hv, hmax, hnd,
      hs3⟩ := Node_Extract_good D Node.init (.good r) nd s3 hne hnode
    have hr2 : r = tC :: tF :: tO :: toks2 := by simpa using hr
    subst hr2
    have hrec : RecordAt D (t :: tC :: tF :: tO :: toks2)
        (theId, { mFlags := f, mPrimaryOrder := o, mLocations := locs }) mid :=
      RecordAt.mk hconv (not_lt.mp hneg) hc hf ho hat hlen hv hmax
    rw [extractNodes_step D n fuel m hrec hlt] at h
    rcases ih _ _ _ _ h with ⟨recs, rest, h1, h2, h3, h4⟩ | h5
    · exact Or.inl ⟨_ :: recs, rest, h1, RecordsAt.cons hrec h2, h3, h4⟩
    · exact Or.inr h5

/-! ## Config::Extract -/

/-- On a stream that starts with the five leading fields, `Config::Extract`
goes on to the node loop. -/
theorem Extract_header_ok {Loc : Type} (D : Decls Loc) (self : Config Loc) {s : IStream}
    {n : Nat} {pt bt cv : Int} {ml : Nat} {toks : List Token}
    (h : HeaderAt D s n pt bt cv ml toks) :
    Config.Extract D self s =
      match Config.extractNodes D n (toks.length + 1) [] (.good toks) with
      | none => none
      | some (nodes, s6) =>
        if nodes.length != n then some ({ self with mNodes := [] }, .failed)
        else if ! s6.fail then
          some ({ mNodes := nodes, mPrimaryTimeout := pt, mBackupTimeout := bt,
                  mChangeVewMaxLogDistance := cv, mMaxListenersPerNode := ml }, s6)
        else some ({ self with mNodes := nodes }, s6) := by
  obtain ⟨t1, t2, t3, t4, t5, hs, h1, h2, hpt, h3, hbt, h4, hcv, h5, hml⟩ := h
  subst hs
  have e1 := getUnsigned_of_conv 0 (t2 :: t3 :: t4 :: t5 :: toks) h1
  have e2 := getSigned_of_conv (-1) (t3 :: t4 :: t5 :: toks) h2
  have e3 := getSigned_of_conv (-1) (t4 :: t5 :: toks) h3
  have e4 := getSigned_of_conv (-1) (t5 :: toks) h4
  have e5 := getUnsigned_of_conv 0 toks h5
  simp only [Config.Extract, e1, e2, e3, e4, e5, fail_good, not_le.mpr hpt, not_le.mpr hbt,
    not_lt.mpr hcv, Nat.le_zero, hml, decide_False, Bool.or_false, Bool.false_eq_true,
    if_false, remaining_good, setstate_eq]

/-- On a stream that does not start with the five leading fields,
`Config::Extract` fails and leaves the map empty and the parameters alone. -/
theorem Extract_header_bad {Loc : Type} (D : Decls Loc) (self : Config Loc) {s : IStream}
    (h : ∀ n pt bt cv ml toks, ¬ HeaderAt D s n pt bt cv ml toks) :
    Config.Extract D self s = some ({ self with mNodes := [] }, .failed) := by
  by_cases h1 : (s.getUnsigned kSizeBits 0).2.fail = false
  swap
  · have h1b : (s.getUnsigned kSizeBits 0).2.fail = true := by simpa using h1
    simp [Config.Extract, h1b, fail_eq_true_iff.mp h1b]
  obtain ⟨t1, r1, n, hs, hc1, e1⟩ := getUnsigned_good h1
  subst hs
  by_cases h2 : ((IStream.good r1).getSigned kIntBits (-1)).2.fail = false
  swap
  · have h2b : ((IStream.good r1).getSigned kIntBits (-1)).2.fail = true := by simpa using h2
    simp [Config.Extract, e1, h2b]
  obtain ⟨t2, r2, pt, hs2, hc2, e2⟩ := getSigned_good h2
  have hr1 : r1 = t2 :: r2 := by simpa using hs2
  subst hr1
  by_cases hpt : pt ≤ 0
  · simp [Config.Extract, e1, e2, hpt]
  by_cases h3 : ((IStream.good r2).getSigned kIntBits (-1)).2.fail = false
  swap
  · have h3b : ((IStream.good r2).getSigned kIntBits (-1)).2.fail = true := by simpa using h3
    simp [Config.Extract, e1, e2, hpt, h3b]
  obtain ⟨t3, r3, bt, hs3, hc3, e3⟩ := getSigned_good h3
  have hr2 : r2 = t3 :: r3 := by simpa using hs3
  subst hr2
  by_cases hbt : bt ≤ 0
  · simp [Config.Extract, e1, e2, e3, hpt, hbt]
  by_cases h4 : ((IStream.good r3).getSigned D.seqBits (-1)).2.fail = false
  swap
  · have h4b : ((IStream.good r3).getSigned D.seqBits (-1)).2.fail = true := by simpa using h4
    simp [Config.Extract, e1, e2, e3, hpt, hbt, h4b]
  obtain ⟨t4, r4, cv, hs4, hc4, e4⟩ := getSigned_good h4
  have hr3 : r3 = t4 :: r4 := by simpa using hs4
  subst hr3
  by_cases hcv : cv < 0
  · simp [Config.Extract, e1, e2, e3, e4, hpt, hbt, hcv]
  by_cases h5 : ((IStream.good r4).getUnsigned kUInt32Bits 0).2.fail = false
  swap
  · have h5b : ((IStream.good r4).getUnsigned kUInt32Bits 0).2.fail = true := by simpa using h5
    simp [Config.Extract, e1, e2, e3, e4, hpt, hbt, hcv, h5b]
  obtain ⟨t5, r5, ml, hs5, hc5, e5⟩ := getUnsigned_good h5
  have hr4 : r4 = t5 :: r5 := by simpa using hs5
  subst hr4
  by_cases hml : ml = 0
  · simp [Config.Extract, e1, e2, e3, e4, e5, hpt, hbt, hcv, hml]
  exact absurd ⟨t1, t2, t3, t4, t5, rfl, hc1, hc2, not_le.mp hpt, hc3, not_le.mp hbt, hc4,
    not_lt.mp hcv, hc5, hml⟩ (h n pt bt cv ml r5)

/-- When `Config::Extract` does not return, it was left by the exception: the
stream started with the five leading fields and a sequence of node records,
followed by a record that declares more locations than a vector can hold. -/
theorem Extract_none {Loc : Type} (D : Decls Loc) (self : Config Loc) (s : IStream)
    (h : Config.Extract D self s = none) :
    ∃ n pt bt cv ml toks recs mid, HeaderAt D s n pt bt cv ml toks ∧
      RecordsAt D toks recs mid ∧ OversizedAt D mid := by
  by_cases hh : ∃ n pt bt cv ml toks, HeaderAt D s n pt bt cv ml toks
  · obtain ⟨n, pt, bt, cv, ml, toks, hh⟩ := hh
    rw [Extract_header_ok D self hh] at h
    rcases hr : Config.extractNodes D n (toks.length + 1) [] (.good toks) with _ | ⟨m2, s2⟩
    · obtain ⟨toks2, recs, mid, h1, h2, h3⟩ :=
        extractNodes_none D n (toks.length + 1) [] (.good toks) (by simp) hr
      have h1b : toks = toks2 := by simpa using h1
      subst h1b
      exact ⟨n, pt, bt, cv, ml, toks, recs, mid, hh, h2, h3⟩
    · rw [hr] at h
      by_cases hl : m2.length = n
      · cases s2 <;> simp [hl] at h
      · simp [hl] at h
  · rw [Extract_header_bad D self (by
      intro n pt bt cv ml toks hx
      exact hh ⟨n, pt, bt, cv, ml, toks, hx⟩)] at h
    cases h

/-- Totality but for the exception: `Config::Extract` returns, whatever the
target, on every stream in which no record declares more locations than a vector
can hold. -/
theorem Extract_returns {Loc : Type} (D : Decls Loc) (self : Config Loc) (s : IStream)
    (h : ∀ n pt bt cv ml toks recs mid, HeaderAt D s n pt bt cv ml toks →
      RecordsAt D toks recs mid → ¬ OversizedAt D mid) :
    ∃ r, Config.Extract D self s = some r := by
  rcases hr : Config.Extract D self s with _ | r
  · obtain ⟨n, pt, bt, cv, ml, toks, recs, mid, h1, h2, h3⟩ := Extract_none D self s hr
    exact absurd h3 (h n pt bt cv ml toks recs mid h1 h2)
  · exact ⟨r, rfl⟩

/-- The two ways `Config::Extract` ends: failed, with the map empty and the
parameters untouched; or good, having read the five leading fields and a
sequence of records that fills the map with the declared number of nodes. -/
theorem Extract_cases {Loc : Type} (D : Decls Loc) (self : Config Loc) (s : IStream)
    (c : Config Loc) (s2 : IStream) (h : Config.Extract D self s = some (c, s2)) :
    (s2 = .failed ∧ c = { self with mNodes := [] }) ∨
    (∃ n pt bt cv ml toks recs rest, HeaderAt D s n pt bt cv ml toks ∧
      RecordsAt D toks recs rest ∧ s2 = .good rest ∧
      c = { mNodes := Nodes.ingestAll [] recs, mPrimaryTimeout := pt, mBackupTimeout := bt,
            mChangeVewMaxLogDistance := cv, mMaxListenersPerNode := ml } ∧
      (Nodes.ingestAll ([] : Nodes Loc) recs).length = n) := by
  by_cases hh : ∃ n pt bt cv ml toks, HeaderAt D s n pt bt cv ml toks
  swap
  · rw [Extract_header_bad D self (by
      intro n pt bt cv ml toks hx
      exact hh ⟨n, pt, bt, cv, ml, toks, hx⟩)] at h
    simp at h
    exact Or.inl ⟨h.2.symm, h.1.symm⟩
  obtain ⟨n, pt, bt, cv, ml, toks, hh⟩ := hh
  rw [Extract_header_ok D self hh] at h
  rcases hr : Config.extractNodes D n (toks.length + 1) [] (.good toks) with _ | ⟨m2, s6⟩
  · rw [hr] at h; simp at h
  rw [hr] at h
  rcases extractNodes_cases D n _ _ _ _ _ hr with ⟨recs, rest, h1, h2, h3, h4⟩ | ⟨h5, h6⟩
  · subst h1
    by_cases hl : m2.length = n
    · simp [hl] at h
      refine Or.inr ⟨n, pt, bt, cv, ml, toks, recs, rest, hh, h2, h.2.symm, ?_, ?_⟩
      · rw [← h3]; exact h.1.symm
      · rw [← h3]; exact hl
    · simp [hl] at h
      exact Or.inl ⟨h.2.symm, h.1.symm⟩
  · subst h5
    have hl : ¬ (0 = n) := by omega
    simp [hl] at h
    exact Or.inl ⟨h.2.symm, h.1.symm⟩

/-! ## Config::Insert -/

theorem tokens_append (a b : OStream) : OStream.tokens (a ++ b) = a.tokens ++ b.tokens := by
  simp [OStream.tokens, List.filterMap_append]

theorem tokens_map_tok (ts : List Token) : OStream.tokens (ts.map Piece.tok) = ts := by
  induction ts with
  | nil => rfl
  | cons t ts ih =>
    have : OStream.tokens (Piece.tok t :: ts.map Piece.tok) = t :: OStream.tokens (ts.map Piece.tok) := by
      simp [OStream.tokens]
    simp only [List.map_cons, this, ih]

theorem tokens_locations {Loc : Type} (D : Decls Loc) (locs : List Loc) :
    ∀ acc : OStream,
      OStream.tokens (locs.foldl (fun acc l => acc ++ [Piece.sp] ++ (D.put l).map Piece.tok) acc) =
        acc.tokens ++ locs.flatMap D.put := by
  induction locs with
  | nil => intro acc; simp
  | cons l locs ih =>
    intro acc
    have h1 : OStream.tokens [Piece.sp] = [] := rfl
    rw [List.foldl_cons, ih, tokens_append, tokens_append, tokens_map_tok, h1]
    simp

/-- The tokens `Node::Insert` appends: `locationCount flags primaryOrder` and
the locations in list order. -/
theorem Node_Insert_tokens {Loc : Type} (D : Decls Loc) (n : Node Loc) (s : OStream) :
    (Node.Insert D n s).tokens =
      s.tokens ++ ([.num n.mLocations.length, .num n.mFlags, .num n.mPrimaryOrder] ++
        n.mLocations.flatMap D.put) := by
  have h : OStream.tokens [Piece.tok (.num n.mLocations.length), .sp,
      .tok (.num n.mFlags), .sp, .tok (.num n.mPrimaryOrder)] =
      [.num n.mLocations.length, .num n.mFlags, .num n.mPrimaryOrder] := rfl
  simp only [Node.Insert]
  rw [tokens_locations, tokens_append, h]
  simp

theorem tokens_nodes {Loc : Type} (D : Decls Loc) (nodes : Nodes Loc) :
    ∀ acc : OStream,
      OStream.tokens (nodes.foldl
        (fun acc e => Node.Insert D e.2 (acc ++ [Piece.sp, .tok (.num e.1), .sp])) acc) =
        acc.tokens ++ nodes.flatMap (specRecord D) := by
  induction nodes with
  | nil => intro acc; simp
  | cons e nodes ih =>
    intro acc
    have h1 : OStream.tokens [Piece.sp, .tok (.num e.1), .sp] = [.num e.1] := rfl
    rw [List.foldl_cons, ih, Node_Insert_tokens, tokens_append, h1]
    simp [specRecord]

/-- The tokens `Config::Insert` appends to a stream. -/
theorem Config_Insert_tokens {Loc : Type} (D : Decls Loc) (c : Config Loc) (s : OStream) :
    (Config.Insert D c s).tokens = s.tokens ++ specEncoding D c := by
  have h : OStream.tokens [Piece.tok (.num c.mNodes.length), .sp,
      .tok (.num c.mPrimaryTimeout), .sp, .tok (.num c.mBackupTimeout), .sp,
      .tok (.num c.mChangeVewMaxLogDistance), .sp,
      .tok (.num c.mMaxListenersPerNode), .sp] =
      [.num c.mNodes.length, .num c.mPrimaryTimeout, .num c.mBackupTimeout,
        .num c.mChangeVewMaxLogDistance, .num c.mMaxListenersPerNode] := rfl
  simp only [Config.Insert]
  rw [tokens_nodes, tokens_append, h]
  simp [specEncoding]

/-- C5. Serialized form: the whitespace separated tokens written by
`Config::Insert` are `nodeCount primaryTimeout backupTimeout
changeViewMaxLogDistance maxListenersPerNode` followed by one record per entry of
the node map, in map order, each record being `nodeId locationCount flags
primaryOrder` followed by its locations in list order, with `nodeCount` the size
of the node map and `locationCount` the length of the location list. -/
theorem Insert_serialized_form {Loc : Type} (D : Decls Loc) (c : Config Loc) :
    (Config.Insert D c []).tokens =
      [Token.num c.mNodes.length, .num c.mPrimaryTimeout, .num c.mBackupTimeout,
        .num c.mChangeVewMaxLogDistance, .num c.mMaxListenersPerNode] ++
      c.mNodes.flatMap (fun e =>
        [Token.num e.1, .num e.2.mLocations.length, .num e.2.mFlags, .num e.2.mPrimaryOrder] ++
          e.2.mLocations.flatMap D.put) := by
  rw [Config_Insert_tokens]
  rfl

/-! ## Round trip -/

theorem LocsAt_written {Loc : Type} (D : Decls Loc) (rest : List Token) :
    ∀ locs : List Loc, (∀ l ∈ locs, LocRoundTrips D l) →
      LocsAt D (locs.flatMap D.put ++ rest) locs rest := by
  intro locs
  induction locs with
  | nil => intro _; exact LocsAt.nil rest
  | cons l locs ih =>
    intro h
    have hl := h l (List.mem_cons_self _ _)
    have ht := ih (fun x hx => h x (List.mem_cons_of_mem _ hx))
    have hget : D.get ((l :: locs).flatMap D.put ++ rest) = some (l, (D.put l).length) := by
      rw [List.flatMap_cons, List.append_assoc]
      exact hl _
    refine LocsAt.cons hget ?_
    rw [List.flatMap_cons, List.append_assoc, List.drop_left]
    exact ht

theorem RecordAt_written {Loc : Type} (D : Decls Loc) (rest : List Token) (e : Int × Node Loc)
    (hid1 : -(2 ^ (D.nodeIdBits - 1) : Int) ≤ e.1) (hid2 : e.1 < (2 ^ (D.nodeIdBits - 1) : Int))
    (hn : Node.WellTyped e.2) (hmax : e.2.mLocations.length ≤ D.maxLocations) (hnn : 0 ≤ e.1)
    (hl : ∀ l ∈ e.2.mLocations, D.IsValid l = true ∧ LocRoundTrips D l) :
    RecordAt D (specRecord D e ++ rest) e rest := by
  obtain ⟨k, n⟩ := e
  obtain ⟨hf, ho1, ho2, hlen⟩ := hn
  have h : RecordAt D _ _ _ := RecordAt.mk (convSigned_num hid1 hid2) hnn (convUnsigned_num hlen)
    (convUnsigned_num hf) (convSigned_num ho1 ho2)
    (LocsAt_written D rest n.mLocations (fun l h => (hl l h).2)) rfl (fun l h => (hl l h).1)
    hmax
  simpa [specRecord] using h

theorem RecordsAt_written {Loc : Type} (D : Decls Loc) (rest : List Token) :
    ∀ recs : List (Int × Node Loc),
      (∀ e ∈ recs, -(2 ^ (D.nodeIdBits - 1) : Int) ≤ e.1 ∧
        e.1 < (2 ^ (D.nodeIdBits - 1) : Int) ∧ Node.WellTyped e.2 ∧
        e.2.mLocations.length ≤ D.maxLocations) →
      (∀ e ∈ recs, 0 ≤ e.1 ∧
        ∀ l ∈ e.2.mLocations, D.IsValid l = true ∧ LocRoundTrips D l) →
      RecordsAt D (recs.flatMap (specRecord D) ++ rest) recs rest := by
  intro recs
  induction recs with
  | nil => intro _ _; exact RecordsAt.nil rest
  | cons e recs ih =>
    intro ht hv
    have ht1 := ht e (List.mem_cons_self _ _)
    have hv1 := hv e (List.mem_cons_self _ _)
    have hrest := ih (fun x hx => ht x (List.mem_cons_of_mem _ hx))
      (fun x hx => hv x (List.mem_cons_of_mem _ hx))
    rw [List.flatMap_cons, List.append_assoc]
    exact RecordsAt.cons
      (RecordAt_written D _ e ht1.1 ht1.2.1 ht1.2.2.1 ht1.2.2.2 hv1.1 hv1.2) hrest

theorem RecordsAt_length {Loc : Type} (D : Decls Loc) {toks rest : List Token}
    {recs : List (Int × Node Loc)} (h : RecordsAt D toks recs rest) :
    rest.length ≤ toks.length := by
  induction h with
  | nil toks => exact le_refl _
  | cons hr _ ih =>
    have := RecordAt_length D hr
    omega

theorem insert_above {Loc : Type} (k : Int) (v : Node Loc) :
    ∀ m : Nodes Loc, (∀ e ∈ m, e.1 < k) → Nodes.insert m k v = (m ++ [(k, v)], v, true) := by
  intro m
  induction m with
  | nil => intro _; simp [Nodes.insert]
  | cons e m ih =>
    intro h
    obtain ⟨k1, v1⟩ := e
    have h1 : k1 < k := h (k1, v1) (List.mem_cons_self _ _)
    have h2 := ih (fun e he => h e (List.mem_cons_of_mem _ he))
    have h3 : ¬ k < k1 := not_lt.mpr (le_of_lt h1)
    have h4 : k ≠ k1 := ne_of_gt h1
    simp [Nodes.insert, h3, h4, h2]

/-- A record whose id is above every key of the map goes to the end of the map. -/
theorem ingest_above {Loc : Type} (k : Int) (v : Node Loc) (m : Nodes Loc)
    (h : ∀ e ∈ m, e.1 < k) : Nodes.ingest m k v = m ++ [(k, v)] := by
  simp [Nodes.ingest, insert_above k v m h]

/-- The node loop on a stream that starts with records in strictly ascending id
order, continuing the map they extend: it reads them all and stops. -/
theorem extractNodes_ordered {Loc : Type} (D : Decls Loc) {toks rest : List Token}
    {recs : List (Int × Node Loc)} (h : RecordsAt D toks recs rest) :
    ∀ (m : Nodes Loc) (fuel : Nat), toks.length < fuel → Nodes.Ordered (m ++ recs) →
      Config.extractNodes D (m.length + recs.length) fuel m (.good toks) =
        some (m ++ recs, .good rest) := by
  induction h with
  | nil toks =>
    intro m fuel hf _
    cases fuel with
    | zero => omega
    | succ fuel => simp [Config.extractNodes]
  | @cons toks mid rest e recs hr _ ih =>
    intro m fuel hf ho
    cases fuel with
    | zero => omega
    | succ fuel =>
      have hlt : m.length < m.length + (e :: recs).length := by simp
      rw [extractNodes_step D _ fuel m hr hlt]
      have habove : ∀ x ∈ m, x.1 < e.1 := by
        intro x hx
        have hp : ((m ++ e :: recs).map Prod.fst).Pairwise (· < ·) := ho
        rw [List.map_append, List.pairwise_append] at hp
        exact hp.2.2 x.1 (List.mem_map_of_mem _ hx) e.1 (by simp)
      rw [ingest_above e.1 e.2 m habove]
      have hlen := RecordAt_length D hr
      have := ih (m ++ [(e.1, e.2)]) fuel (by omega) (by simpa using ho)
      simpa [Nat.add_assoc, Nat.add_comm 1] using this

theorem HeaderAt_written {Loc : Type} (D : Decls Loc) (c : Config Loc) (toks : List Token)
    (ht : Config.WellTyped D c) (hv : Config.Valid D c) :
    HeaderAt D (.good ([Token.num c.mNodes.length, .num c.mPrimaryTimeout,
        .num c.mBackupTimeout, .num c.mChangeVewMaxLogDistance,
        .num c.mMaxListenersPerNode] ++ toks))
      c.mNodes.length c.mPrimaryTimeout c.mBackupTimeout c.mChangeVewMaxLogDistance
      c.mMaxListenersPerNode toks := by
  obtain ⟨_, hn, _, hp1, hp2, hb1, hb2, hd1, hd2, hm⟩ := ht
  obtain ⟨v1, v2, v3, v4, _⟩ := hv
  refine ⟨_, _, _, _, _, rfl, convUnsigned_num hn, convSigned_num hp1 hp2, by omega,
    convSigned_num hb1 hb2, by omega, convSigned_num hd1 hd2, v3, convUnsigned_num hm, by omega⟩

/-- C1. Configuration round trip: for every valid configuration (whose fields
hold values of their C++ types), `Config::Extract` applied to the text written
by `Config::Insert` with the default delimiters, into any target, leaves the
stream good and yields the configuration itself: the same node map (ids, flags,
primary order, ordered locations) and the same four parameters. -/
theorem Config_round_trip {Loc : Type} (D : Decls Loc) (c self : Config Loc)
    (ht : Config.WellTyped D c) (hv : Config.Valid D c) :
    Config.Extract D self (.good (Config.Insert D c []).tokens) = some (c, .good []) := by
  have hh := HeaderAt_written D c (c.mNodes.flatMap (specRecord D)) ht hv
  have hrec := RecordsAt_written D [] c.mNodes ht.2.2.1 hv.2.2.2.2
  rw [List.append_nil] at hrec
  have hloop := extractNodes_ordered D hrec [] ((c.mNodes.flatMap (specRecord D)).length + 1)
    (by omega) (by simpa using ht.1)
  simp only [List.length_nil, Nat.zero_add, List.nil_append] at hloop
  have htok : (Config.Insert D c []).tokens = [Token.num c.mNodes.length,
      .num c.mPrimaryTimeout, .num c.mBackupTimeout, .num c.mChangeVewMaxLogDistance,
      .num c.mMaxListenersPerNode] ++ c.mNodes.flatMap (specRecord D) := by
    rw [Config_Insert_tokens]; rfl
  rw [htok, Extract_header_ok D self hh, hloop]
  simp

theorem sampleConfig_WellTyped : Config.WellTyped stdDecls sampleConfig := by
  simp [Config.WellTyped, sampleConfig, Nodes.Ordered, Node.WellTyped, stdDecls, kSizeBits,
    kIntBits, kUInt32Bits, kFlagActive]

theorem sampleConfig_Valid : Config.Valid stdDecls sampleConfig := by
  refine ⟨by decide, by decide, by decide, by decide, ?_⟩
  intro e he
  simp only [sampleConfig, List.mem_cons, List.mem_singleton, List.not_mem_nil, or_false] at he
  rcases he with rfl | rfl
  · refine ⟨by decide, ?_⟩
    intro l hl
    simp only [List.mem_singleton] at hl
    subst hl
    exact ⟨by decide, fun _ => rfl⟩
  · refine ⟨by decide, ?_⟩
    intro l hl
    simp only [List.mem_cons, List.mem_singleton, List.not_mem_nil, or_false] at hl
    rcases hl with rfl | rfl
    · exact ⟨by decide, fun _ => rfl⟩
    · exact ⟨by decide, fun _ => rfl⟩

/-- Witness for the round trip theorem: the sample configuration is well typed and
valid and round trips into a target that held other content. -/
theorem Config_round_trip_witness :
    Config.WellTyped stdDecls sampleConfig ∧ Config.Valid stdDecls sampleConfig ∧
    Config.Extract stdDecls sampleTarget (.good (Config.Insert stdDecls sampleConfig []).tokens) =
      some (sampleConfig, .good []) :=
  ⟨sampleConfig_WellTyped, sampleConfig_Valid,
    Config_round_trip stdDecls sampleConfig sampleTarget sampleConfig_WellTyped sampleConfig_Valid⟩

/-! ## What the node loop stores -/

theorem ingest_keys {Loc : Type} (k : Int) (v : Node Loc) {m : Nodes Loc}
    (ho : Nodes.Ordered m) (k2 : Int) :
    k2 ∈ (Nodes.ingest m k v).map Prod.fst ↔ k2 = k ∨ k2 ∈ m.map Prod.fst := by
  rw [← find_isSome_iff, ← find_isSome_iff, (ingest_spec k v ho).2.1 k2]
  by_cases hk : k2 = k <;> simp [hk]

theorem ingestAll_keys {Loc : Type} (recs : List (Int × Node Loc)) :
    ∀ {m : Nodes Loc}, Nodes.Ordered m → ∀ k2 : Int,
      k2 ∈ (Nodes.ingestAll m recs).map Prod.fst ↔
        k2 ∈ m.map Prod.fst ∨ k2 ∈ recs.map Prod.fst := by
  induction recs with
  | nil => intro m _ k2; simp [ingestAll_nil]
  | cons e recs ih =>
    intro m ho k2
    rw [ingestAll_cons, ih (ingest_spec e.1 e.2 ho).1, ingest_keys e.1 e.2 ho]
    simp only [List.map_cons, List.mem_cons]
    tauto

theorem Ordered_nodup {Loc : Type} {m : Nodes Loc} (ho : Nodes.Ordered m) :
    (m.map Prod.fst).Nodup := by
  have h : (m.map Prod.fst).Pairwise (· < ·) := ho
  exact h.imp (fun hab => ne_of_lt hab)

/-- The loop ends with as many nodes as the records it read bear distinct ids. -/
theorem ingestAll_length {Loc : Type} (recs : List (Int × Node Loc)) :
    (Nodes.ingestAll ([] : Nodes Loc) recs).length = distinctIds recs := by
  have ho := ingestAll_Ordered recs (@Ordered_nil Loc)
  have hk := ingestAll_keys recs (@Ordered_nil Loc)
  have hset : ((Nodes.ingestAll ([] : Nodes Loc) recs).map Prod.fst).toFinset =
      (recs.map Prod.fst).toFinset := by
    ext k2
    simp only [List.mem_toFinset]
    rw [hk k2]
    simp
  rw [distinctIds, ← hset, List.toFinset_card_of_nodup (Ordered_nodup ho), List.length_map]

/-- The entry the loop stores for an id: the earliest of the records bearing
that id that have the lowest primary order. -/
theorem ingestAll_best {Loc : Type} (recs : List (Int × Node Loc)) :
    ∀ k ∈ recs.map Prod.fst, ∃ v pre post,
      Nodes.find (Nodes.ingestAll ([] : Nodes Loc) recs) k = some v ∧
      recs = pre ++ (k, v) :: post ∧
      (∀ e ∈ pre, e.1 = k → v.mPrimaryOrder < e.2.mPrimaryOrder) ∧
      (∀ e ∈ post, e.1 = k → v.mPrimaryOrder ≤ e.2.mPrimaryOrder) := by
  induction recs using List.reverseRecOn with
  | nil => intro k hk; simp at hk
  | append_singleton recs r ih =>
    intro k hk
    have ho := ingestAll_Ordered recs (@Ordered_nil Loc)
    have hfind := (ingest_spec r.1 r.2 ho).2.1 k
    have hstep : Nodes.ingestAll ([] : Nodes Loc) (recs ++ [r]) =
        Nodes.ingest (Nodes.ingestAll [] recs) r.1 r.2 := by
      rw [ingestAll_append]; rfl
    rw [hstep, hfind]
    by_cases hin : k ∈ recs.map Prod.fst
    · obtain ⟨v, pre, post, hf, hsplit, hpre, hpost⟩ := ih k hin
      by_cases hk2 : k = r.1
      · subst hk2
        simp only [if_true, hf]
        by_cases hlt : r.2.mPrimaryOrder < v.mPrimaryOrder
        · refine ⟨r.2, recs, [], by simp [hlt], by simp, ?_, by simp⟩
          intro e he hek
          rw [hsplit] at he
          rcases List.mem_append.mp he with h1 | h1
          · exact lt_trans hlt (hpre e h1 hek)
          · rcases List.mem_cons.mp h1 with h2 | h2
            · rw [h2]; exact hlt
            · exact lt_of_lt_of_le hlt (hpost e h2 hek)
        · refine ⟨v, pre, post ++ [r], by simp [hlt], by simp [hsplit], hpre, ?_⟩
          intro e he hek
          rcases List.mem_append.mp he with h1 | h1
          · exact hpost e h1 hek
          · rw [List.mem_singleton.mp h1]; exact not_lt.mp hlt
      · simp only [hk2, if_false]
        refine ⟨v, pre, post ++ [r], hf, by simp [hsplit], hpre, ?_⟩
        intro e he hek
        rcases List.mem_append.mp he with h1 | h1
        · exact hpost e h1 hek
        · rw [List.mem_singleton.mp h1] at hek
          exact absurd hek.symm hk2
    · have hk2 : k = r.1 := by
        simp only [List.map_append, List.mem_append, List.map_cons, List.map_nil,
          List.mem_singleton] at hk
        rcases hk with h | h
        · exact absurd h hin
        · exact h
      subst hk2
      have hnone : Nodes.find (Nodes.ingestAll ([] : Nodes Loc) recs) r.1 = none := by
        rcases hx : Nodes.find (Nodes.ingestAll ([] : Nodes Loc) recs) r.1 with _ | x
        · rfl
        · exfalso
          have h1 : (Nodes.find (Nodes.ingestAll ([] : Nodes Loc) recs) r.1).isSome = true := by
            rw [hx]; rfl
          have h2 := (ingestAll_keys recs (@Ordered_nil Loc) r.1).mp
            (find_isSome_iff.mp h1)
          simp at h2
          exact hin (by simpa using h2)
      simp only [if_true, hnone]
      refine ⟨r.2, recs, [], rfl, by simp, ?_, by simp⟩
      intro e he hek
      exact absurd (hek ▸ List.mem_map_of_mem Prod.fst he) hin

/-- Every entry the loop stores is one of the records it read. -/
theorem ingestAll_mem {Loc : Type} (recs : List (Int × Node Loc)) (e : Int × Node Loc)
    (he : e ∈ Nodes.ingestAll ([] : Nodes Loc) recs) : e ∈ recs := by
  have ho := ingestAll_Ordered recs (@Ordered_nil Loc)
  have hf := mem_find_some ho (show (e.1, e.2) ∈ _ from he)
  have hk : e.1 ∈ recs.map Prod.fst := by
    have := (ingestAll_keys recs (@Ordered_nil Loc) e.1).mp
      (List.mem_map_of_mem Prod.fst he)
    simpa using this
  obtain ⟨v, pre, post, hfv, hsplit, _, _⟩ := ingestAll_best recs e.1 hk
  rw [hf] at hfv
  injection hfv with hv
  rw [hsplit]
  have : e = (e.1, v) := by rw [← hv]
  rw [this]
  simp

theorem LocsAt_suffix {Loc : Type} (D : Decls Loc) {toks rest : List Token} {locs : List Loc}
    (h : LocsAt D toks locs rest) : rest <:+ toks := by
  induction h with
  | nil t => exact List.suffix_refl _
  | @cons t l k locs rest _ _ ih => exact ih.trans (List.drop_suffix k t)

/-- Every record of a sequence of records sits somewhere in the token list. -/
theorem RecordsAt_mem {Loc : Type} (D : Decls Loc) {toks rest : List Token}
    {recs : List (Int × Node Loc)} (h : RecordsAt D toks recs rest) :
    ∀ e ∈ recs, ∃ pre mid, pre <:+ toks ∧ RecordAt D pre e mid := by
  induction h with
  | nil toks => intro e he; simp at he
  | @cons toks mid rest e0 recs hr hrest ih =>
    intro e he
    rcases List.mem_cons.mp he with rfl | he
    · exact ⟨toks, mid, List.suffix_refl _, hr⟩
    · obtain ⟨pre, mid2, hsuf, hrec⟩ := ih e he
      refine ⟨pre, mid2, ?_, hrec⟩
      cases hr with
      | @mk tId tC tF tO toks2 _ theId count flags order locs _ _ _ _ _ hat _ _ _ =>
        have hs : mid <:+ toks2 := LocsAt_suffix D hat
        exact hsuf.trans (hs.trans (by
          exact ⟨[tId, tC, tF, tO], by simp⟩))

/-- The locations at the head of a token list are determined by their number. -/
theorem LocsAt_unique {Loc : Type} (D : Decls Loc) {toks r1 : List Token} {l1 : List Loc}
    (h1 : LocsAt D toks l1 r1) :
    ∀ {l2 : List Loc} {r2 : List Token}, LocsAt D toks l2 r2 → l1.length = l2.length →
      l1 = l2 ∧ r1 = r2 := by
  induction h1 with
  | nil toks =>
    intro l2 r2 h2 hlen
    cases h2 with
    | nil => exact ⟨rfl, rfl⟩
    | cons _ _ => simp at hlen
  | @cons toks l k locs rest hget _ ih =>
    intro l2 r2 h2 hlen
    cases h2 with
    | nil => simp at hlen
    | @cons _ l3 k3 locs3 _ hget3 hrest3 =>
      rw [hget] at hget3
      injection hget3 with hp
      injection hp with hl hk
      subst hl; subst hk
      obtain ⟨h3, h4⟩ := ih hrest3 (by simpa using hlen)
      exact ⟨by rw [h3], h4⟩

/-- The record at the head of a token list is determined by the token list. -/
theorem RecordAt_unique {Loc : Type} (D : Decls Loc) {toks m1 m2 : List Token}
    {e1 e2 : Int × Node Loc} (h1 : RecordAt D toks e1 m1) (h2 : RecordAt D toks e2 m2) :
    e1 = e2 ∧ m1 = m2 := by
  cases h1 with
  | mk hid _ hc hf ho hat hl _ _ =>
    cases h2 with
    | mk hid2 _ hc2 hf2 ho2 hat2 hl2 _ _ =>
      rw [hid] at hid2
      rw [hc] at hc2
      rw [hf] at hf2
      rw [ho] at ho2
      injection hid2 with a1 _
      injection hc2 with a2 _
      injection hf2 with a3 _
      injection ho2 with a4 _
      obtain ⟨h3, h4⟩ := LocsAt_unique D hat hat2 (by rw [hl, hl2, a2])
      subst a1; subst a3; subst a4; subst h3
      exact ⟨rfl, h4⟩

/-- The records between the head of a token list and a given remainder are
determined by the two. -/
theorem RecordsAt_unique {Loc : Type} (D : Decls Loc) {toks rest : List Token}
    {recs1 : List (Int × Node Loc)} (h1 : RecordsAt D toks recs1 rest) :
    ∀ {recs2 : List (Int × Node Loc)}, RecordsAt D toks recs2 rest → recs1 = recs2 := by
  induction h1 with
  | nil toks =>
    intro recs2 h2
    cases h2 with
    | nil => rfl
    | cons hr hrest =>
      have := RecordAt_length D hr
      have := RecordsAt_length D hrest
      omega
  | @cons toks mid rest e recs hr hrest ih =>
    intro recs2 h2
    cases h2 with
    | nil =>
      have := RecordAt_length D hr
      have := RecordsAt_length D hrest
      omega
    | cons hr2 hrest2 =>
      obtain ⟨h3, h4⟩ := RecordAt_unique D hr hr2
      subst h3; subst h4
      rw [ih hrest2]

/-- The node loop on a stream that starts with records bearing enough distinct
ids: it is left by its condition, on a good stream, with `n` nodes. -/
theorem extractNodes_of_records {Loc : Type} (D : Decls Loc) (n : Nat) {toks rest : List Token}
    {recs : List (Int × Node Loc)} (h : RecordsAt D toks recs rest) :
    ∀ (m : Nodes Loc) (fuel : Nat), toks.length < fuel → Nodes.Ordered m → m.length ≤ n →
      n ≤ (Nodes.ingestAll m recs).length →
      ∃ m2 rest2, Config.extractNodes D n fuel m (.good toks) = some (m2, .good rest2) ∧
        m2.length = n := by
  induction h with
  | nil toks =>
    intro m fuel hf _ hle hge
    cases fuel with
    | zero => omega
    | succ fuel =>
      rw [ingestAll_nil] at hge
      exact ⟨m, toks, by simp [Config.extractNodes, not_lt.mpr hge], by omega⟩
  | @cons toks mid rest e recs hr _ ih =>
    intro m fuel hf ho hle hge
    cases fuel with
    | zero => omega
    | succ fuel =>
      by_cases hlt : m.length < n
      · rw [extractNodes_step D n fuel m hr hlt]
        have hlen := RecordAt_length D hr
        have hsp := ingest_spec e.1 e.2 ho
        refine ih (Nodes.ingest m e.1 e.2) fuel (by omega) hsp.1 ?_ (by simpa [ingestAll_cons] using hge)
        rw [hsp.2.2]
        split <;> omega
      · exact ⟨m, toks, by simp [Config.extractNodes, hlt], by omega⟩

/-- Success: `Config::Extract` leaves the stream good on every well formed encoding. -/
theorem Extract_wellformed {Loc : Type} (D : Decls Loc) (self : Config Loc) (s : IStream)
    (h : WellFormed D s) : ∃ c rest, Config.Extract D self s = some (c, .good rest) := by
  obtain ⟨n, pt, bt, cv, ml, toks, recs, rest, hh, hrec, hd⟩ := h
  obtain ⟨m2, rest2, hloop, hlen⟩ := extractNodes_of_records D n hrec [] (toks.length + 1)
    (by omega) Ordered_nil (by simp) (by rw [ingestAll_length, hd])
  rw [Extract_header_ok D self hh, hloop]
  simp [hlen]

/-- Failure: `Config::Extract` returns with the stream failed exactly on the
malformed encodings on which it returns. -/
theorem Extract_fails_iff_malformed {Loc : Type} (D : Decls Loc) (self : Config Loc)
    (s : IStream) :
    (∃ c, Config.Extract D self s = some (c, .failed)) ↔
      (Malformed D s ∧ Config.Extract D self s ≠ none) := by
  constructor
  · rintro ⟨c, hc⟩
    refine ⟨fun hw => ?_, by rw [hc]; simp⟩
    obtain ⟨c2, rest, h2⟩ := Extract_wellformed D self s hw
    rw [hc] at h2
    simp at h2
  · rintro ⟨hm, hn⟩
    rcases hr : Config.Extract D self s with _ | ⟨c, s2⟩
    · exact absurd hr hn
    rcases Extract_cases D self s c s2 hr with ⟨h1, _⟩ | ⟨n, pt, bt, cv, ml, toks, recs, rest,
      hh, hrec, _, _, hlen⟩
    · subst h1
      exact ⟨c, rfl⟩
    · exact absurd ⟨n, pt, bt, cv, ml, toks, recs, rest, hh, hrec,
        by rw [← ingestAll_length, hlen]⟩ hm

/-! ## Properties of the decoder -/

/-- A successful `Config::Extract` has read the five leading fields and a
sequence of records, and holds what the node loop made of them. -/
theorem Extract_good {Loc : Type} (D : Decls Loc) (self : Config Loc) (s : IStream)
    (c : Config Loc) (s2 : IStream) (h : Config.Extract D self s = some (c, s2))
    (hg : s2.fail = false) :
    ∃ n pt bt cv ml toks recs rest, HeaderAt D s n pt bt cv ml toks ∧
      RecordsAt D toks recs rest ∧ s2 = .good rest ∧
      c = { mNodes := Nodes.ingestAll [] recs, mPrimaryTimeout := pt, mBackupTimeout := bt,
            mChangeVewMaxLogDistance := cv, mMaxListenersPerNode := ml } ∧
      (Nodes.ingestAll ([] : Nodes Loc) recs).length = n := by
  rcases Extract_cases D self s c s2 h with ⟨h1, _⟩ | h2
  · rw [h1] at hg; simp at hg
  · exact h2

/-- The encoding whose node record lacks its location is malformed: the leading
fields declare one node, the record declares one location, and no token is left
for it. -/
theorem inputMissingLocation_malformed :
    Malformed stdDecls (.good inputMissingLocation) := by
  rintro ⟨n, pt, bt, cv, ml, toks, recs, rest,
    ⟨t1, t2, t3, t4, t5, hs, h1, _, _, _, _, _, _, _, _⟩, hrec, hd⟩
  simp only [inputMissingLocation, IStream.good.injEq, List.cons.injEq] at hs
  obtain ⟨rfl, rfl, rfl, rfl, rfl, rfl⟩ := hs
  have e1 : convUnsigned kSizeBits (.num 1) = (1, true) := rfl
  rw [e1] at h1
  injection h1 with hn _
  subst hn
  cases hrec with
  | nil => simp [distinctIds] at hd
  | cons hr _ =>
    cases hr with
    | mk _ _ hc _ _ hat hl _ _ =>
      rw [e1] at hc
      injection hc with hcount _
      subst hcount
      cases hat with
      | nil => simp at hl
      | cons hget _ => simp [stdDecls] at hget

/-- C2, amended: on every malformed encoding, taken as the decoder reads it (a
number is read as far as it goes, so a field is non numeric only when it does
not begin with a number), and whatever the target held, `Config::Extract`, when
it returns, returns with the stream failed and the node map of the target empty
(`IsEmpty()` is true). -/
theorem Extract_malformed_empties {Loc : Type} (D : Decls Loc) (self : Config Loc)
    (s : IStream) (h : Malformed D s) (hr : Config.Extract D self s ≠ none) :
    ∃ c s2, Config.Extract D self s = some (c, s2) ∧ s2.fail = true ∧
      c.mNodes = [] ∧ c.IsEmpty = true := by
  obtain ⟨c, hc⟩ := (Extract_fails_iff_malformed D self s).mpr ⟨h, hr⟩
  rcases Extract_cases D self s c .failed hc with ⟨_, h2⟩ | ⟨n, pt, bt, cv, ml, toks, recs,
    rest, _, _, h3, _⟩
  · exact ⟨c, .failed, hc, rfl, by rw [h2], by rw [h2]; rfl⟩
  · cases h3

/-- Witness for the theorem above: an encoding whose node record lacks
its location is malformed, and decoding it into a target that held a node fails
and empties the target. -/
theorem Extract_malformed_empties_witness :
    Malformed stdDecls (.good inputMissingLocation) ∧
    Config.Extract stdDecls sampleTarget (.good inputMissingLocation) ≠ none ∧
    ∃ c s2, Config.Extract stdDecls sampleTarget (.good inputMissingLocation) = some (c, s2) ∧
      s2.fail = true ∧ c.mNodes = [] ∧ c.IsEmpty = true :=
  ⟨inputMissingLocation_malformed, by decide,
    Extract_malformed_empties stdDecls sampleTarget _ inputMissingLocation_malformed
      (by decide)⟩

/-- C3. All or nothing parameters: whenever `Config::Extract` fails, the four
parameters of the target are what they were before the call, also when fields
had been read successfully before the malformed one. -/
theorem Extract_failure_keeps_parameters {Loc : Type} (D : Decls Loc) (self : Config Loc)
    (s : IStream) (c : Config Loc) (s2 : IStream)
    (h : Config.Extract D self s = some (c, s2)) (hf : s2.fail = true) :
    c.mPrimaryTimeout = self.mPrimaryTimeout ∧ c.mBackupTimeout = self.mBackupTimeout ∧
    c.mChangeVewMaxLogDistance = self.mChangeVewMaxLogDistance ∧
    c.mMaxListenersPerNode = self.mMaxListenersPerNode := by
  rcases Extract_cases D self s c s2 h with ⟨_, h2⟩ | ⟨n, pt, bt, cv, ml, toks, recs,
    rest, _, _, h3, _⟩
  · rw [h2]; exact ⟨rfl, rfl, rfl, rfl⟩
  · rw [h3] at hf; simp at hf

/-- Witness for the theorem above: the four parameters 9, 12, 7
and 3 are read, then a location fails to parse; the target keeps 5, 11, 1024
and 2. -/
theorem Extract_failure_keeps_parameters_witness :
    Config.Extract stdDecls sampleTarget (.good inputBadPort) =
      some ({ sampleTarget with mNodes := [] }, .failed) ∧
    IStream.failed.fail = true ∧
    ({ sampleTarget with mNodes := [] } : Config ServerLocation).mPrimaryTimeout = 5 ∧
    ({ sampleTarget with mNodes := [] } : Config ServerLocation).mBackupTimeout = 11 ∧
    ({ sampleTarget with mNodes := [] } : Config ServerLocation).mChangeVewMaxLogDistance = 1024 ∧
    ({ sampleTarget with mNodes := [] } : Config ServerLocation).mMaxListenersPerNode = 2 :=
  ⟨rfl, rfl, Extract_failure_keeps_parameters stdDecls sampleTarget (.good inputBadPort)
    { sampleTarget with mNodes := [] } .failed rfl rfl⟩

/-- C6. Parameter bounds after decode: a configuration obtained from a
successful `Config::Extract` has `primaryTimeout ≥ 1`, `backupTimeout ≥ 1`,
`changeViewMaxLogDistance ≥ 0` and `maxListenersPerNode ≥ 1`. -/
theorem Extract_parameter_bounds {Loc : Type} (D : Decls Loc) (self : Config Loc)
    (s : IStream) (c : Config Loc) (s2 : IStream)
    (h : Config.Extract D self s = some (c, s2)) (hg : s2.fail = false) :
    1 ≤ c.mPrimaryTimeout ∧ 1 ≤ c.mBackupTimeout ∧ 0 ≤ c.mChangeVewMaxLogDistance ∧
    1 ≤ c.mMaxListenersPerNode := by
  obtain ⟨n, pt, bt, cv, ml, toks, recs, rest, hh, _, _, hc, _⟩ :=
    Extract_good D self s c s2 h hg
  obtain ⟨_, _, _, _, _, _, _, _, hpt, _, hbt, _, hcv, _, hml⟩ := hh
  subst hc
  exact ⟨by simpa using hpt, by simpa using hbt, hcv, Nat.one_le_iff_ne_zero.mpr hml⟩

/-- Witness for the theorem above: the text of the sample
configuration decodes successfully, to parameters within the bounds. -/
theorem Extract_parameter_bounds_witness :
    Config.Extract stdDecls sampleTarget (.good (Config.Insert stdDecls sampleConfig []).tokens) =
      some (sampleConfig, .good []) ∧ (IStream.good []).fail = false ∧
    (1 ≤ sampleConfig.mPrimaryTimeout ∧ 1 ≤ sampleConfig.mBackupTimeout ∧
      0 ≤ sampleConfig.mChangeVewMaxLogDistance ∧ 1 ≤ sampleConfig.mMaxListenersPerNode) :=
  ⟨rfl, rfl, Extract_parameter_bounds stdDecls sampleTarget
    (.good (Config.Insert stdDecls sampleConfig []).tokens) sampleConfig (.good []) rfl rfl⟩

/-- C4, amended: duplicate node ids on decode: a successful `Config::Extract`
has read the five leading fields and then a sequence of node records, up to
where it leaves the stream, which is where the declared number of distinct ids
was reached; for every id borne by one of these records, the entry stored
for the id is one of the records bearing it, every earlier record bearing the id
has a strictly higher primary order and every later one a primary order at
least as high: it is the earliest of the records with the lowest primary order. -/
theorem Extract_duplicate_ids {Loc : Type} (D : Decls Loc) (self : Config Loc)
    (s : IStream) (c : Config Loc) (s2 : IStream)
    (h : Config.Extract D self s = some (c, s2)) (hg : s2.fail = false) :
    ∃ n pt bt cv ml toks recs rest, HeaderAt D s n pt bt cv ml toks ∧
      RecordsAt D toks recs rest ∧ s2 = .good rest ∧
      ∀ k ∈ recs.map Prod.fst, ∃ v pre post,
        Nodes.find c.mNodes k = some v ∧ recs = pre ++ (k, v) :: post ∧
        (∀ e ∈ pre, e.1 = k → v.mPrimaryOrder < e.2.mPrimaryOrder) ∧
        (∀ e ∈ post, e.1 = k → v.mPrimaryOrder ≤ e.2.mPrimaryOrder) := by
  obtain ⟨n, pt, bt, cv, ml, toks, recs, rest, hh, hrec, hs2, hc, _⟩ :=
    Extract_good D self s c s2 h hg
  refine ⟨n, pt, bt, cv, ml, toks, recs, rest, hh, hrec, hs2, ?_⟩
  subst hc
  exact ingestAll_best recs

/-- Witness for the theorem above: of three records for id 5 with primary
orders 7, 3 and 3, the second is stored. -/
theorem Extract_duplicate_ids_witness :
    Config.Extract stdDecls sampleTarget (.good inputDuplicateIds) =
      some ({ mNodes := [(5, { mFlags := 2, mPrimaryOrder := 3, mLocations := [⟨"b", 20000⟩] }),
                         (6, { mFlags := 2, mPrimaryOrder := 0, mLocations := [⟨"d", 20000⟩] })],
              mPrimaryTimeout := 4, mBackupTimeout := 8, mChangeVewMaxLogDistance := 0,
              mMaxListenersPerNode := 16 }, .good []) ∧
    (IStream.good []).fail = false ∧
    ∃ n pt bt cv ml toks recs rest,
      HeaderAt stdDecls (.good inputDuplicateIds) n pt bt cv ml toks ∧
      RecordsAt stdDecls toks recs rest ∧ IStream.good [] = .good rest ∧
      ∀ k ∈ recs.map Prod.fst, ∃ v pre post,
        Nodes.find [(5, { mFlags := 2, mPrimaryOrder := 3, mLocations := [⟨"b", 20000⟩] }),
                    (6, { mFlags := 2, mPrimaryOrder := 0,
                          mLocations := [(⟨"d", 20000⟩ : ServerLocation)] })] k = some v ∧
        recs = pre ++ (k, v) :: post ∧
        (∀ e ∈ pre, e.1 = k → v.mPrimaryOrder < e.2.mPrimaryOrder) ∧
        (∀ e ∈ post, e.1 = k → v.mPrimaryOrder ≤ e.2.mPrimaryOrder) :=
  ⟨rfl, rfl, Extract_duplicate_ids stdDecls sampleTarget (.good inputDuplicateIds) _ (.good [])
    rfl rfl⟩

/-- Where the nodes of a successfully decoded configuration come from: the
first token is the size of the map, ids are distinct, and every node is one of
the records of the input. -/
theorem Extract_good_nodes {Loc : Type} (D : Decls Loc) (self : Config Loc)
    (s : IStream) (c : Config Loc) (s2 : IStream)
    (h : Config.Extract D self s = some (c, s2)) (hg : s2.fail = false) :
    ∃ (tCount : Token) (toks : List Token), s = .good (tCount :: toks) ∧
      convUnsigned kSizeBits tCount = (c.mNodes.length, true) ∧
      (c.mNodes.map Prod.fst).Nodup ∧
      ∀ e ∈ c.mNodes, 0 ≤ e.1 ∧ (∀ l ∈ e.2.mLocations, D.IsValid l = true) ∧
        ∃ (tId tLocCount tFlags tOrder : Token) (after rest : List Token),
          (tId :: tLocCount :: tFlags :: tOrder :: after) <:+ toks ∧
          convSigned D.nodeIdBits tId = (e.1, true) ∧
          convUnsigned kSizeBits tLocCount = (e.2.mLocations.length, true) ∧
          LocsAt D after e.2.mLocations rest := by
  obtain ⟨n, pt, bt, cv, ml, toks, recs, rest, hh, hrec, hs2, hc, hlen⟩ :=
    Extract_good D self s c s2 h hg
  obtain ⟨t1, t2, t3, t4, t5, hs, h1, _⟩ := hh
  subst hc
  refine ⟨t1, t2 :: t3 :: t4 :: t5 :: toks, hs, by rw [hlen]; exact h1,
    Ordered_nodup (ingestAll_Ordered recs Ordered_nil), ?_⟩
  intro e he
  obtain ⟨pre, mid, hsuf, hr⟩ := RecordsAt_mem D hrec e (ingestAll_mem recs e he)
  have hsuf2 : pre <:+ t2 :: t3 :: t4 :: t5 :: toks :=
    hsuf.trans ⟨[t2, t3, t4, t5], by simp⟩
  cases hr with
  | mk hid hnn hcnt hfl hord hat hl hv _ =>
    subst hl
    exact ⟨hnn, hv, _, _, _, _, _, _, hsuf2, hid, hcnt, hat⟩

/-- C7. Node well-formedness after decode: after a successful
`Config::Extract` the first token of the input is the size of the node map (the
declared `nodeCount`), the ids of the map are distinct, and every node of the
map has a non negative id, holds only valid locations, and is one of the records
of the input: its id, then a location count equal to the number of locations the
node holds, then flags and order, then the text of exactly these locations. -/
theorem Extract_nodes_well_formed {Loc : Type} (D : Decls Loc) (self : Config Loc)
    (s : IStream) (c : Config Loc) (s2 : IStream)
    (h : Config.Extract D self s = some (c, s2)) (hg : s2.fail = false) :
    ∃ (tCount : Token) (toks : List Token), s = .good (tCount :: toks) ∧
      convUnsigned kSizeBits tCount = (c.mNodes.length, true) ∧
      (c.mNodes.map Prod.fst).Nodup ∧
      ∀ e ∈ c.mNodes, 0 ≤ e.1 ∧ (∀ l ∈ e.2.mLocations, D.IsValid l = true) ∧
        ∃ (tId tLocCount tFlags tOrder : Token) (after rest : List Token),
          (tId :: tLocCount :: tFlags :: tOrder :: after) <:+ toks ∧
          convSigned D.nodeIdBits tId = (e.1, true) ∧
          convUnsigned kSizeBits tLocCount = (e.2.mLocations.length, true) ∧
          LocsAt D after e.2.mLocations rest :=
  Extract_good_nodes D self s c s2 h hg

/-- Witness for the theorem above, on the encoding with duplicate ids. -/
theorem Extract_nodes_well_formed_witness :
    Config.Extract stdDecls sampleTarget (.good inputDuplicateIds) =
      some ({ mNodes := [(5, { mFlags := 2, mPrimaryOrder := 3, mLocations := [⟨"b", 20000⟩] }),
                         (6, { mFlags := 2, mPrimaryOrder := 0, mLocations := [⟨"d", 20000⟩] })],
              mPrimaryTimeout := 4, mBackupTimeout := 8, mChangeVewMaxLogDistance := 0,
              mMaxListenersPerNode := 16 }, .good []) ∧
    (IStream.good []).fail = false ∧
    ∃ (tCount : Token) (toks : List Token), IStream.good inputDuplicateIds = .good (tCount :: toks) ∧
      convUnsigned kSizeBits tCount = (2, true) ∧
      ([(5 : Int), 6]).Nodup ∧
      ∀ e ∈ [((5 : Int), ({ mFlags := 2, mPrimaryOrder := 3, mLocations := [⟨"b", 20000⟩] } :
                Node ServerLocation)),
             (6, { mFlags := 2, mPrimaryOrder := 0, mLocations := [⟨"d", 20000⟩] })],
        0 ≤ e.1 ∧ (∀ l ∈ e.2.mLocations, stdDecls.IsValid l = true) ∧
        ∃ (tId tLocCount tFlags tOrder : Token) (after rest : List Token),
          (tId :: tLocCount :: tFlags :: tOrder :: after) <:+ toks ∧
          convSigned stdDecls.nodeIdBits tId = (e.1, true) ∧
          convUnsigned kSizeBits tLocCount = (e.2.mLocations.length, true) ∧
          LocsAt stdDecls after e.2.mLocations rest :=
  ⟨rfl, rfl, Extract_nodes_well_formed stdDecls sampleTarget (.good inputDuplicateIds) _
    (.good []) rfl rfl⟩

/-- C8, counterexample: an encoding with `primaryTimeout` 8 and `backupTimeout`
4 is decoded successfully, be it with no node or with one active node, and the
configuration obtained does not satisfy `backupTimeout > primaryTimeout`. -/
theorem Extract_timeout_order_counterexample :
    (∃ c s2, Config.Extract stdDecls sampleTarget (.good inputNoNodeBackupBelowPrimary) =
        some (c, s2) ∧
      s2.fail = false ∧ ¬ (c.mBackupTimeout > c.mPrimaryTimeout)) ∧
    (∃ c s2, Config.Extract stdDecls sampleTarget (.good inputBackupBelowPrimary) = some (c, s2) ∧
      s2.fail = false ∧ ¬ (c.mBackupTimeout > c.mPrimaryTimeout)) :=
  ⟨⟨{ mNodes := [], mPrimaryTimeout := 8, mBackupTimeout := 4, mChangeVewMaxLogDistance := 0,
      mMaxListenersPerNode := 16 }, .good [], rfl, rfl, by decide⟩,
   ⟨{ mNodes := [(0, { mFlags := 2, mPrimaryOrder := 0, mLocations := [⟨"meta0", 20000⟩] })],
      mPrimaryTimeout := 8, mBackupTimeout := 4, mChangeVewMaxLogDistance := 0,
      mMaxListenersPerNode := 16 }, .good [], rfl, rfl, by decide⟩⟩

/-- C8, amended: after a successful `Config::Extract` the two timeouts are the
values of the second and third token of the input, and each of them is
positive; they are not compared with each other. -/
theorem Extract_timeouts_positive {Loc : Type} (D : Decls Loc) (self : Config Loc)
    (s : IStream) (c : Config Loc) (s2 : IStream)
    (h : Config.Extract D self s = some (c, s2)) (hg : s2.fail = false) :
    ∃ (tCount tPrimary tBackup : Token) (toks : List Token),
      s = .good (tCount :: tPrimary :: tBackup :: toks) ∧
      convSigned kIntBits tPrimary = (c.mPrimaryTimeout, true) ∧
      convSigned kIntBits tBackup = (c.mBackupTimeout, true) ∧
      0 < c.mPrimaryTimeout ∧ 0 < c.mBackupTimeout := by
  obtain ⟨n, pt, bt, cv, ml, toks, recs, rest, hh, _, _, hc, _⟩ :=
    Extract_good D self s c s2 h hg
  obtain ⟨t1, t2, t3, t4, t5, hs, _, h2, hpt, h3, hbt, _⟩ := hh
  subst hc
  exact ⟨t1, t2, t3, t4 :: t5 :: toks, hs, h2, h3, hpt, hbt⟩

/-- Witness for the theorem above, on the encoding with timeouts 8
and 4. -/
theorem Extract_timeouts_positive_witness :
    Config.Extract stdDecls sampleTarget (.good inputBackupBelowPrimary) =
      some ({ mNodes := [(0, { mFlags := 2, mPrimaryOrder := 0,
                               mLocations := [⟨"meta0", 20000⟩] })],
              mPrimaryTimeout := 8, mBackupTimeout := 4, mChangeVewMaxLogDistance := 0,
              mMaxListenersPerNode := 16 }, .good []) ∧
    (IStream.good []).fail = false ∧
    ∃ (tCount tPrimary tBackup : Token) (toks : List Token),
      IStream.good inputBackupBelowPrimary = .good (tCount :: tPrimary :: tBackup :: toks) ∧
      convSigned kIntBits tPrimary = ((8 : Int), true) ∧
      convSigned kIntBits tBackup = ((4 : Int), true) ∧ (0 : Int) < 8 ∧ (0 : Int) < 4 :=
  ⟨rfl, rfl, Extract_timeouts_positive stdDecls sampleTarget (.good inputBackupBelowPrimary) _
    (.good []) rfl rfl⟩

/-- C9, counterexample: an encoding whose node record declares `locationCount`
0 is decoded successfully, and the node obtained has an empty location list. -/
theorem Extract_nonempty_locations_counterexample :
    ∃ c s2, Config.Extract stdDecls sampleTarget (.good inputNoLocation) = some (c, s2) ∧
      s2.fail = false ∧ ∃ e ∈ c.mNodes, e.2.mLocations = [] :=
  ⟨{ mNodes := [(0, { mFlags := 2, mPrimaryOrder := 0, mLocations := [] })],
     mPrimaryTimeout := 4, mBackupTimeout := 8, mChangeVewMaxLogDistance := 0,
     mMaxListenersPerNode := 16 }, .good [], rfl, rfl,
    (0, { mFlags := 2, mPrimaryOrder := 0, mLocations := [] }), by simp, rfl⟩

/-- C9, amended: after a successful `Config::Extract` every node of the map
holds exactly as many locations as the record it comes from declares, so that
its location list is non empty exactly when that record declares a
`locationCount` of at least 1. -/
theorem Extract_locations_as_declared {Loc : Type} (D : Decls Loc) (self : Config Loc)
    (s : IStream) (c : Config Loc) (s2 : IStream)
    (h : Config.Extract D self s = some (c, s2)) (hg : s2.fail = false) :
    ∃ all : List Token, s = .good all ∧
      ∀ e ∈ c.mNodes, ∃ (tId tLocCount : Token) (after : List Token) (count : Nat),
        (tId :: tLocCount :: after) <:+ all ∧
        convSigned D.nodeIdBits tId = (e.1, true) ∧
        convUnsigned kSizeBits tLocCount = (count, true) ∧
        e.2.mLocations.length = count ∧ (e.2.mLocations ≠ [] ↔ 1 ≤ count) := by
  obtain ⟨tCount, toks, hs, _, _, hall⟩ := Extract_good_nodes D self s c s2 h hg
  refine ⟨tCount :: toks, hs, ?_⟩
  intro e he
  obtain ⟨_, _, tId, tLocCount, tFlags, tOrder, after, rest, hsuf, hid, hcnt, _⟩ := hall e he
  refine ⟨tId, tLocCount, tFlags :: tOrder :: after, _, hsuf.trans (List.suffix_cons _ _),
    hid, hcnt, rfl, ?_⟩
  rw [← List.length_pos, Nat.lt_iff_add_one_le]

/-- Witness for the theorem above, on the encoding whose record
declares no location. -/
theorem Extract_locations_as_declared_witness :
    Config.Extract stdDecls sampleTarget (.good inputNoLocation) =
      some ({ mNodes := [(0, { mFlags := 2, mPrimaryOrder := 0, mLocations := [] })],
              mPrimaryTimeout := 4, mBackupTimeout := 8, mChangeVewMaxLogDistance := 0,
              mMaxListenersPerNode := 16 }, .good []) ∧
    (IStream.good []).fail = false ∧
    ∃ all : List Token, IStream.good inputNoLocation = .good all ∧
      ∀ e ∈ [((0 : Int), ({ mFlags := 2, mPrimaryOrder := 0, mLocations := [] } :
                Node ServerLocation))],
        ∃ (tId tLocCount : Token) (after : List Token) (count : Nat),
        (tId :: tLocCount :: after) <:+ all ∧
        convSigned stdDecls.nodeIdBits tId = (e.1, true) ∧
        convUnsigned kSizeBits tLocCount = (count, true) ∧
        e.2.mLocations.length = count ∧ (e.2.mLocations ≠ [] ↔ 1 ≤ count) :=
  ⟨rfl, rfl, Extract_locations_as_declared stdDecls sampleTarget (.good inputNoLocation) _
    (.good []) rfl rfl⟩

/-- C10, counterexample: an encoding declaring `nodeCount` 0 is decoded
successfully, into a configuration without any node, and an encoding of a single
node flagged witness only is decoded successfully too; neither configuration
has a node whose flags include `kFlagActive`. -/
theorem Extract_active_node_counterexample :
    (∃ c s2, Config.Extract stdDecls sampleTarget (.good inputNoNode) = some (c, s2) ∧
      s2.fail = false ∧ ¬ ∃ e ∈ c.mNodes, hasFlag e.2.mFlags kFlagActive = true) ∧
    (∃ c s2, Config.Extract stdDecls sampleTarget (.good inputWitnessOnly) = some (c, s2) ∧
      s2.fail = false ∧ ¬ ∃ e ∈ c.mNodes, hasFlag e.2.mFlags kFlagActive = true) :=
  ⟨⟨{ mNodes := [], mPrimaryTimeout := 4, mBackupTimeout := 8, mChangeVewMaxLogDistance := 0,
      mMaxListenersPerNode := 16 }, .good [], rfl, rfl, by simp⟩,
   ⟨{ mNodes := [(0, { mFlags := 1, mPrimaryOrder := 0, mLocations := [⟨"meta0", 20000⟩] })],
      mPrimaryTimeout := 4, mBackupTimeout := 8, mChangeVewMaxLogDistance := 0,
      mMaxListenersPerNode := 16 }, .good [], rfl, rfl, by
        simp only [List.mem_singleton, exists_eq_left]
        decide⟩⟩

/-- C10, amended: `Config::Extract` does not look at the flags. On a stream that
starts with the five leading fields, a declared `nodeCount` of 0 is decoded
successfully into an empty node map, and a declared `nodeCount` of 1 followed by
a node record is decoded successfully into that one node, whatever its flags. -/
theorem Extract_accepts_any_flags {Loc : Type} (D : Decls Loc) (self : Config Loc)
    (s : IStream) (n : Nat) (pt bt cv : Int) (ml : Nat) (toks : List Token)
    (hh : HeaderAt D s n pt bt cv ml toks) :
    (n = 0 → Config.Extract D self s =
      some ({ mNodes := [], mPrimaryTimeout := pt, mBackupTimeout := bt,
              mChangeVewMaxLogDistance := cv, mMaxListenersPerNode := ml }, .good toks)) ∧
    (n = 1 → ∀ (e : Int × Node Loc) (rest : List Token), RecordAt D toks e rest →
      Config.Extract D self s =
        some ({ mNodes := [e], mPrimaryTimeout := pt, mBackupTimeout := bt,
                mChangeVewMaxLogDistance := cv, mMaxListenersPerNode := ml }, .good rest)) := by
  constructor
  · intro hn
    subst hn
    rw [Extract_header_ok D self hh]
    simp [Config.extractNodes]
  · intro hn e rest hr
    subst hn
    have hloop := extractNodes_ordered D (RecordsAt.cons hr (RecordsAt.nil rest)) []
      (toks.length + 1) (by omega) (by simp [Nodes.Ordered])
    simp only [List.length_nil, List.length_singleton, Nat.zero_add, List.nil_append] at hloop
    rw [Extract_header_ok D self hh, hloop]
    simp

/-- Witness for the theorem above, on the encoding declaring no node. -/
theorem Extract_accepts_any_flags_witness :
    HeaderAt stdDecls (.good inputNoNode) 0 4 8 0 16 [] ∧
    (0 = 0 → Config.Extract stdDecls sampleTarget (.good inputNoNode) =
      some ({ mNodes := [], mPrimaryTimeout := 4, mBackupTimeout := 8,
              mChangeVewMaxLogDistance := 0, mMaxListenersPerNode := 16 }, .good [])) ∧
    (0 = 1 → ∀ (e : Int × Node ServerLocation) (rest : List Token),
      RecordAt stdDecls [] e rest →
      Config.Extract stdDecls sampleTarget (.good inputNoNode) =
        some ({ mNodes := [e], mPrimaryTimeout := 4, mBackupTimeout := 8,
                mChangeVewMaxLogDistance := 0, mMaxListenersPerNode := 16 }, .good rest)) :=
  have hh : HeaderAt stdDecls (.good inputNoNode) 0 4 8 0 16 [] :=
    ⟨.num 0, .num 4, .num 8, .num 0, .num 16, rfl, rfl, rfl, by decide, rfl, by decide, rfl,
      by decide, rfl, by decide⟩
  ⟨hh, Extract_accepts_any_flags stdDecls sampleTarget (.good inputNoNode) 0 4 8 0 16 [] hh⟩

/-! ## KfsOp: the content buffer -/

/-- C13. EnsureCapacity: when the op owns its buffer and `contentBufLen ≥ len`,
`EnsureCapacity(len)` changes nothing, neither in the op nor in the free store;
otherwise the op ends up owning an array allocated by the call (the array
created by `new char[len + 1]` after the old buffer was dealt with), with
`contentBufLen = len` exactly.  In every case the ownership flag is true and
`contentBufLen ≥ len` afterwards, and when the buffer was borrowed the call
applies `delete []` to nothing. -/
theorem EnsureCapacity_spec (self : KfsOp) (h : Heap) (len : Nat) :
    (self.contentBufOwnerFlag = true ∧ len ≤ self.contentBufLen →
      self.EnsureCapacity h len = (self, h)) ∧
    (¬ (self.contentBufOwnerFlag = true ∧ len ≤ self.contentBufLen) →
      (self.EnsureCapacity h len).1.contentBufOwnerFlag = true ∧
      (self.EnsureCapacity h len).1.contentBufLen = len ∧
      (self.EnsureCapacity h len).1.contentBuf = h.next + 1 ∧
      (self.EnsureCapacity h len).2.next = h.next + 1 ∧
      ∃ cells : List (Option Nat), cells.length = (len + 1) % 2 ^ kSizeBits ∧
        ((self.EnsureCapacity h len).1.contentBuf, cells) ∈
          (self.EnsureCapacity h len).2.arrays) ∧
    (self.EnsureCapacity h len).1.contentBufOwnerFlag = true ∧
    len ≤ (self.EnsureCapacity h len).1.contentBufLen ∧
    (self.contentBufOwnerFlag = false →
      (self.EnsureCapacity h len).2.deleted = h.deleted) := by
  by_cases hc : self.contentBufOwnerFlag = true ∧ len ≤ self.contentBufLen
  · have he : self.EnsureCapacity h len = (self, h) := by
      simp [KfsOp.EnsureCapacity, hc.1, hc.2]
    refine ⟨fun _ => he, fun hn => absurd hc hn, ?_, ?_, ?_⟩
    · rw [he]; exact hc.1
    · rw [he]; exact hc.2
    · intro hf; rw [hc.1] at hf; cases hf
  · have hcond : (decide (self.contentBufLen ≥ len) && self.contentBufOwnerFlag) = false := by
      rcases Bool.eq_false_or_eq_true self.contentBufOwnerFlag with ho | ho
      · have : ¬ len ≤ self.contentBufLen := fun hl => hc ⟨ho, hl⟩
        simp [ho, this]
      · simp [ho]
    have he : self.EnsureCapacity h len =
        (self.DeallocContentBuf h).1.AllocContentBuf (self.DeallocContentBuf h).2 len := by
      simp [KfsOp.EnsureCapacity, hcond]
    refine ⟨fun hp => absurd hp hc, fun _ => ?_, ?_, ?_, ?_⟩
    · rw [he]
      refine ⟨rfl, rfl, ?_, ?_, ?_⟩
      · by_cases ho : self.contentBufOwnerFlag = true <;>
          by_cases hz : self.contentBuf = 0 <;>
          simp [KfsOp.AllocContentBuf, KfsOp.DeallocContentBuf, Heap.newArray, Heap.store,
            Heap.deleteArray, ho, hz]
      · by_cases ho : self.contentBufOwnerFlag = true <;>
          by_cases hz : self.contentBuf = 0 <;>
          simp [KfsOp.AllocContentBuf, KfsOp.DeallocContentBuf, Heap.newArray, Heap.store,
            Heap.deleteArray, ho, hz]
      · refine ⟨(List.replicate ((len + 1) % 2 ^ kSizeBits) none).set len (some 0), by simp, ?_⟩
        by_cases ho : self.contentBufOwnerFlag = true <;>
          by_cases hz : self.contentBuf = 0 <;>
          simp [KfsOp.AllocContentBuf, KfsOp.DeallocContentBuf, Heap.newArray, Heap.store,
            Heap.deleteArray, ho, hz]
    · rw [he]; rfl
    · rw [he]; exact le_refl _
    · intro hf
      rw [he]
      simp [KfsOp.AllocContentBuf, KfsOp.DeallocContentBuf, Heap.newArray, Heap.store, hf]

/-- C14. AttachContentBuf: `AttachContentBuf(buf, len, owns)` leaves
`contentBuf = buf`, `contentBufLen = len` and the ownership flag `= owns` (a
call without the third argument is the call with `true`), applies `delete []`
to the previous buffer when the op owned it and leaves the free store alone when
it did not, and keeps every other member of the op. -/
theorem AttachContentBuf_spec (self : KfsOp) (h : Heap) (buf len : Nat) (owns : Bool) :
    (self.AttachContentBuf h buf len owns).1.contentBuf = buf ∧
    (self.AttachContentBuf h buf len owns).1.contentBufLen = len ∧
    (self.AttachContentBuf h buf len owns).1.contentBufOwnerFlag = owns ∧
    self.AttachContentBufDefault h buf len = self.AttachContentBuf h buf len true ∧
    (self.AttachContentBuf h buf len owns).2 =
      (if self.contentBufOwnerFlag = true then h.deleteArray self.contentBuf else h) ∧
    (self.AttachContentBuf h buf len owns).1.op = self.op ∧
    (self.AttachContentBuf h buf len owns).1.seq = self.seq ∧
    (self.AttachContentBuf h buf len owns).1.status = self.status ∧
    (self.AttachContentBuf h buf len owns).1.lastError = self.lastError ∧
    (self.AttachContentBuf h buf len owns).1.checksum = self.checksum ∧
    (self.AttachContentBuf h buf len owns).1.maxWaitMillisec = self.maxWaitMillisec ∧
    (self.AttachContentBuf h buf len owns).1.contentLength = self.contentLength ∧
    (self.AttachContentBuf h buf len owns).1.statusMsg = self.statusMsg ∧
    (self.AttachContentBuf h buf len owns).1.extraHeaders = self.extraHeaders ∧
    (self.AttachContentBuf h buf len owns).1.shortRpcFormatFlag = self.shortRpcFormatFlag := by
  refine ⟨rfl, rfl, rfl, rfl, ?_, rfl, rfl, rfl, rfl, rfl, rfl, rfl, rfl, rfl, rfl⟩
  by_cases ho : self.contentBufOwnerFlag = true <;>
    simp [KfsOp.AttachContentBuf, KfsOp.DeallocContentBuf, ho]

/-- C15. Releasing the buffer: `ReleaseContentBuf` and `DeallocContentBuf` both
leave `contentBuf` null and `contentBufLen = 0` and keep the ownership flag,
`contentLength` and every other member; `ReleaseContentBuf` does not touch the
free store, `DeallocContentBuf` applies `delete []` to the buffer when the op
owned it and leaves the free store alone when it did not. -/
theorem Release_Dealloc_spec (self : KfsOp) (h : Heap) :
    self.ReleaseContentBuf =
      { self with contentBuf := 0, contentBufLen := 0 } ∧
    (self.DeallocContentBuf h).1 = { self with contentBuf := 0, contentBufLen := 0 } ∧
    self.ReleaseContentBuf.contentBuf = 0 ∧ self.ReleaseContentBuf.contentBufLen = 0 ∧
    (self.DeallocContentBuf h).1.contentBuf = 0 ∧
    (self.DeallocContentBuf h).1.contentBufLen = 0 ∧
    self.ReleaseContentBuf.contentBufOwnerFlag = self.contentBufOwnerFlag ∧
    (self.DeallocContentBuf h).1.contentBufOwnerFlag = self.contentBufOwnerFlag ∧
    self.ReleaseContentBuf.contentLength = self.contentLength ∧
    (self.DeallocContentBuf h).1.contentLength = self.contentLength ∧
    (self.contentBufOwnerFlag = true →
      (self.DeallocContentBuf h).2 = h.deleteArray self.contentBuf) ∧
    (self.contentBufOwnerFlag = true → self.contentBuf ≠ 0 →
      (self.DeallocContentBuf h).2.deleted = h.deleted ++ [self.contentBuf]) ∧
    (self.contentBufOwnerFlag = false → (self.DeallocContentBuf h).2 = h) := by
  refine ⟨rfl, rfl, rfl, rfl, rfl, rfl, rfl, rfl, rfl, rfl, ?_, ?_, ?_⟩
  · intro ho; simp [KfsOp.DeallocContentBuf, ho]
  · intro ho hz; simp [KfsOp.DeallocContentBuf, Heap.deleteArray, ho, hz]
  · intro ho; simp [KfsOp.DeallocContentBuf, ho]

/-- C16. Shared opcode: for every sequence number, `DumpChunkServerMapOp` and
`DumpChunkMapOp` are both constructed with the opcode
`CMD_META_DUMP_CHUNKTOSERVERMAP`; the opcode does not tell them apart, and
neither carries `CMD_DUMP_CHUNKMAP`. -/
theorem Dump_ops_share_opcode (s : Int) :
    (DumpChunkServerMapOp.init s).op = KfsOp_t.CMD_META_DUMP_CHUNKTOSERVERMAP ∧
    (DumpChunkMapOp.init s).op = KfsOp_t.CMD_META_DUMP_CHUNKTOSERVERMAP ∧
    (DumpChunkServerMapOp.init s).op = (DumpChunkMapOp.init s).op ∧
    (DumpChunkServerMapOp.init s).op ≠ KfsOp_t.CMD_DUMP_CHUNKMAP ∧
    (DumpChunkMapOp.init s).op ≠ KfsOp_t.CMD_DUMP_CHUNKMAP := by
  refine ⟨rfl, rfl, rfl, ?_, ?_⟩ <;>
    simp [DumpChunkServerMapOp.init, DumpChunkMapOp.init, KfsOp.init]

/-! ## MetaVrSM: node id and quorum -/

/-- C17. Valid node id: `HasValidNodeId()` is true exactly when
`GetNodeId() ≥ 0`; it is false for the unassigned id -1 and true for the id 0. -/
theorem HasValidNodeId_iff {SM : Type} (GetNodeId : SM → Int) (self : SM) :
    (MetaVrSM.HasValidNodeId GetNodeId self = true ↔ 0 ≤ GetNodeId self) ∧
    (GetNodeId self = -1 → MetaVrSM.HasValidNodeId GetNodeId self = false) ∧
    (GetNodeId self = 0 → MetaVrSM.HasValidNodeId GetNodeId self = true) := by
  refine ⟨by simp [MetaVrSM.HasValidNodeId], ?_, ?_⟩
  · intro h; simp [MetaVrSM.HasValidNodeId, h]
  · intro h; simp [MetaVrSM.HasValidNodeId, h]

theorem count_foldl {α : Type} (p : α → Bool) (l : List α) :
    ∀ k : Nat, l.foldl (fun n e => if p e then n + 1 else n) k = k + (l.filter p).length := by
  induction l with
  | nil => intro k; simp
  | cons a l ih =>
    intro k
    by_cases ha : p a = true
    · simp [List.foldl_cons, ha, ih]; omega
    · simp [List.foldl_cons, ha, ih]

/-- C18. Quorum size: for every configuration, `GetQuorum()` is
`floor(|Active| / 2) + 1`, with `|Active|` the number of nodes whose flags include
Active. -/
theorem GetQuorum_eq {Loc : Type} (config : Config Loc) :
    MetaVrSM.GetQuorum config =
      (config.mNodes.filter fun e => hasFlag e.2.mFlags kFlagActive).length / 2 + 1 := by
  simp [MetaVrSM.GetQuorum, MetaVrSM.activeCount, count_foldl]

/-! ## Config: the default configuration -/

/-- C20. Default configuration: a default constructed `Config`, and any `Config`
after `Clear()`, has an empty node map, `primaryTimeout = 4`, `backupTimeout = 8`,
`changeViewMaxLogDistance = 131072` and `maxListenersPerNode = 16`; it satisfies
`primaryTimeout ≥ 1`, `backupTimeout > primaryTimeout`,
`changeViewMaxLogDistance ≥ 0` and `maxListenersPerNode ≥ 1`; `Clear` is
idempotent. -/
theorem Config_default {Loc : Type} (c : Config Loc) :
    (Config.init : Config Loc) =
      { mNodes := [], mPrimaryTimeout := 4, mBackupTimeout := 8,
        mChangeVewMaxLogDistance := 131072, mMaxListenersPerNode := 16 } ∧
    c.Clear =
      { mNodes := [], mPrimaryTimeout := 4, mBackupTimeout := 8,
        mChangeVewMaxLogDistance := 131072, mMaxListenersPerNode := 16 } ∧
    (Config.init : Config Loc).IsEmpty = true ∧ c.Clear.IsEmpty = true ∧
    (1 ≤ c.Clear.mPrimaryTimeout ∧ c.Clear.mPrimaryTimeout < c.Clear.mBackupTimeout ∧
      0 ≤ c.Clear.mChangeVewMaxLogDistance ∧ 1 ≤ c.Clear.mMaxListenersPerNode) ∧
    (1 ≤ (Config.init : Config Loc).mPrimaryTimeout ∧
      (Config.init : Config Loc).mPrimaryTimeout < (Config.init : Config Loc).mBackupTimeout ∧
      0 ≤ (Config.init : Config Loc).mChangeVewMaxLogDistance ∧
      1 ≤ (Config.init : Config Loc).mMaxListenersPerNode) ∧
    c.Clear.Clear = c.Clear := by
  refine ⟨rfl, rfl, rfl, rfl, ?_, ?_, rfl⟩ <;>
    simp [Config.Clear, Config.init]

/-! ## ChunkAccessOp::WriteReq -/

/-- C11. Chunk access request headers: `WriteReq` writes nothing when `access`
is empty; otherwise it appends to the stream, in this order and nothing else,
the subject id line if `hasSubjectIdFlag`, the access line, and the request
line: the chunk server access request if `createChunkServerAccessFlag`, else the
chunk access request if `createChunkAccessFlag`, else nothing. -/
theorem WriteReq_headers (R : ReqDecls) (self : ChunkAccessOp) (os : ReqOstream) :
    (self.access = "" → self.WriteReq R os = os) ∧
    (self.access ≠ "" → self.WriteReq R os =
      os ++ ((if self.hasSubjectIdFlag then
                subjectIdLine R self.shortRpcFormatFlag self.subjectId else "") ++
        accessLine self.shortRpcFormatFlag self.access ++
        requestLine self.shortRpcFormatFlag self.createChunkServerAccessFlag
          self.createChunkAccessFlag)) := by
  constructor
  · intro h
    have he : self.access.isEmpty = true := (String.isEmpty_iff _).mpr h
    simp only [ChunkAccessOp.WriteReq, he, if_true]
  · intro h
    have he : self.access.isEmpty = false := by
      rcases hb : self.access.isEmpty with _ | _
      · rfl
      · exact absurd ((String.isEmpty_iff _).mp hb) h
    cases hs : self.hasSubjectIdFlag <;> cases hf : self.shortRpcFormatFlag <;>
      cases hcs : self.createChunkServerAccessFlag <;>
      cases hca : self.createChunkAccessFlag <;>
      simp only [ChunkAccessOp.WriteReq, he, hs, hf, hcs, hca, subjectIdLine, accessLine,
        requestLine, String.append_assoc, if_true, if_false, Bool.false_eq_true,
        String.append_empty, String.empty_append]

/-! ## Short and long request headers -/

theorem splitCRLF_crlf (rest : List Char) :
    splitCRLF ('\r' :: '\n' :: rest) = [] :: splitCRLF rest := by
  simp [splitCRLF]

theorem splitCRLF_other (c d : Char) (rest : List Char) (h : ¬ (c = '\r' ∧ d = '\n')) :
    splitCRLF (c :: d :: rest) =
      (c :: (splitCRLF (d :: rest)).headD []) :: (splitCRLF (d :: rest)).tail := by
  rw [splitCRLF, if_neg h]
  split <;> simp [*]

theorem splitCRLF_ne_nil (X : List Char) : splitCRLF X ≠ [] := by
  match X with
  | [] => simp [splitCRLF]
  | [c] => simp [splitCRLF]
  | c :: d :: rest =>
    by_cases hcd : c = '\r' ∧ d = '\n'
    · rw [hcd.1, hcd.2, splitCRLF_crlf]; simp
    · rw [splitCRLF_other c d rest hcd]; simp

theorem headD_cons_tail {α : Type} (l : List α) (a : α) (h : l ≠ []) :
    l.headD a :: l.tail = l := by
  cases l with
  | nil => exact absurd rfl h
  | cons x xs => rfl

/-- Cutting a text that holds `CR LF` at a given place: the pieces are those of
what precedes followed by those of what follows. -/
theorem splitCRLF_append (Y : List Char) : ∀ (n : Nat) (X : List Char), X.length ≤ n →
    splitCRLF (X ++ '\r' :: '\n' :: Y) = splitCRLF X ++ splitCRLF Y := by
  intro n
  induction n with
  | zero =>
    intro X hX
    have hnil : X = [] := List.length_eq_zero.mp (by omega)
    subst hnil
    rw [List.nil_append, splitCRLF_crlf]
    simp [splitCRLF]
  | succ n ih =>
    intro X hX
    match X, hX with
    | [], _ =>
      rw [List.nil_append, splitCRLF_crlf]
      simp [splitCRLF]
    | [c], _ =>
      have h1 : ¬ (c = '\r' ∧ '\r' = '\n') := by
        intro h; exact absurd h.2 (by decide)
      have h3 : [c] ++ '\r' :: '\n' :: Y = c :: '\r' :: '\n' :: Y := rfl
      rw [h3, splitCRLF_other c '\r' _ h1, splitCRLF_crlf]
      simp [splitCRLF]
    | c :: d :: X', hX =>
      by_cases hcd : c = '\r' ∧ d = '\n'
      · have h1 := ih X' (by simp at hX; omega)
        have h3 : c :: d :: X' ++ '\r' :: '\n' :: Y = '\r' :: '\n' :: (X' ++ '\r' :: '\n' :: Y) := by
          rw [hcd.1, hcd.2]; rfl
        rw [h3, splitCRLF_crlf, h1, hcd.1, hcd.2, splitCRLF_crlf]
        rfl
      · have h1 := ih (d :: X') (by simp at hX ⊢; omega)
        have h3 : c :: d :: X' ++ '\r' :: '\n' :: Y = c :: d :: (X' ++ '\r' :: '\n' :: Y) := rfl
        have h4 : d :: X' ++ '\r' :: '\n' :: Y = d :: (X' ++ '\r' :: '\n' :: Y) := rfl
        rw [h4] at h1
        rw [h3, splitCRLF_other c d _ hcd, h1, splitCRLF_other c d _ hcd]
        rcases hsp : splitCRLF (d :: X') with _ | ⟨l, ls⟩
        · exact absurd hsp (splitCRLF_ne_nil _)
        · simp

/-- Cutting a text that starts with characters other than `CR`: they go in front
of the first piece. -/
theorem splitCRLF_head (X : List Char) : ∀ p : List Char, '\r' ∉ p →
    splitCRLF (p ++ X) = (p ++ (splitCRLF X).headD []) :: (splitCRLF X).tail := by
  intro p
  induction p with
  | nil =>
    intro _
    rw [List.nil_append, List.nil_append, headD_cons_tail _ _ (splitCRLF_ne_nil X)]
  | cons c p ih =>
    intro hp
    have hc : c ≠ '\r' := fun h => hp (by simp [h])
    have hp2 : '\r' ∉ p := fun h => hp (List.mem_cons_of_mem _ h)
    have h1 := ih hp2
    rcases hpx : p ++ X with _ | ⟨d, rest⟩
    · have hpn : p = [] := (List.append_eq_nil.mp hpx).1
      have hxn : X = [] := (List.append_eq_nil.mp hpx).2
      subst hpn; subst hxn
      simp [splitCRLF]
    · have hcd : ¬ (c = '\r' ∧ d = '\n') := fun h => hc h.1
      rw [hpx] at h1
      have h3 : c :: p ++ X = c :: d :: rest := by
        rw [List.cons_append, hpx]
      rw [h3, splitCRLF_other c d rest hcd, h1]
      rfl

/-- The normalized parse of a sequence of lines. -/
theorem normalize_filterMap_append (l1 l2 : List (List Char)) :
    normalizeHeaders ((l1 ++ l2).filterMap parseHeaderLine) =
      normalizeHeaders (l1.filterMap parseHeaderLine) ++
        normalizeHeaders (l2.filterMap parseHeaderLine) := by
  simp [normalizeHeaders, List.filterMap_append]

/-- The subject id line in short and in long form: same normalized parse,
whatever text stands for the id. -/
theorem subject_block_parity (X : List Char) :
    normalizeHeaders ((splitCRLF ("I:".data ++ X)).filterMap parseHeaderLine) =
      normalizeHeaders ((splitCRLF ("Subject-id: ".data ++ X)).filterMap parseHeaderLine) := by
  rw [splitCRLF_head X "I:".data (by decide), splitCRLF_head X "Subject-id: ".data (by decide)]
  have h1 : parseHeaderLine ("I:".data ++ (splitCRLF X).headD []) =
      some ("I", String.mk (((splitCRLF X).headD []).dropWhile (· == ' '))) := rfl
  have h2 : parseHeaderLine ("Subject-id: ".data ++ (splitCRLF X).headD []) =
      some ("Subject-id", String.mk (((splitCRLF X).headD []).dropWhile (· == ' '))) := rfl
  have h3 : normalizeName "I" = "Subject-id" := by decide
  have h4 : normalizeName "Subject-id" = "Subject-id" := by decide
  simp only [List.filterMap_cons, h1, h2, normalizeHeaders, List.map_cons, h3, h4]

/-- The access line in short and in long form: same normalized parse, whatever
the access token. -/
theorem access_block_parity (X : List Char) :
    normalizeHeaders ((splitCRLF ("C:".data ++ X)).filterMap parseHeaderLine) =
      normalizeHeaders ((splitCRLF ("C-access: ".data ++ X)).filterMap parseHeaderLine) := by
  rw [splitCRLF_head X "C:".data (by decide), splitCRLF_head X "C-access: ".data (by decide)]
  have h1 : parseHeaderLine ("C:".data ++ (splitCRLF X).headD []) =
      some ("C", String.mk (((splitCRLF X).headD []).dropWhile (· == ' '))) := rfl
  have h2 : parseHeaderLine ("C-access: ".data ++ (splitCRLF X).headD []) =
      some ("C-access", String.mk (((splitCRLF X).headD []).dropWhile (· == ' '))) := rfl
  have h3 : normalizeName "C" = "C-access" := by decide
  have h4 : normalizeName "C-access" = "C-access" := by decide
  simp only [List.filterMap_cons, h1, h2, normalizeHeaders, List.map_cons, h3, h4]

theorem dropLast_one_block (B Rq : List Char) :
    (splitCRLF (B ++ '\r' :: '\n' :: Rq)).dropLast = splitCRLF B ++ (splitCRLF Rq).dropLast := by
  rw [splitCRLF_append Rq B.length B (le_refl _),
    List.dropLast_append_of_ne_nil _ (splitCRLF_ne_nil Rq)]

theorem dropLast_two_blocks (B1 B2 Rq : List Char) :
    (splitCRLF (B1 ++ '\r' :: '\n' :: (B2 ++ '\r' :: '\n' :: Rq))).dropLast =
      splitCRLF B1 ++ (splitCRLF B2 ++ (splitCRLF Rq).dropLast) := by
  rw [splitCRLF_append _ B1.length B1 (le_refl _), List.dropLast_append_of_ne_nil _
    (splitCRLF_ne_nil _), dropLast_one_block]

/-- The request line in short and in long form: same normalized parse. -/
theorem request_block_parity (cs ca : Bool) :
    normalizeHeaders ((splitCRLF (requestLine true cs ca).data).dropLast.filterMap
      parseHeaderLine) =
    normalizeHeaders ((splitCRLF (requestLine false cs ca).data).dropLast.filterMap
      parseHeaderLine) := by
  cases cs <;> cases ca <;> decide

/-- The text `WriteReq` writes on an empty stream, character by character. -/
theorem WriteReq_data (R : ReqDecls) (self : ChunkAccessOp) (b : Bool)
    (h : self.access ≠ "") :
    ((self.withShort b).WriteReq R "").data =
      (if self.hasSubjectIdFlag then
        ((if b then "I:" else "Subject-id: ").data ++ (R.showInt self.subjectId).data) ++
          '\r' :: '\n' ::
            (((if b then "C:" else "C-access: ").data ++ self.access.data) ++ '\r' :: '\n' ::
              (requestLine b self.createChunkServerAccessFlag self.createChunkAccessFlag).data)
      else
        ((if b then "C:" else "C-access: ").data ++ self.access.data) ++ '\r' :: '\n' ::
          (requestLine b self.createChunkServerAccessFlag self.createChunkAccessFlag).data) := by
  have he : self.access.isEmpty = false := by
    rcases hb : self.access.isEmpty with _ | _
    · rfl
    · exact absurd ((String.isEmpty_iff _).mp hb) h
  have hcr : ("\r\n" : String).data = ['\r', '\n'] := rfl
  cases hs : self.hasSubjectIdFlag <;> cases b <;>
    cases hcs : self.createChunkServerAccessFlag <;>
    cases hca : self.createChunkAccessFlag <;>
    simp only [ChunkAccessOp.WriteReq, ChunkAccessOp.withShort, he, hs, hcs, hca, requestLine,
      String.data_append, hcr, if_true, if_false, Bool.false_eq_true, List.append_assoc,
      List.cons_append, List.nil_append, String.empty_append, String.append_empty]

/-- Parity of the two formats for every state of a `ChunkAccessOp`: the (name,
value) pairs parsed from the output of `WriteReq` with `shortRpcFormatFlag = true`
and those parsed from its output with `shortRpcFormatFlag = false` are the same
sequence once the short names are mapped to the long ones in both. -/
theorem WriteReq_parity_both (R : ReqDecls) (self : ChunkAccessOp) :
    normalizeHeaders (parseHeaders ((self.withShort true).WriteReq R "")) =
      normalizeHeaders (parseHeaders ((self.withShort false).WriteReq R "")) := by
  by_cases h : self.access = ""
  · have he : self.access.isEmpty = true := (String.isEmpty_iff _).mpr h
    simp only [ChunkAccessOp.WriteReq, ChunkAccessOp.withShort, he, if_true]
  · simp only [parseHeaders]
    rw [WriteReq_data R self true h, WriteReq_data R self false h]
    cases hs : self.hasSubjectIdFlag
    · simp only [Bool.false_eq_true, if_false, if_true]
      rw [dropLast_one_block, dropLast_one_block, normalize_filterMap_append,
        normalize_filterMap_append, access_block_parity, request_block_parity]
    · simp only [if_true, Bool.false_eq_true, if_false]
      rw [dropLast_two_blocks, dropLast_two_blocks, normalize_filterMap_append,
        normalize_filterMap_append, normalize_filterMap_append, normalize_filterMap_append,
        access_block_parity, request_block_parity, subject_block_parity]

theorem splitCRLF_plain (q : List Char) (h : '\r' ∉ q) : splitCRLF q = [q] := by
  have h1 := splitCRLF_head [] q h
  simpa [splitCRLF] using h1

theorem filterMap_normalize_append (l1 l2 : List (List Char)) :
    (l1 ++ l2).filterMap parseHeaderLine =
      l1.filterMap parseHeaderLine ++ l2.filterMap parseHeaderLine :=
  List.filterMap_append _ _ _

/-- The parse of the long output holds no short name when neither the access
token nor the text of the subject id holds a `CR`. -/
theorem WriteReq_long_normal (R : ReqDecls) (self : ChunkAccessOp)
    (ha : '\r' ∉ self.access.data) (hi : '\r' ∉ (R.showInt self.subjectId).data) :
    normalizeHeaders (parseHeaders ((self.withShort false).WriteReq R "")) =
      parseHeaders ((self.withShort false).WriteReq R "") := by
  by_cases h : self.access = ""
  · have he : self.access.isEmpty = true := (String.isEmpty_iff _).mpr h
    simp only [ChunkAccessOp.WriteReq, ChunkAccessOp.withShort, he, if_true]
    rfl
  · have hA : '\r' ∉ "C-access: ".data ++ self.access.data := by
      intro hm
      rcases List.mem_append.mp hm with h1 | h1
      · exact absurd h1 (by decide)
      · exact ha h1
    have hI : '\r' ∉ "Subject-id: ".data ++ (R.showInt self.subjectId).data := by
      intro hm
      rcases List.mem_append.mp hm with h1 | h1
      · exact absurd h1 (by decide)
      · exact hi h1
    have h1 : ∀ v : List Char, parseHeaderLine ("C-access: ".data ++ v) =
        some ("C-access", String.mk (v.dropWhile (· == ' '))) := fun _ => rfl
    have h2 : ∀ v : List Char, parseHeaderLine ("Subject-id: ".data ++ v) =
        some ("Subject-id", String.mk (v.dropWhile (· == ' '))) := fun _ => rfl
    have h3 : normalizeName "C-access" = "C-access" := by decide
    have h4 : normalizeName "Subject-id" = "Subject-id" := by decide
    have hreq : ∀ cs ca : Bool,
        normalizeHeaders ((splitCRLF (requestLine false cs ca).data).dropLast.filterMap
          parseHeaderLine) =
        (splitCRLF (requestLine false cs ca).data).dropLast.filterMap parseHeaderLine := by
      intro cs ca
      cases cs <;> cases ca <;> decide
    simp only [parseHeaders]
    rw [WriteReq_data R self false h]
    cases hs : self.hasSubjectIdFlag
    · simp only [Bool.false_eq_true, if_false]
      rw [dropLast_one_block, normalize_filterMap_append, filterMap_normalize_append, hreq,
        splitCRLF_plain _ hA]
      simp only [List.filterMap_cons, List.filterMap_nil, h1, normalizeHeaders, List.map_cons,
        List.map_nil, h3]
    · simp only [if_true, Bool.false_eq_true, if_false]
      rw [dropLast_two_blocks, normalize_filterMap_append, normalize_filterMap_append,
        filterMap_normalize_append, filterMap_normalize_append, hreq,
        splitCRLF_plain _ hA, splitCRLF_plain _ hI]
      simp only [List.filterMap_cons, List.filterMap_nil, h1, h2, normalizeHeaders,
        List.map_cons, List.map_nil, h3, h4]

/-- C12, amended. Short and long parity of the chunk access headers: for every
state of a `ChunkAccessOp` in which neither the access token nor the text
written for the subject id holds a carriage return, the sequence of (name,
value) pairs parsed from the output of `WriteReq` with
`shortRpcFormatFlag = true`, after mapping the short names `I`, `C`, `CR`, `SR`
to `Subject-id`, `C-access`, `C-access-req`, `CS-access-req`, is the sequence
parsed from its output with `shortRpcFormatFlag = false`. -/
theorem WriteReq_parity (R : ReqDecls) (self : ChunkAccessOp)
    (ha : '\r' ∉ self.access.data) (hi : '\r' ∉ (R.showInt self.subjectId).data) :
    normalizeHeaders (parseHeaders ((self.withShort true).WriteReq R "")) =
      parseHeaders ((self.withShort false).WriteReq R "") := by
  rw [WriteReq_parity_both, WriteReq_long_normal R self ha hi]

/-- Witness for the theorem above: an op with a subject id, an access token and
both request flags set. -/
theorem WriteReq_parity_witness :
    '\r' ∉ opAllFlags.access.data ∧ '\r' ∉ (stdReq.showInt opAllFlags.subjectId).data ∧
    normalizeHeaders (parseHeaders ((opAllFlags.withShort true).WriteReq stdReq "")) =
      parseHeaders ((opAllFlags.withShort false).WriteReq stdReq "") :=
  ⟨by decide, by decide, WriteReq_parity stdReq opAllFlags (by decide) (by decide)⟩

/-- C12, counterexample: for an op whose access token is `x`, a line break and
`C:y`, the parse of the short output with the short names mapped differs from
the parse of the long output: the line `C:y` is in both outputs, and only the
short side has its name mapped. -/
theorem WriteReq_parity_counterexample :
    normalizeHeaders (parseHeaders ((opAccessWithLineBreak.withShort true).WriteReq stdReq "")) ≠
      parseHeaders ((opAccessWithLineBreak.withShort false).WriteReq stdReq "") := by
  decide

/-! ## Monotone commit -/

theorem MetaVrLogSeq.le_refl (a : MetaVrLogSeq) : a.le a := by
  unfold MetaVrLogSeq.le; omega

theorem MetaVrLogSeq.le_trans {a b c : MetaVrLogSeq} (h1 : a.le b) (h2 : b.le c) : a.le c := by
  unfold MetaVrLogSeq.le at *; omega

theorem MetaVrLogSeq.le_advance (current new : MetaVrLogSeq) :
    current.le (current.advance new) := by
  unfold MetaVrLogSeq.advance
  split
  · assumption
  · exact MetaVrLogSeq.le_refl _

theorem VrState.step_monotone {α : Type} (P : VrRules α) (s : VrState α) (call : VrCall) :
    s.committedSeq.le (s.step P call).committedSeq := by
  cases call with
  | HandleLogBlock b e c t =>
    simp only [VrState.step, MetaVrSM.HandleLogBlock]
    split
    · exact MetaVrLogSeq.le_advance _ _
    · exact MetaVrLogSeq.le_refl _
  | LogBlockWriteDone b e c l ok =>
    simp only [VrState.step, MetaVrSM.LogBlockWriteDone]
    split
    · exact MetaVrLogSeq.le_advance _ _
    · exact MetaVrLogSeq.le_refl _

theorem VrState.run_monotone {α : Type} (P : VrRules α) (calls : List VrCall) :
    ∀ s : VrState α, s.committedSeq.le (s.run P calls).committedSeq := by
  induction calls with
  | nil => intro s; exact MetaVrLogSeq.le_refl _
  | cons call calls ih =>
    intro s
    exact MetaVrLogSeq.le_trans (VrState.step_monotone P s call) (ih (s.step P call))

/-- C19. Monotone commit: along every sequence of `HandleLogBlock` and
`LogBlockWriteDone` calls, from every state, the committed log sequence never
decreases in the lexicographic `(epoch, view, sequence)` order: what it is after
any part of the sequence is at most what it is after any longer part. -/
theorem committedSeq_monotone {α : Type} (P : VrRules α) (s : VrState α)
    (calls more : List VrCall) :
    (s.run P calls).committedSeq.le (s.run P (calls ++ more)).committedSeq := by
  have h : s.run P (calls ++ more) = (s.run P calls).run P more := by
    simp [VrState.run, List.foldl_append]
  rw [h]
  exact VrState.run_monotone P more _

/-! ## Node::Extract on a failed field -/

/-- The locations of a node are empty whenever `Node::Extract` leaves the stream
failed. -/
theorem Node_Extract_failed_locations {Loc : Type} (D : Decls Loc) (self : Node Loc)
    (s : IStream) (nd : Node Loc) (s2 : IStream) (h : Node.Extract D self s = some (nd, s2))
    (hf : s2.fail = true) : nd.mLocations = [] := by
  unfold Node.Extract at h
  simp only [Node.Clear] at h
  split_ifs at h with h1 h2 h3 h4 h5
  · simp only [Option.some.injEq, Prod.mk.injEq] at h; rw [← h.1]
  · simp only [Option.some.injEq, Prod.mk.injEq] at h; rw [← h.1]
  · simp only [Option.some.injEq, Prod.mk.injEq] at h; rw [← h.1]
  · simp only [Option.some.injEq, Prod.mk.injEq] at h; rw [← h.1]
  · exfalso
    simp only [Bool.not_eq_true] at h3
    obtain ⟨t, r, v, _, _, hr⟩ := getSigned_good h3
    rw [hr] at h h5
    simp only [bne_iff_ne, ne_eq, not_not, List.length_nil, Nat.sub_zero] at h5
    obtain ⟨new, rest, _, _, _, he⟩ := extractLocations_full D _ [] r (by simpa using h5)
    simp only [List.length_nil, Nat.sub_zero, Option.some.injEq, Prod.mk.injEq] at h
    rw [he] at h
    rw [← h.2] at hf
    simp at hf

/-- C21, the code on the failing input: for every prior node content,
`Node::Extract` on the text `1 2 x` (one location announced, flags 2, then a
word where the primary order is due) returns with the stream failed and the
node holding the flags 2, which is not the cleared state: the return after a
failed field comes before any call of `Clear`. -/
theorem Node_Extract_failure_keeps_flags {Loc : Type} (D : Decls Loc) (self : Node Loc) :
    Node.Extract D self (.good inputNodeBadOrder) =
      some ({ mFlags := 2, mPrimaryOrder := 0, mLocations := [] }, .failed) ∧
    ∀ (nd : Node Loc) (s2 : IStream),
      Node.Extract D self (.good inputNodeBadOrder) = some (nd, s2) →
      s2.fail = true ∧ nd.mFlags ≠ kFlagsNone ∧ nd ≠ self.Clear := by
  have h : Node.Extract D self (.good inputNodeBadOrder) =
      some ({ mFlags := 2, mPrimaryOrder := 0, mLocations := [] }, .failed) := rfl
  refine ⟨h, fun nd s2 h2 => ?_⟩
  rw [h] at h2
  simp only [Option.some.injEq, Prod.mk.injEq] at h2
  rw [← h2.1, ← h2.2]
  exact ⟨rfl, by simp [kFlagsNone], by simp [Node.Clear, kFlagsNone]⟩

/-! ## AllocateOp::Reset -/

/-- The member `Reset` stores in every member but `masterServer` the value the
constructor stores, and leaves `masterServer` as it is. -/
theorem Reset_fields {Loc Key : Type} (P : CtorDecls Loc Key) (self : AllocateOp Loc Key)
    (s f : Int) (p : String) :
    self.Reset P f p =
      { AllocateOp.init P s f p with toKfsOp := self.toKfsOp, masterServer := self.masterServer } :=
  rfl

/-- C26, the code on the failing input: an `AllocateOp` holding the master
`meta0:20000` still holds it after `Reset(11, "/b")`, while a newly constructed
`AllocateOp(2, 11, "/b")` holds a default constructed `masterServer`; the other
members declared by `AllocateOp` have the values of the new op. -/
theorem Reset_keeps_masterServer :
    (opAllocated.Reset stdCtor 11 "/b").masterServer = ⟨"meta0", 20000⟩ ∧
    (AllocateOp.init stdCtor 2 11 "/b").masterServer = stdCtor.locInit ∧
    (opAllocated.Reset stdCtor 11 "/b").masterServer ≠
      (AllocateOp.init stdCtor 2 11 "/b").masterServer ∧
    { opAllocated.Reset stdCtor 11 "/b" with
        toKfsOp := KfsOp.init .CMD_ALLOCATE 2, masterServer := stdCtor.locInit } =
      AllocateOp.init stdCtor 2 11 "/b" := by
  refine ⟨rfl, rfl, by decide, rfl⟩

/-! ## ChunkServerAccess::Get -/

theorem advance_eq_drop {E : Type} : ∀ (i : Nat) (l : List E),
    ChunkServerAccess.advance l i = l.drop i := by
  intro i
  induction i with
  | zero => intro l; cases l <;> rfl
  | succ i ih =>
    intro l
    cases l with
    | nil => rfl
    | cons a l => simpa [ChunkServerAccess.advance] using ih l

theorem drop_of_get {E : Type} : ∀ (i : Nat) (l : List E) (e : E),
    l.get? i = some e → ∃ t, l.drop i = e :: t := by
  intro i
  induction i with
  | zero =>
    intro l e h
    cases l with
    | nil => simp at h
    | cons a l => simp at h; exact ⟨l, by simp [h]⟩
  | succ i ih =>
    intro l e h
    cases l with
    | nil => simp at h
    | cons a l => simpa using ih l e (by simpa using h)

/-- C27, amended: `Get(i, location, chunkId, outKey)` returns no entry and
leaves `location` and `outKey` as they were when `i` is not less than the number
of entries.  Otherwise it stores the host and the port of the `i`-th entry in
key order in `location`, before it parses the stored key into `outKey`, and
returns that entry if the key parses and no entry if it does not: in both cases
`location` holds the host and port of the `i`-th entry afterwards. -/
theorem Get_indexed_spec {Key : Type} (K : KeyDecls Key) (self : ChunkServerAccess) (i : Nat)
    (location : ServerLocation) (chunkId : Int) (outKey : Key) :
    (self.mAccess.length ≤ i →
      self.Get K i location chunkId outKey = (none, location, outKey)) ∧
    (∀ e, self.mAccess.get? i = some e →
      (self.Get K i location chunkId outKey).2.1 = ⟨e.1.1.1, e.1.1.2⟩ ∧
      (self.Get K i location chunkId outKey).2.2 = (K.Parse outKey e.2.chunkServerKey).1 ∧
      (self.Get K i location chunkId outKey).1 =
        if (K.Parse outKey e.2.chunkServerKey).2 then some e.2 else none) := by
  constructor
  · intro h
    simp [ChunkServerAccess.Get, advance_eq_drop, List.drop_eq_nil_of_le h]
  · intro e h
    obtain ⟨t, ht⟩ := drop_of_get i self.mAccess e h
    cases hp : (K.Parse outKey e.2.chunkServerKey).2 <;>
      simp [ChunkServerAccess.Get, advance_eq_drop, ht, hp]

/-- C27, counterexample: in a table whose first entry is stored with a key that
does not parse, `Get(0, location, chunkId, outKey)` returns no entry, and
`location`, which held no host before the call, holds `cs1:30000` after it. -/
theorem Get_indexed_counterexample :
    (sampleAccess.Get stdKey 0 ⟨"", -1⟩ 7 "").1 = none ∧
    (sampleAccess.Get stdKey 0 ⟨"", -1⟩ 7 "").2.1 = ⟨"cs1", 30000⟩ ∧
    (sampleAccess.Get stdKey 0 ⟨"", -1⟩ 7 "").2.1 ≠ (⟨"", -1⟩ : ServerLocation) := by
  refine ⟨rfl, rfl, by decide⟩

/-! ## EnsureCapacity: the buffer afterwards -/

theorem EnsureCapacity_keep {self : KfsOp} (h : Heap) {len : Nat}
    (hc : self.contentBufOwnerFlag = true ∧ len ≤ self.contentBufLen) :
    self.EnsureCapacity h len = (self, h) := by
  simp [KfsOp.EnsureCapacity, hc.1, hc.2]

theorem EnsureCapacity_realloc {self : KfsOp} (h : Heap) {len : Nat}
    (hc : ¬ (self.contentBufOwnerFlag = true ∧ len ≤ self.contentBufLen)) :
    self.EnsureCapacity h len =
      (self.DeallocContentBuf h).1.AllocContentBuf (self.DeallocContentBuf h).2 len := by
  have hcond : (decide (self.contentBufLen ≥ len) && self.contentBufOwnerFlag) = false := by
    rcases Bool.eq_false_or_eq_true self.contentBufOwnerFlag with ho | ho
    · have : ¬ len ≤ self.contentBufLen := fun hl => hc ⟨ho, hl⟩
      simp [ho, this]
    · simp [ho]
  simp [KfsOp.EnsureCapacity, hcond]

theorem AllocContentBuf_cells (self : KfsOp) (h : Heap) (len : Nat) :
    (self.AllocContentBuf h len).1.contentBuf = h.next + 1 ∧
    (self.AllocContentBuf h len).2.cells (h.next + 1) =
      some ((List.replicate ((len + 1) % 2 ^ kSizeBits) none).set len (some 0)) := by
  simp [KfsOp.AllocContentBuf, Heap.newArray, Heap.store, Heap.cells]

theorem DeallocContentBuf_next (self : KfsOp) (h : Heap) :
    (self.DeallocContentBuf h).2.next = h.next := by
  unfold KfsOp.DeallocContentBuf Heap.deleteArray
  by_cases ho : self.contentBufOwnerFlag = true <;> by_cases hz : self.contentBuf = 0 <;>
    simp [ho, hz]

/-- C28, amended: after `EnsureCapacity(len)` the pointer `contentBuf` is not
null exactly when it was not null before, or `contentBufLen < len`, or the op
did not own its buffer; in the other case, that of an op owning a null buffer
with `contentBufLen ≥ len`, the call returns at once.  For a freshly constructed
op the pointer is not null afterwards exactly when `len > 0`. -/
theorem EnsureCapacity_nonnull (self : KfsOp) (h : Heap) (len : Nat) :
    ((self.EnsureCapacity h len).1.contentBuf ≠ 0 ↔
      (self.contentBuf ≠ 0 ∨ self.contentBufLen < len ∨ self.contentBufOwnerFlag = false)) ∧
    (∀ (o : KfsOp_t) (s : Int),
      (((KfsOp.init o s).EnsureCapacity h len).1.contentBuf ≠ 0 ↔ 0 < len)) := by
  have key : ∀ op : KfsOp, ((op.EnsureCapacity h len).1.contentBuf ≠ 0 ↔
      (op.contentBuf ≠ 0 ∨ op.contentBufLen < len ∨ op.contentBufOwnerFlag = false)) := by
    intro op
    by_cases hc : op.contentBufOwnerFlag = true ∧ len ≤ op.contentBufLen
    · rw [EnsureCapacity_keep h hc]
      constructor
      · intro hn; exact Or.inl hn
      · rintro (hn | hl | ho)
        · exact hn
        · exact absurd hc.2 (by omega)
        · rw [hc.1] at ho; cases ho
    · rw [EnsureCapacity_realloc h hc, (AllocContentBuf_cells _ _ len).1]
      constructor
      · intro _
        by_cases ho : op.contentBufOwnerFlag = true
        · exact Or.inr (Or.inl (by
            by_contra hl
            exact hc ⟨ho, by omega⟩))
        · exact Or.inr (Or.inr (by simpa using ho))
      · intro _; omega
  refine ⟨key self, fun o s => ?_⟩
  rw [key]
  simp [KfsOp.init]

/-- C28, counterexample: a freshly constructed op has a null `contentBuf`, zero
`contentBufLen` and the ownership flag set, and after `EnsureCapacity(0)` its
`contentBuf` is still null, nothing having been allocated. -/
theorem EnsureCapacity_nonnull_counterexample :
    freshOp.contentBuf = 0 ∧ freshOp.contentBufLen = 0 ∧ freshOp.contentBufOwnerFlag = true ∧
    (freshOp.EnsureCapacity emptyHeap 0).1.contentBuf = 0 ∧
    (freshOp.EnsureCapacity emptyHeap 0).2 = emptyHeap := by
  refine ⟨rfl, rfl, rfl, rfl, rfl⟩

/-- C29, amended: when the op owns its buffer and `contentBufLen ≥ len`,
`EnsureCapacity(len)` leaves the op and the free store as they are, and with
them the content.  Otherwise the content buffer of the op afterwards is the
array allocated by the call, in which the byte at `len` is 0 and no other byte
was stored: for every `k ≤ len` its first `k` bytes are indeterminate, whatever
the buffer held before. -/
theorem EnsureCapacity_content (self : KfsOp) (h : Heap) (len : Nat) :
    (self.contentBufOwnerFlag = true ∧ len ≤ self.contentBufLen →
      self.EnsureCapacity h len = (self, h) ∧
      ∀ k, (self.EnsureCapacity h len).1.content (self.EnsureCapacity h len).2 k =
        self.content h k) ∧
    (¬ (self.contentBufOwnerFlag = true ∧ len ≤ self.contentBufLen) →
      (self.EnsureCapacity h len).2.cells (self.EnsureCapacity h len).1.contentBuf =
        some ((List.replicate ((len + 1) % 2 ^ kSizeBits) none).set len (some 0)) ∧
      ∀ k, k ≤ len →
        (self.EnsureCapacity h len).1.content (self.EnsureCapacity h len).2 k =
          some (List.replicate (min k ((len + 1) % 2 ^ kSizeBits)) none)) := by
  constructor
  · intro hc
    rw [EnsureCapacity_keep h hc]
    exact ⟨rfl, fun _ => rfl⟩
  · intro hc
    rw [EnsureCapacity_realloc h hc]
    have h1 := AllocContentBuf_cells (self.DeallocContentBuf h).1 (self.DeallocContentBuf h).2 len
    have hcell : ((self.DeallocContentBuf h).1.AllocContentBuf (self.DeallocContentBuf h).2
        len).2.cells ((self.DeallocContentBuf h).1.AllocContentBuf (self.DeallocContentBuf h).2
        len).1.contentBuf =
        some ((List.replicate ((len + 1) % 2 ^ kSizeBits) none).set len (some 0)) := by
      rw [h1.1]; exact h1.2
    refine ⟨hcell, fun k hk => ?_⟩
    unfold KfsOp.content
    rw [hcell]
    simp only [Option.map_some']
    congr 1
    rw [List.set_take, List.take_replicate, List.set_eq_of_length_le]
    simp only [List.length_replicate]
    omega

/-- C29, counterexample: an op borrows a buffer of 2 bytes holding `104 105`;
after `EnsureCapacity(2)` the first 2 bytes of its content buffer are
indeterminate and so are not the bytes held before.  The same happens to an op
owning that buffer after `EnsureCapacity(3)`. -/
theorem EnsureCapacity_content_counterexample :
    opBorrowed.content heapWithBuffer (min 2 2) = some [some 104, some 105] ∧
    (opBorrowed.EnsureCapacity heapWithBuffer 2).1.content
      (opBorrowed.EnsureCapacity heapWithBuffer 2).2 (min 2 2) = some [none, none] ∧
    opOwned.content heapWithBuffer (min 2 3) = some [some 104, some 105] ∧
    (opOwned.EnsureCapacity heapWithBuffer 3).1.content
      (opOwned.EnsureCapacity heapWithBuffer 3).2 (min 2 3) = some [none, none] := by
  refine ⟨by decide, by decide, by decide, by decide⟩


/-! ## ChunkLeaseInfo::Parse -/

theorem parseServers_length_le {Loc : Type} (D : Decls Loc) :
    ∀ (k : Nat) (cs : List Loc) (s : IStream),
      (ChunkLeaseInfo.parseServers D k cs s).1.length ≤ cs.length + k := by
  intro k
  induction k with
  | zero => intro cs s; simp [ChunkLeaseInfo.parseServers]
  | succ k ih =>
    intro cs s
    cases s with
    | failed => simp [ChunkLeaseInfo.parseServers, IStream.getLoc]
    | good toks =>
      rcases hget : D.get toks with _ | ⟨l, j⟩
      · simp [ChunkLeaseInfo.parseServers, IStream.getLoc, hget]
      · have := ih (cs ++ [l]) (.good (toks.drop j))
        simp only [List.length_append, List.length_singleton] at this
        simp only [ChunkLeaseInfo.parseServers, IStream.getLoc, hget]
        omega

theorem parseServers_of {Loc : Type} (D : Decls Loc) {toks rest : List Token}
    {new : List Loc} (h : LocsAt D toks new rest) :
    ∀ cs : List Loc,
      ChunkLeaseInfo.parseServers D new.length cs (.good toks) = (cs ++ new, .good rest) := by
  induction h with
  | nil toks => intro cs; simp [ChunkLeaseInfo.parseServers]
  | @cons toks l k new rest hget _ ih =>
    intro cs
    have ht := ih (cs ++ [l])
    simp [ChunkLeaseInfo.parseServers, IStream.getLoc, hget, ht]

theorem parseServers_good {Loc : Type} (D : Decls Loc) :
    ∀ (k : Nat) (cs : List Loc) (s : IStream),
      (ChunkLeaseInfo.parseServers D k cs s).2.fail = false →
      ∃ toks new rest, s = .good toks ∧ new.length = k ∧ LocsAt D toks new rest ∧
        ChunkLeaseInfo.parseServers D k cs s = (cs ++ new, .good rest) := by
  intro k
  induction k with
  | zero =>
    intro cs s h
    cases s with
    | failed => simp [ChunkLeaseInfo.parseServers, IStream.fail] at h
    | good toks =>
      exact ⟨toks, [], toks, rfl, rfl, LocsAt.nil toks, by simp [ChunkLeaseInfo.parseServers]⟩
  | succ k ih =>
    intro cs s h
    cases s with
    | failed => simp [ChunkLeaseInfo.parseServers, IStream.getLoc, IStream.fail] at h
    | good toks =>
      rcases hget : D.get toks with _ | ⟨l, j⟩
      · simp [ChunkLeaseInfo.parseServers, IStream.getLoc, hget, IStream.fail] at h
      · have hstep : ChunkLeaseInfo.parseServers D (k + 1) cs (.good toks) =
            ChunkLeaseInfo.parseServers D k (cs ++ [l]) (.good (toks.drop j)) := by
          simp [ChunkLeaseInfo.parseServers, IStream.getLoc, hget]
        rw [hstep] at h ⊢
        obtain ⟨toks1, new, rest, h1, h2, h3, h4⟩ := ih (cs ++ [l]) (.good (toks.drop j)) h
        cases h1
        exact ⟨toks, l :: new, rest, rfl, by simp [h2], LocsAt.cons hget h3, by simp [h4]⟩

/-- C30. ChunkLeaseInfo::Parse: the servers held before have no influence on
the result; when `leaseId` or the count `numServers` cannot be read the stream is
failed and `chunkServers` is empty; when the stream is not failed afterwards the
text started with a lease id and a count `n` of their types, and `chunkServers`
holds exactly `max(n, 0)` locations, those that follow the count in the text, in
order, the stream being left after them; a text of this form is parsed in this
way; and in every case `chunkServers` holds at most `max(numServers, 0)`
entries, `numServers` being the variable the count was read into. -/
theorem ChunkLeaseInfo_Parse_spec {Loc : Type} (D : Decls Loc) (self : ChunkLeaseInfo Loc)
    (is : IStream) :
    (∀ cs : List Loc,
      ChunkLeaseInfo.Parse D { self with chunkServers := cs } is =
        ChunkLeaseInfo.Parse D self is) ∧
    (((is.getSigned kInt64Bits self.leaseId).2.getSigned kIntBits 0).2.fail = true →
      (ChunkLeaseInfo.Parse D self is).1.chunkServers = [] ∧
      (ChunkLeaseInfo.Parse D self is).2.fail = true) ∧
    ((ChunkLeaseInfo.Parse D self is).2.fail = false →
      ∃ (tId tCount : Token) (toks : List Token) (leaseId n : Int) (rest : List Token),
        is = .good (tId :: tCount :: toks) ∧
        convSigned kInt64Bits tId = (leaseId, true) ∧
        convSigned kIntBits tCount = (n, true) ∧
        ((ChunkLeaseInfo.Parse D self is).1.chunkServers.length : Int) = max n 0 ∧
        LocsAt D toks (ChunkLeaseInfo.Parse D self is).1.chunkServers rest ∧
        (ChunkLeaseInfo.Parse D self is).1.leaseId = leaseId ∧
        (ChunkLeaseInfo.Parse D self is).2 = .good rest) ∧
    (∀ (tId tCount : Token) (toks : List Token) (leaseId n : Int) (locs : List Loc)
        (rest : List Token),
      is = .good (tId :: tCount :: toks) →
      convSigned kInt64Bits tId = (leaseId, true) →
      convSigned kIntBits tCount = (n, true) →
      LocsAt D toks locs rest → (locs.length : Int) = max n 0 →
      ChunkLeaseInfo.Parse D self is =
        ({ leaseId := leaseId, chunkServers := locs }, .good rest)) ∧
    ((ChunkLeaseInfo.Parse D self is).1.chunkServers.length : Int) ≤
      max ((is.getSigned kInt64Bits self.leaseId).2.getSigned kIntBits 0).1 0 := by
  refine ⟨fun _ => rfl, ?_, ?_, ?_, ?_⟩
  · intro h
    simp [ChunkLeaseInfo.Parse, h]
  · intro h
    by_cases hf : ((is.getSigned kInt64Bits self.leaseId).2.getSigned kIntBits 0).2.fail = true
    · simp [ChunkLeaseInfo.Parse, hf] at h
    · simp only [Bool.not_eq_true] at hf
      obtain ⟨tCount, toks, n, h1, hc2, hr2⟩ := getSigned_good hf
      have hf1 : (is.getSigned kInt64Bits self.leaseId).2.fail = false := by
        rw [h1]; rfl
      obtain ⟨tId, toks1, leaseId, h0, hc1, hr1⟩ := getSigned_good hf1
      rw [hr1] at h1
      simp only [IStream.good.injEq] at h1
      subst h1
      have hP : ChunkLeaseInfo.Parse D self is =
          ({ leaseId := leaseId,
             chunkServers := (ChunkLeaseInfo.parseServers D n.toNat [] (.good toks)).1 },
           (ChunkLeaseInfo.parseServers D n.toNat [] (.good toks)).2) := by
        simp [ChunkLeaseInfo.Parse, h0, getSigned_of_conv _ _ hc1, getSigned_of_conv _ _ hc2]
      rw [hP] at h ⊢
      obtain ⟨toks2, new, rest, h2, h3, h4, h5⟩ :=
        parseServers_good D n.toNat [] (.good toks) h
      cases h2
      rw [h5]
      refine ⟨tId, tCount, toks, leaseId, n, rest, h0, hc1, hc2, ?_, ?_, rfl, rfl⟩
      · simp only [List.nil_append, h3]
        exact Int.toNat_eq_max n
      · simpa using h4
  · intro tId tCount toks leaseId n locs rest h0 hc1 hc2 hl hn
    have hk : n.toNat = locs.length := by
      have := Int.toNat_eq_max n
      omega
    have hp := parseServers_of D hl []
    simp [ChunkLeaseInfo.Parse, h0, getSigned_of_conv _ _ hc1, getSigned_of_conv _ _ hc2, hk, hp]
  · by_cases hf : ((is.getSigned kInt64Bits self.leaseId).2.getSigned kIntBits 0).2.fail = true
    · simp [ChunkLeaseInfo.Parse, hf]
    · have hle := parseServers_length_le D
        ((is.getSigned kInt64Bits self.leaseId).2.getSigned kIntBits 0).1.toNat []
        ((is.getSigned kInt64Bits self.leaseId).2.getSigned kIntBits 0).2
      have hm := Int.toNat_eq_max
        ((is.getSigned kInt64Bits self.leaseId).2.getSigned kIntBits 0).1
      simp only [ChunkLeaseInfo.Parse, hf]
      simp only [List.length_nil, Nat.zero_add] at hle
      simp only [Bool.false_eq_true, if_false]
      omega


/-! ## Request line precedence -/

/-- The text `WriteReq` appends for an op with a non empty `access` and both
request flags set: the subject id line if `hasSubjectIdFlag`, the access line,
and then the chunk server access request line and nothing else; and for every
op with a non empty `access`, what follows the access line is nothing, or the
one request line, or the other. -/
theorem WriteReq_request_text (R : ReqDecls) (self : ChunkAccessOp) (os : ReqOstream)
    (ha : self.access ≠ "") (hcs : self.createChunkServerAccessFlag = true)
    (hca : self.createChunkAccessFlag = true) :
    self.WriteReq R os =
      os ++ ((if self.hasSubjectIdFlag then
                subjectIdLine R self.shortRpcFormatFlag self.subjectId else "") ++
        accessLine self.shortRpcFormatFlag self.access ++
        (if self.shortRpcFormatFlag then "SR:1\r\n" else "CS-access-req: 1\r\n")) ∧
    (if self.shortRpcFormatFlag then "SR:1\r\n" else "CS-access-req: 1\r\n") ≠
      (if self.shortRpcFormatFlag then "CR:1\r\n" else "C-access-req: 1\r\n") ∧
    (∀ op : ChunkAccessOp, op.access ≠ "" →
      ∃ r : String,
        (r = "" ∨ r = (if op.shortRpcFormatFlag then "SR:1\r\n" else "CS-access-req: 1\r\n") ∨
          r = (if op.shortRpcFormatFlag then "CR:1\r\n" else "C-access-req: 1\r\n")) ∧
        (r = (if op.shortRpcFormatFlag then "SR:1\r\n" else "CS-access-req: 1\r\n") ↔
          op.createChunkServerAccessFlag = true) ∧
        op.WriteReq R os =
          os ++ ((if op.hasSubjectIdFlag then
                    subjectIdLine R op.shortRpcFormatFlag op.subjectId else "") ++
            accessLine op.shortRpcFormatFlag op.access ++ r)) := by
  have key : ∀ op : ChunkAccessOp, op.access ≠ "" → op.WriteReq R os =
      os ++ ((if op.hasSubjectIdFlag then
                subjectIdLine R op.shortRpcFormatFlag op.subjectId else "") ++
        accessLine op.shortRpcFormatFlag op.access ++
        requestLine op.shortRpcFormatFlag op.createChunkServerAccessFlag
          op.createChunkAccessFlag) := by
    intro op h
    have he : op.access.isEmpty = false := by
      rcases hb : op.access.isEmpty with _ | _
      · rfl
      · exact absurd ((String.isEmpty_iff _).mp hb) h
    cases hs : op.hasSubjectIdFlag <;> cases hf : op.shortRpcFormatFlag <;>
      cases hcs : op.createChunkServerAccessFlag <;>
      cases hca : op.createChunkAccessFlag <;>
      simp only [ChunkAccessOp.WriteReq, he, hs, hf, hcs, hca, subjectIdLine, accessLine,
        requestLine, String.append_assoc, if_true, if_false, Bool.false_eq_true,
        String.append_empty, String.empty_append]
  refine ⟨?_, ?_, ?_⟩
  · rw [key self ha, hcs, hca]
    rfl
  · cases self.shortRpcFormatFlag <;> decide
  · intro op h
    refine ⟨requestLine op.shortRpcFormatFlag op.createChunkServerAccessFlag
      op.createChunkAccessFlag, ?_, ?_, key op h⟩
    · cases op.shortRpcFormatFlag <;> cases op.createChunkServerAccessFlag <;>
        cases op.createChunkAccessFlag <;> simp [requestLine]
    · cases op.shortRpcFormatFlag <;> cases op.createChunkServerAccessFlag <;>
        cases op.createChunkAccessFlag <;> simp [requestLine]

/-! ## Decoding into different targets -/

/-- C24. Decode ignores the target's previous contents on success: when
`Config::Extract` of a text into a target `A` succeeds with the configuration
`c`, `Config::Extract` of the same text into any target `B` succeeds with the
same configuration `c` (node map and four parameters) and leaves the stream in
the same state. -/
theorem Extract_ignores_target {Loc : Type} (D : Decls Loc) (A B : Config Loc) (s : IStream)
    (c : Config Loc) (s2 : IStream) (h : Config.Extract D A s = some (c, s2))
    (hg : s2.fail = false) :
    Config.Extract D B s = some (c, s2) := by
  obtain ⟨n, pt, bt, cv, ml, toks, recs, rest, hh, _, _, _, _⟩ := Extract_good D A s c s2 h hg
  rw [Extract_header_ok D A hh] at h
  rw [Extract_header_ok D B hh]
  rcases hx : Config.extractNodes D n (toks.length + 1) [] (.good toks) with _ | ⟨nodes, s6⟩
  · rw [hx] at h; simp at h
  · rw [hx] at h
    simp only at h ⊢
    by_cases h1 : (nodes.length != n) = true
    · rw [if_pos h1] at h
      simp only [Option.some.injEq, Prod.mk.injEq] at h
      rw [← h.2] at hg
      simp [IStream.fail] at hg
    · rw [if_neg h1] at h ⊢
      by_cases h2 : (! s6.fail) = true
      · rw [if_pos h2] at h ⊢
        exact h
      · rw [if_neg h2] at h
        simp only [Option.some.injEq, Prod.mk.injEq] at h
        rw [← h.2] at hg
        simp [hg] at h2

/-- Witness for the theorem above: a text with two records decoded into two
different targets. -/
theorem Extract_ignores_target_witness :
    ∃ c, Config.Extract stdDecls sampleTarget (.good inputDuplicateIds) = some (c, .good []) ∧
      (IStream.good []).fail = false ∧
      Config.Extract stdDecls sampleConfig (.good inputDuplicateIds) = some (c, .good []) :=
  ⟨_, rfl, rfl, Extract_ignores_target stdDecls sampleTarget sampleConfig
    (.good inputDuplicateIds) _ (.good []) rfl rfl⟩

/-! ## AddNode and RemoveNode -/

theorem Ordered_nodup_pairs {Loc : Type} {m : Nodes Loc} (ho : Nodes.Ordered m) : m.Nodup := by
  unfold Nodes.Ordered at ho
  rw [List.pairwise_map] at ho
  exact ho.imp (fun {a b} hab heq => by rw [heq] at hab; exact lt_irrefl _ hab)

theorem find_eq_some_iff {Loc : Type} {m : Nodes Loc} (ho : Nodes.Ordered m) (k : Int)
    (v : Node Loc) : Nodes.find m k = some v ↔ (k, v) ∈ m :=
  ⟨find_some_mem, mem_find_some ho⟩

theorem find_eq_of_mem_iff {Loc : Type} {m1 m2 : Nodes Loc} (h1 : Nodes.Ordered m1)
    (h2 : Nodes.Ordered m2) (k : Int) (h : ∀ v, (k, v) ∈ m1 ↔ (k, v) ∈ m2) :
    Nodes.find m1 k = Nodes.find m2 k := by
  apply Option.ext
  intro v
  rw [Option.mem_def, Option.mem_def, find_eq_some_iff h1, find_eq_some_iff h2]
  exact h v

theorem Ordered_ext {Loc : Type} {m1 m2 : Nodes Loc} (h1 : Nodes.Ordered m1)
    (h2 : Nodes.Ordered m2) (h : ∀ e, e ∈ m1 ↔ e ∈ m2) : m1 = m2 := by
  have hp : m1.Perm m2 := (List.perm_ext_iff_of_nodup (Ordered_nodup_pairs h1) (Ordered_nodup_pairs h2)).mpr h
  have s1 : m1.Pairwise (fun a b => a.1 < b.1) := by
    unfold Nodes.Ordered at h1; rwa [List.pairwise_map] at h1
  have s2 : m2.Pairwise (fun a b => a.1 < b.1) := by
    unfold Nodes.Ordered at h2; rwa [List.pairwise_map] at h2
  haveI : IsAntisymm (Int × Node Loc) (fun a b => a.1 < b.1) :=
    ⟨fun a b hab hba => absurd hab (not_lt.mpr (le_of_lt hba))⟩
  exact List.eq_of_perm_of_sorted hp s1 s2

theorem insert_find {Loc : Type} {m : Nodes Loc} (ho : Nodes.Ordered m) (k : Int)
    (v : Node Loc) (hf : Nodes.find m k = none) (k2 : Int) :
    Nodes.find (Nodes.insert m k v).1 k2 = if k2 = k then some v else Nodes.find m k2 := by
  obtain ⟨_, ho2, _, hmem⟩ := insert_absent v ho hf
  apply Option.ext
  intro w
  rw [Option.mem_def, Option.mem_def, find_eq_some_iff ho2, hmem]
  by_cases hk : k2 = k
  · subst hk
    simp only [if_true, Prod.mk.injEq, true_and, Option.some.injEq]
    constructor
    · rintro (h | h)
      · exact h.symm
      · rw [← find_eq_some_iff ho, hf] at h; cases h
    · intro h; exact Or.inl h.symm
  · simp only [if_neg hk, Prod.mk.injEq, hk, false_and, false_or]
    exact (find_eq_some_iff ho k2 w).symm

theorem erase_spec {Loc : Type} (k : Int) :
    ∀ {m : Nodes Loc}, Nodes.Ordered m →
      Nodes.Ordered (Nodes.erase m k).1 ∧
      (∀ e, e ∈ (Nodes.erase m k).1 ↔ e ∈ m ∧ e.1 ≠ k) ∧
      (Nodes.erase m k).2 = (if (Nodes.find m k).isSome then 1 else 0) := by
  intro m
  induction m with
  | nil => intro _; simp [Nodes.erase, Nodes.find, Nodes.Ordered]
  | cons a m ih =>
    obtain ⟨k1, v1⟩ := a
    intro ho
    have hc := Ordered_cons.mp ho
    by_cases hk : k = k1
    · subst hk
      refine ⟨by simpa [Nodes.erase] using hc.2, ?_, by simp [Nodes.erase, Nodes.find]⟩
      intro e
      simp only [Nodes.erase, if_true, List.mem_cons]
      constructor
      · intro he
        exact ⟨Or.inr he, ne_of_gt (hc.1 e he)⟩
      · rintro ⟨he | he, hne⟩
        · rw [he] at hne; exact absurd rfl hne
        · exact he
    · obtain ⟨i1, i2, i3⟩ := ih hc.2
      have he : Nodes.erase ((k1, v1) :: m) k =
          ((k1, v1) :: (Nodes.erase m k).1, (Nodes.erase m k).2) := by
        simp [Nodes.erase, hk]
      rw [he]
      refine ⟨?_, ?_, ?_⟩
      · exact Ordered_cons.mpr ⟨fun e hmem => hc.1 e ((i2 e).mp hmem).1, i1⟩
      · intro e
        simp only [List.mem_cons, i2]
        constructor
        · rintro (h | h)
          · exact ⟨Or.inl h, by rw [h]; exact fun h2 => hk h2.symm⟩
          · exact ⟨Or.inr h.1, h.2⟩
        · rintro ⟨h | h, hne⟩
          · exact Or.inl h
          · exact Or.inr ⟨h, hne⟩
      · simp only [i3, Nodes.find, hk, if_false]

theorem erase_find {Loc : Type} {m : Nodes Loc} (ho : Nodes.Ordered m) (k k2 : Int) :
    Nodes.find (Nodes.erase m k).1 k2 = if k2 = k then none else Nodes.find m k2 := by
  obtain ⟨ho2, hmem, _⟩ := erase_spec k ho
  apply Option.ext
  intro w
  rw [Option.mem_def, Option.mem_def, find_eq_some_iff ho2, hmem]
  by_cases hk : k2 = k
  · simp [hk]
  · simp only [if_neg hk, ne_eq, hk, not_false_eq_true, and_true]
    exact (find_eq_some_iff ho k2 w).symm

theorem erase_insert {Loc : Type} (k : Int) (v : Node Loc) :
    ∀ {m : Nodes Loc}, Nodes.find m k = none →
      Nodes.erase (Nodes.insert m k v).1 k = (m, 1) := by
  intro m
  induction m with
  | nil => intro _; simp [Nodes.insert, Nodes.erase]
  | cons a m ih =>
    obtain ⟨k1, v1⟩ := a
    intro hf
    have hne : k ≠ k1 := by
      intro h; simp [Nodes.find, h] at hf
    have hf2 : Nodes.find m k = none := by simpa [Nodes.find, hne] using hf
    by_cases hlt : k < k1
    · simp [Nodes.insert, hlt, Nodes.erase]
    · simp [Nodes.insert, hlt, hne, Nodes.erase, ih hf2]

/-- C25. AddNode and RemoveNode, for a configuration whose map is in key order:
`AddNode(id, n)` returns true exactly when `id` is absent; then the map is still
in key order, its entries are those it had and `(id, n)`, and the parameters
are as before; when `id` is present it returns false and the configuration is as
before, whatever `n` holds.  `RemoveNode(id)` returns true exactly when `id` is
present; afterwards `id` is absent, the entries are those of the other ids, as
they were, and the parameters are as before.  `RemoveNode(id)` after an
`AddNode(id, n)` that returned true gives back the configuration there was. -/
theorem AddNode_RemoveNode_spec {Loc : Type} (c : Config Loc) (inId : Int) (n : Node Loc)
    (ho : Nodes.Ordered c.mNodes) :
    ((c.AddNode inId n).2 = true ↔ Nodes.find c.mNodes inId = none) ∧
    (Nodes.find c.mNodes inId = none →
      Nodes.Ordered (c.AddNode inId n).1.mNodes ∧
      (∀ e, e ∈ (c.AddNode inId n).1.mNodes ↔ e = (inId, n) ∨ e ∈ c.mNodes) ∧
      (∀ k, Nodes.find (c.AddNode inId n).1.mNodes k =
        if k = inId then some n else Nodes.find c.mNodes k) ∧
      (c.AddNode inId n).1 = { c with mNodes := (c.AddNode inId n).1.mNodes }) ∧
    (Nodes.find c.mNodes inId ≠ none → c.AddNode inId n = (c, false)) ∧
    ((c.RemoveNode inId).2 = true ↔ (Nodes.find c.mNodes inId).isSome = true) ∧
    Nodes.Ordered (c.RemoveNode inId).1.mNodes ∧
    (∀ e, e ∈ (c.RemoveNode inId).1.mNodes ↔ e ∈ c.mNodes ∧ e.1 ≠ inId) ∧
    (∀ k, Nodes.find (c.RemoveNode inId).1.mNodes k =
      if k = inId then none else Nodes.find c.mNodes k) ∧
    (c.RemoveNode inId).1 = { c with mNodes := (c.RemoveNode inId).1.mNodes } ∧
    ((c.AddNode inId n).2 = true → (c.AddNode inId n).1.RemoveNode inId = (c, true)) := by
  have hpres : Nodes.find c.mNodes inId ≠ none → c.AddNode inId n = (c, false) := by
    intro hf
    obtain ⟨v0, hv0⟩ := Option.ne_none_iff_exists'.mp hf
    simp [Config.AddNode, insert_present n ho hv0]
  have hiff : (c.AddNode inId n).2 = true ↔ Nodes.find c.mNodes inId = none := by
    constructor
    · intro ht
      by_contra hf
      rw [hpres hf] at ht
      cases ht
    · intro hf
      simp [Config.AddNode, (insert_absent n ho hf).1]
  obtain ⟨e1, e2, e3⟩ := erase_spec inId ho
  refine ⟨hiff, ?_, hpres, ?_, e1, e2, erase_find ho inId, rfl, ?_⟩
  · intro hf
    obtain ⟨_, a2, _, a4⟩ := insert_absent n ho hf
    exact ⟨a2, a4, insert_find ho inId n hf, rfl⟩
  · simp only [Config.RemoveNode, e3]
    cases (Nodes.find c.mNodes inId).isSome <;> simp
  · intro ht
    have hf := hiff.mp ht
    simp [Config.AddNode, Config.RemoveNode, erase_insert inId n hf]

/-- Witness for the theorem above: a node added to the sample configuration and
removed again. -/
theorem AddNode_RemoveNode_spec_witness :
    Nodes.Ordered sampleConfig.mNodes ∧
    ((sampleConfig.AddNode 7 Node.init).2 = true →
      (sampleConfig.AddNode 7 Node.init).1.RemoveNode 7 = (sampleConfig, true)) :=
  ⟨by simp [Nodes.Ordered, sampleConfig],
    (AddNode_RemoveNode_spec sampleConfig 7 Node.init
      (by simp [Nodes.Ordered, sampleConfig])).2.2.2.2.2.2.2.2⟩

/-! ## Canonical order of the encoding -/

theorem AddNode_ordered {Loc : Type} (c : Config Loc) (k : Int) (v : Node Loc)
    (ho : Nodes.Ordered c.mNodes) : Nodes.Ordered (c.AddNode k v).1.mNodes := by
  rcases hf : Nodes.find c.mNodes k with _ | v0
  · exact (insert_absent v ho hf).2.1
  · simpa [Config.AddNode, insert_present v ho hf] using ho

theorem AddNode_mem {Loc : Type} (c : Config Loc) (k : Int) (v : Node Loc)
    (ho : Nodes.Ordered c.mNodes) (e : Int × Node Loc) :
    e ∈ (c.AddNode k v).1.mNodes ↔
      e ∈ c.mNodes ∨ (e = (k, v) ∧ Nodes.find c.mNodes k = none) := by
  rcases hf : Nodes.find c.mNodes k with _ | v0
  · have := (insert_absent v ho hf).2.2.2 e
    simp only [Config.AddNode, this]
    tauto
  · simp [Config.AddNode, insert_present v ho hf]

theorem addNodes_cons {Loc : Type} (c : Config Loc) (a : Int × Node Loc)
    (l : List (Int × Node Loc)) :
    c.addNodes (a :: l) = (c.AddNode a.1 a.2).1.addNodes l := rfl

theorem addNodes_spec {Loc : Type} :
    ∀ (l : List (Int × Node Loc)) (c : Config Loc), Nodes.Ordered c.mNodes →
      (l.map Prod.fst).Nodup →
      Nodes.Ordered (c.addNodes l).mNodes ∧
      (∀ e, e ∈ (c.addNodes l).mNodes ↔
        e ∈ c.mNodes ∨ (e ∈ l ∧ Nodes.find c.mNodes e.1 = none)) ∧
      (c.addNodes l).mPrimaryTimeout = c.mPrimaryTimeout ∧
      (c.addNodes l).mBackupTimeout = c.mBackupTimeout ∧
      (c.addNodes l).mChangeVewMaxLogDistance = c.mChangeVewMaxLogDistance ∧
      (c.addNodes l).mMaxListenersPerNode = c.mMaxListenersPerNode := by
  intro l
  induction l with
  | nil => intro c ho _; simp [Config.addNodes, ho]
  | cons a l ih =>
    intro c ho hn
    rw [List.map_cons, List.nodup_cons] at hn
    have ho2 := AddNode_ordered c a.1 a.2 ho
    obtain ⟨i1, i2, i3, i4, i5, i6⟩ := ih (c.AddNode a.1 a.2).1 ho2 hn.2
    rw [addNodes_cons]
    refine ⟨i1, ?_, i3, i4, i5, i6⟩
    intro e
    rw [i2, AddNode_mem c a.1 a.2 ho]
    have hne : e ∈ l → e.1 ≠ a.1 := fun he h =>
      hn.1 (h ▸ List.mem_map_of_mem Prod.fst he)
    rcases hf : Nodes.find c.mNodes a.1 with _ | v0
    · have hfind := insert_find ho a.1 a.2 hf e.1
      have hm : (c.AddNode a.1 a.2).1.mNodes = (Nodes.insert c.mNodes a.1 a.2).1 := rfl
      rw [hm, hfind]
      simp only [List.mem_cons, and_true]
      constructor
      · rintro ((h | h) | ⟨h1, h2⟩)
        · exact Or.inl h
        · right; refine ⟨Or.inl h, ?_⟩; rw [h]; exact hf
        · right; refine ⟨Or.inr h1, ?_⟩; rwa [if_neg (hne h1)] at h2
      · rintro (h | ⟨h1 | h1, h2⟩)
        · exact Or.inl (Or.inl h)
        · exact Or.inl (Or.inr h1)
        · right; refine ⟨h1, ?_⟩; rwa [if_neg (hne h1)]
    · have hm : (c.AddNode a.1 a.2).1.mNodes = c.mNodes := by
        simp [Config.AddNode, insert_present a.2 ho hf]
      rw [hm]
      simp only [List.mem_cons, and_false, or_false, reduceCtorEq]
      constructor
      · rintro (h | ⟨h1, h2⟩)
        · exact Or.inl h
        · exact Or.inr ⟨Or.inr h1, h2⟩
      · rintro (h | ⟨h1 | h1, h2⟩)
        · exact Or.inl h
        · rw [h1, hf] at h2; cases h2
        · exact Or.inr ⟨h1, h2⟩

theorem addNodes_perm {Loc : Type} (c : Config Loc) (l1 l2 : List (Int × Node Loc))
    (ho : Nodes.Ordered c.mNodes) (hn : (l1.map Prod.fst).Nodup) (hp : l1.Perm l2) :
    c.addNodes l1 = c.addNodes l2 := by
  have hn2 : (l2.map Prod.fst).Nodup := (hp.map Prod.fst).nodup_iff.mp hn
  obtain ⟨a1, a2, a3, a4, a5, a6⟩ := addNodes_spec l1 c ho hn
  obtain ⟨b1, b2, b3, b4, b5, b6⟩ := addNodes_spec l2 c ho hn2
  have hm : (c.addNodes l1).mNodes = (c.addNodes l2).mNodes := by
    apply Ordered_ext a1 b1
    intro e
    rw [a2, b2, hp.mem_iff]
  cases h1 : c.addNodes l1
  cases h2 : c.addNodes l2
  rw [h1] at hm a3 a4 a5 a6
  rw [h2] at hm b3 b4 b5 b6
  simp only at hm a3 a4 a5 a6 b3 b4 b5 b6
  simp only [Config.mk.injEq]
  exact ⟨hm, a3.trans b3.symm, a4.trans b4.symm, a5.trans b5.symm, a6.trans b6.symm⟩

/-- C23, amended: canonical encoding order: for a configuration built by
`AddNode` calls from a configuration whose map is in key order (an empty one,
say), `Insert`
writes the five leading fields and then one record per node, the node ids
strictly ascending; and when the pairs added bear distinct ids, adding them in
another order to the same configuration gives the same configuration and with it
the same output of `Insert`. -/
theorem Insert_canonical_order {Loc : Type} (D : Decls Loc) (c : Config Loc)
    (l1 l2 : List (Int × Node Loc)) (ho : Nodes.Ordered c.mNodes)
    (hn : (l1.map Prod.fst).Nodup) (hp : l1.Perm l2) :
    ((c.addNodes l1).mNodes.map Prod.fst).Pairwise (· < ·) ∧
    (Config.Insert D (c.addNodes l1) []).tokens =
      [Token.num (c.addNodes l1).mNodes.length, .num c.mPrimaryTimeout, .num c.mBackupTimeout,
        .num c.mChangeVewMaxLogDistance, .num c.mMaxListenersPerNode] ++
      (c.addNodes l1).mNodes.flatMap (fun e =>
        [Token.num e.1, .num e.2.mLocations.length, .num e.2.mFlags, .num e.2.mPrimaryOrder] ++
          e.2.mLocations.flatMap D.put) ∧
    c.addNodes l1 = c.addNodes l2 ∧
    Config.Insert D (c.addNodes l1) [] = Config.Insert D (c.addNodes l2) [] := by
  obtain ⟨a1, _, a3, a4, a5, a6⟩ := addNodes_spec l1 c ho hn
  have hp2 := addNodes_perm c l1 l2 ho hn hp
  refine ⟨a1, ?_, hp2, by rw [hp2]⟩
  rw [Config_Insert_tokens, ← a3, ← a4, ← a5, ← a6]
  rfl

/-- Witness for the theorem above: two nodes added to an empty configuration in
the two possible orders. -/
theorem Insert_canonical_order_witness :
    Nodes.Ordered (Config.init : Config ServerLocation).mNodes ∧
    (pairsDescending.map Prod.fst).Nodup ∧ pairsDescending.Perm pairsAscending ∧
    Config.Insert stdDecls (Config.init.addNodes pairsDescending) [] =
      Config.Insert stdDecls (Config.init.addNodes pairsAscending) [] :=
  ⟨by simp [Nodes.Ordered, Config.init, Config.Clear], by decide, List.Perm.swap _ _ _,
    (Insert_canonical_order stdDecls Config.init pairsDescending pairsAscending
      (by simp [Nodes.Ordered, Config.init, Config.Clear]) (by decide) (List.Perm.swap _ _ _)).2.2.2⟩


/-! ## Glued fields, oversized location counts and late records -/

theorem ingest_length_ge {Loc : Type} (k : Int) (v : Node Loc) {m : Nodes Loc}
    (ho : Nodes.Ordered m) : m.length ≤ (Nodes.ingest m k v).length := by
  rw [(ingest_spec k v ho).2.2]
  split <;> omega

theorem ingestAll_length_ge {Loc : Type} (recs : List (Int × Node Loc)) :
    ∀ {m : Nodes Loc}, Nodes.Ordered m → m.length ≤ (Nodes.ingestAll m recs).length := by
  induction recs with
  | nil => intro m _; exact le_refl _
  | cons e recs ih =>
    intro m ho
    rw [ingestAll_cons]
    exact le_trans (ingest_length_ge e.1 e.2 ho) (ih (ingest_spec e.1 e.2 ho).1)

/-- The node loop on a stream that starts with records bearing fewer distinct
ids than declared, followed by a record that declares more locations than a
vector can hold: the exception leaves the loop. -/
theorem extractNodes_oversized {Loc : Type} (D : Decls Loc) (n : Nat) {toks mid : List Token}
    {recs : List (Int × Node Loc)} (h : RecordsAt D toks recs mid) (hov : OversizedAt D mid) :
    ∀ (m : Nodes Loc) (fuel : Nat), toks.length < fuel → Nodes.Ordered m →
      (Nodes.ingestAll m recs).length < n →
      Config.extractNodes D n fuel m (.good toks) = none := by
  induction h with
  | nil toks =>
    intro m fuel hf _ hlt
    cases fuel with
    | zero => omega
    | succ fuel => exact extractNodes_throws D n fuel m hov (by simpa [ingestAll_nil] using hlt)
  | @cons toks mid2 rest e recs hr _ ih =>
    intro m fuel hf ho hlt
    cases fuel with
    | zero => omega
    | succ fuel =>
      have hsp := ingest_spec e.1 e.2 ho
      rw [ingestAll_cons] at hlt
      have h1 := ingestAll_length_ge recs hsp.1
      have h2 := ingest_length_ge e.1 e.2 ho
      rw [extractNodes_step D n fuel m hr (by omega)]
      have hlen := RecordAt_length D hr
      exact ih hov (Nodes.ingest m e.1 e.2) fuel (by omega) hsp.1 hlt

/-- The exception, exactly: `Config::Extract` does not return if and only if the
stream starts with the five leading fields and a sequence of node records
bearing fewer distinct ids than declared, followed by a record that declares
more locations than a vector can hold. -/
theorem Extract_none_iff {Loc : Type} (D : Decls Loc) (self : Config Loc) (s : IStream) :
    Config.Extract D self s = none ↔
      ∃ n pt bt cv ml toks recs mid, HeaderAt D s n pt bt cv ml toks ∧
        RecordsAt D toks recs mid ∧ distinctIds recs < n ∧ OversizedAt D mid := by
  constructor
  · intro h
    obtain ⟨n, pt, bt, cv, ml, toks, recs, mid, hh, hrec, hov⟩ := Extract_none D self s h
    refine ⟨n, pt, bt, cv, ml, toks, recs, mid, hh, hrec, ?_, hov⟩
    by_contra hge
    have hge2 : n ≤ (Nodes.ingestAll ([] : Nodes Loc) recs).length := by
      rw [ingestAll_length]; omega
    obtain ⟨m2, rest2, hloop, _⟩ := extractNodes_of_records D n hrec [] (toks.length + 1)
      (by omega) Ordered_nil (by simp) hge2
    have hex := Extract_header_ok D self hh
    rw [hloop] at hex
    rw [h] at hex
    simp only at hex
    split_ifs at hex
  · rintro ⟨n, pt, bt, cv, ml, toks, recs, mid, hh, hrec, hd, hov⟩
    have hloop := extractNodes_oversized D n hrec hov [] (toks.length + 1) (by omega)
      Ordered_nil (by rw [ingestAll_length]; exact hd)
    rw [Extract_header_ok D self hh, hloop]

/-- The exception on a concrete input: the record of the one node declared
declares `2 ^ 62` locations, `reserve` throws, and `Config::Extract` does not
return. -/
theorem Extract_oversized_count :
    Config.Extract stdDecls sampleTarget (.good inputOversizedCount) = none := by
  decide

/-- C2, counterexample: the text `0 4 8 0 16x` is malformed, its fifth field
`16x` being no number; the decoder reads 16 from it, leaves `x` in the stream,
and returns with the stream good and the parameters 4, 8, 0 and 16 stored. -/
theorem Extract_malformed_counterexample :
    inputGluedField.map Token.whole = [.num 0, .num 4, .num 8, .num 0, .word "16x"] ∧
    Malformed stdDecls (.good (inputGluedField.map Token.whole)) ∧
    inputGluedField.flatMap Token.lexemes =
      [.num 0, .num 4, .num 8, .num 0, .num 16, .word "x"] ∧
    Config.Extract stdDecls sampleTarget (.good (inputGluedField.flatMap Token.lexemes)) =
      some ({ mNodes := [], mPrimaryTimeout := 4, mBackupTimeout := 8,
              mChangeVewMaxLogDistance := 0, mMaxListenersPerNode := 16 },
            .good [.word "x"]) ∧
    (IStream.good [Token.word "x"]).fail = false := by
  have hw : inputGluedField.map Token.whole =
      [.num 0, .num 4, .num 8, .num 0, .word "16x"] := by decide
  refine ⟨hw, ?_, by decide, by decide, rfl⟩
  rintro ⟨n, pt, bt, cv, ml, toks, recs, rest,
    ⟨t1, t2, t3, t4, t5, hs, _, _, _, _, _, _, _, h5, _⟩, _, _⟩
  rw [hw] at hs
  simp only [IStream.good.injEq, List.cons.injEq] at hs
  obtain ⟨rfl, rfl, rfl, rfl, rfl, rfl⟩ := hs
  simp [convUnsigned] at h5

/-- C4, counterexample: two nodes are declared and three records follow, for
the ids 5, 6 and 5, with the primary orders 7, 0 and 3.  The loop stops after
the second record, the decode succeeds, and the entry stored for the id 5 has
the primary order 7, although the third record bears the id 5 with the primary
order 3. -/
theorem Extract_duplicate_ids_counterexample :
    Config.Extract stdDecls sampleTarget (.good inputLateDuplicate) =
      some ({ mNodes := [(5, { mFlags := 2, mPrimaryOrder := 7, mLocations := [⟨"a", 20000⟩] }),
                         (6, { mFlags := 2, mPrimaryOrder := 0, mLocations := [⟨"d", 20000⟩] })],
              mPrimaryTimeout := 4, mBackupTimeout := 8, mChangeVewMaxLogDistance := 0,
              mMaxListenersPerNode := 16 },
            .good [.num 5, .num 1, .num 2, .num 3, .word "b:20000"]) ∧
    RecordsAt stdDecls (inputLateDuplicate.drop 5)
      [(5, { mFlags := 2, mPrimaryOrder := 7, mLocations := [⟨"a", 20000⟩] }),
       (6, { mFlags := 2, mPrimaryOrder := 0, mLocations := [⟨"d", 20000⟩] }),
       (5, { mFlags := 2, mPrimaryOrder := 3, mLocations := [⟨"b", 20000⟩] })] [] ∧
    Nodes.find [(5, ({ mFlags := 2, mPrimaryOrder := 7, mLocations := [⟨"a", 20000⟩] } :
                  Node ServerLocation)),
                (6, { mFlags := 2, mPrimaryOrder := 0, mLocations := [⟨"d", 20000⟩] })] 5 =
      some { mFlags := 2, mPrimaryOrder := 7, mLocations := [⟨"a", 20000⟩] } ∧
    (3 : Int) < 7 := by
  refine ⟨by decide, ?_, by decide, by decide⟩
  have hv : ∀ (h : String) (p : Int), (h != "" && decide (0 < p)) = true →
      ∀ l ∈ [(⟨h, p⟩ : ServerLocation)], stdDecls.IsValid l = true := by
    intro h p hp l hl
    simp only [List.mem_singleton] at hl
    subst hl
    exact hp
  exact RecordsAt.cons
    (RecordAt.mk rfl (by decide) rfl rfl rfl (LocsAt.cons rfl (LocsAt.nil _)) rfl
      (hv "a" 20000 (by decide)) (by decide))
    (RecordsAt.cons
      (RecordAt.mk rfl (by decide) rfl rfl rfl (LocsAt.cons rfl (LocsAt.nil _)) rfl
        (hv "d" 20000 (by decide)) (by decide))
      (RecordsAt.cons
        (RecordAt.mk rfl (by decide) rfl rfl rfl (LocsAt.cons rfl (LocsAt.nil _)) rfl
          (hv "b" 20000 (by decide)) (by decide))
        (RecordsAt.nil _)))


/-! ## The lines of a request -/

theorem withShort_self (self : ChunkAccessOp) :
    self.withShort self.shortRpcFormatFlag = self := rfl

/-- The lines of the output of `WriteReq` on an empty stream, for an op with a
non empty `access`, when neither the access token nor the text written for the
subject id holds a `CR`: the subject id line if `hasSubjectIdFlag`, the access
line, and the request line there is. -/
theorem WriteReq_lines (R : ReqDecls) (self : ChunkAccessOp) (ha : self.access ≠ "")
    (hcr : '\r' ∉ self.access.data) (hi : '\r' ∉ (R.showInt self.subjectId).data) :
    crlfLines (self.WriteReq R "") =
      (if self.hasSubjectIdFlag then
        [(if self.shortRpcFormatFlag then "I:" else "Subject-id: ").data ++
          (R.showInt self.subjectId).data]
       else []) ++
      ([(if self.shortRpcFormatFlag then "C:" else "C-access: ").data ++ self.access.data] ++
      (if self.createChunkServerAccessFlag then
        [(if self.shortRpcFormatFlag then "SR:1" else "CS-access-req: 1").data]
       else if self.createChunkAccessFlag then
        [(if self.shortRpcFormatFlag then "CR:1" else "C-access-req: 1").data]
       else [])) := by
  have hA : '\r' ∉ (if self.shortRpcFormatFlag then "C:" else "C-access: ").data ++
      self.access.data := by
    intro hm
    rcases List.mem_append.mp hm with h1 | h1
    · rcases Bool.eq_false_or_eq_true self.shortRpcFormatFlag with hb | hb <;>
        simp only [hb, if_true, Bool.false_eq_true, if_false] at h1 <;>
        exact absurd h1 (by decide)
    · exact hcr h1
  have hI : '\r' ∉ (if self.shortRpcFormatFlag then "I:" else "Subject-id: ").data ++
      (R.showInt self.subjectId).data := by
    intro hm
    rcases List.mem_append.mp hm with h1 | h1
    · rcases Bool.eq_false_or_eq_true self.shortRpcFormatFlag with hb | hb <;>
        simp only [hb, if_true, Bool.false_eq_true, if_false] at h1 <;>
        exact absurd h1 (by decide)
    · exact hi h1
  have hreq : ∀ b cs ca : Bool, (splitCRLF (requestLine b cs ca).data).dropLast =
      (if cs then [(if b then "SR:1" else "CS-access-req: 1").data]
       else if ca then [(if b then "CR:1" else "C-access-req: 1").data] else []) := by
    intro b cs ca
    cases b <;> cases cs <;> cases ca <;> decide
  have hd := WriteReq_data R self self.shortRpcFormatFlag ha
  rw [withShort_self] at hd
  unfold crlfLines
  rw [hd]
  cases hs : self.hasSubjectIdFlag
  · simp only [Bool.false_eq_true, if_false]
    rw [dropLast_one_block, hreq, splitCRLF_plain _ hA]
    rfl
  · simp only [if_true]
    rw [dropLast_two_blocks, hreq, splitCRLF_plain _ hA, splitCRLF_plain _ hI]

/-- C22, amended: access request precedence, for an op with a non empty `access`
when neither the access token nor the text written for the subject id holds a
`CR`.  The lines of the output of `WriteReq` are the subject id line if
`hasSubjectIdFlag`, the access line, and the request line there is; with both
`createChunkServerAccessFlag` and `createChunkAccessFlag` set that line is the
chunk server access request (`SR:1` in short format, `CS-access-req: 1` in long
format), and the chunk access request line, `CR:1` or `C-access-req: 1`, is not
among the lines; and whatever the flags, the two request lines are never both
among the lines of one output. -/
theorem WriteReq_precedence (R : ReqDecls) (self : ChunkAccessOp) (ha : self.access ≠ "")
    (hcr : '\r' ∉ self.access.data) (hi : '\r' ∉ (R.showInt self.subjectId).data) :
    (self.createChunkServerAccessFlag = true → self.createChunkAccessFlag = true →
      crlfLines (self.WriteReq R "") =
        (if self.hasSubjectIdFlag then
          [(if self.shortRpcFormatFlag then "I:" else "Subject-id: ").data ++
            (R.showInt self.subjectId).data]
         else []) ++
        [(if self.shortRpcFormatFlag then "C:" else "C-access: ").data ++ self.access.data,
         (if self.shortRpcFormatFlag then "SR:1" else "CS-access-req: 1").data] ∧
      "CR:1".data ∉ crlfLines (self.WriteReq R "") ∧
      "C-access-req: 1".data ∉ crlfLines (self.WriteReq R "")) ∧
    ¬ (((if self.shortRpcFormatFlag then "SR:1" else "CS-access-req: 1").data ∈
          crlfLines (self.WriteReq R "")) ∧
       ((if self.shortRpcFormatFlag then "CR:1" else "C-access-req: 1").data ∈
          crlfLines (self.WriteReq R ""))) := by
  have hl := WriteReq_lines R self ha hcr hi
  have e1 : "CR:1".data = ['C', 'R', ':', '1'] := rfl
  have e2 : "C-access-req: 1".data =
      ['C', '-', 'a', 'c', 'c', 'e', 's', 's', '-', 'r', 'e', 'q', ':', ' ', '1'] := rfl
  have e3 : "SR:1".data = ['S', 'R', ':', '1'] := rfl
  have e4 : "CS-access-req: 1".data =
      ['C', 'S', '-', 'a', 'c', 'c', 'e', 's', 's', '-', 'r', 'e', 'q', ':', ' ', '1'] := rfl
  have e5 : "I:".data = ['I', ':'] := rfl
  have e6 : "Subject-id: ".data =
      ['S', 'u', 'b', 'j', 'e', 'c', 't', '-', 'i', 'd', ':', ' '] := rfl
  have e7 : "C:".data = ['C', ':'] := rfl
  have e8 : "C-access: ".data = ['C', '-', 'a', 'c', 'c', 'e', 's', 's', ':', ' '] := rfl
  rw [hl]
  constructor
  · intro hcs hca
    rw [hcs]
    refine ⟨by simp, ?_, ?_⟩
    · cases self.hasSubjectIdFlag <;> cases self.shortRpcFormatFlag <;>
        simp [e1, e3, e4, e5, e6, e7, e8]
    · cases self.hasSubjectIdFlag <;> cases self.shortRpcFormatFlag <;>
        simp [e2, e3, e4, e5, e6, e7, e8]
  · cases self.hasSubjectIdFlag <;> cases self.shortRpcFormatFlag <;>
      cases self.createChunkServerAccessFlag <;> cases self.createChunkAccessFlag <;>
      simp [e1, e2, e3, e4, e5, e6, e7, e8]

/-- Witness for the theorem above: an op with a subject id, an access token and
both request flags. -/
theorem WriteReq_precedence_witness :
    opAllFlags.access ≠ "" ∧ '\r' ∉ opAllFlags.access.data ∧
    '\r' ∉ (stdReq.showInt opAllFlags.subjectId).data ∧
    opAllFlags.createChunkServerAccessFlag = true ∧ opAllFlags.createChunkAccessFlag = true ∧
    "CR:1".data ∉ crlfLines (opAllFlags.WriteReq stdReq "") ∧
    "C-access-req: 1".data ∉ crlfLines (opAllFlags.WriteReq stdReq "") :=
  ⟨by decide, by decide, by decide, rfl, rfl,
    ((WriteReq_precedence stdReq opAllFlags (by decide) (by decide) (by decide)).1 rfl rfl).2⟩

/-- C22, counterexample: an op in short format with both request flags set whose
access token is `x`, a line break and `CR:1`: the lines of the output of
`WriteReq` are `C:x`, `CR:1` and `SR:1`, the two request lines among them.  The
same in long format, with `C-access-req: 1` after the line break. -/
theorem WriteReq_precedence_counterexample :
    opAccessWithRequestLine.access ≠ "" ∧
    opAccessWithRequestLine.createChunkServerAccessFlag = true ∧
    opAccessWithRequestLine.createChunkAccessFlag = true ∧
    crlfLines (opAccessWithRequestLine.WriteReq stdReq "") =
      ["C:x".data, "CR:1".data, "SR:1".data] ∧
    "SR:1".data ∈ crlfLines (opAccessWithRequestLine.WriteReq stdReq "") ∧
    "CR:1".data ∈ crlfLines (opAccessWithRequestLine.WriteReq stdReq "") ∧
    crlfLines (opAccessWithRequestLineLong.WriteReq stdReq "") =
      ["C-access: x".data, "C-access-req: 1".data, "CS-access-req: 1".data] := by
  refine ⟨by decide, rfl, rfl, by decide, by decide, by decide, by decide⟩

/-! ## Pairs bearing the same id -/

/-- C23, counterexample: the two pairs `(1, nA)` and `(1, nB)` added to an empty
configuration in the two possible orders give different outputs of `Insert`:
`AddNode` keeps the pair added first. -/
theorem Insert_canonical_order_counterexample :
    pairsSameId.Perm pairsSameIdSwapped ∧
    Config.Insert stdDecls (Config.init.addNodes pairsSameId) [] ≠
      Config.Insert stdDecls (Config.init.addNodes pairsSameIdSwapped) [] ∧
    (Config.Insert stdDecls (Config.init.addNodes pairsSameId) []).tokens ≠
      (Config.Insert stdDecls (Config.init.addNodes pairsSameIdSwapped) []).tokens :=
  ⟨List.Perm.swap _ _ _, by decide, by decide⟩


end KFS
